import Mathlib

/-!
Milan with booleans: the one-pass translator

A shallow embedding of `src/compiler/parser.cpp` (the recursive-descent
translator of the Milan teaching language into stack-machine code) together
with the scanner interface of `src/compiler/scanner.h`.

* The scanner is a list of lexemes still to be read; the current lexeme is the
  head of the list and an exhausted list yields `T_EOF` forever.
* The parser object is a record of its fields (`scanner_`, `error_`,
  `variables_`, `lastVar_`) and of the instruction buffer it owns.
* Every production is a function `Nat → Parser → Option Parser`; the natural
  number bounds the depth of the call stack and `none` means that the bound was
  too small.  `parseFuel` is a bound that always suffices.
-/

namespace Milan

/-! ## scanner.h -/

/-- Lexeme kinds, `enum Token` of scanner.h. -/
inductive Token where
  | T_EOF | T_ILLEGAL | T_IDENTIFIER | T_NUMBER | T_BEGIN | T_END | T_IF | T_THEN
  | T_ELSE | T_FI | T_WHILE | T_DO | T_OD | T_WRITE | T_READ | T_FALSE | T_TRUE
  | T_ASSIGN | T_ADDOP | T_MULOP | T_BITWISEANDOP | T_BITWISEOROP | T_LOGICALANDOP
  | T_LOGICALOROP | T_LOGICALNOTOP | T_CMP | T_LPAREN | T_RPAREN | T_SEMICOLON
  deriving DecidableEq, Repr

/-- Comparison kinds, `enum Cmp` of scanner.h. -/
inductive Cmp where
  | C_EQ | C_NE | C_LT | C_GT | C_LE | C_GE
  deriving DecidableEq, Repr

/-- The integer value of a comparison kind (`C_EQ = 0`, ..., `C_GE = 5`), as it
is passed for the operand of `COMPARE`. -/
def Cmp.toInt : Cmp → Int
  | .C_EQ => 0
  | .C_NE => 1
  | .C_LT => 2
  | .C_GT => 3
  | .C_LE => 4
  | .C_GE => 5

/-- Arithmetic operator kinds, `enum Arithmetic` of scanner.h. -/
inductive Arithmetic where
  | A_PLUS | A_MINUS | A_MULTIPLY | A_DIVIDE
  deriving DecidableEq, Repr

/-- What the getters of `Scanner` return while one lexeme is current: `token()`,
`getIntValue()`, `getStringValue()`, `getCmpValue()`, `getArithmeticValue()`. -/
structure Lexeme where
  token : Token
  intValue : Int
  stringValue : String
  cmpValue : Cmp
  arithmeticValue : Arithmetic
  deriving DecidableEq, Repr

/-- The lexeme that is current once the input is exhausted. -/
def Lexeme.eof : Lexeme := ⟨.T_EOF, 0, "", .C_EQ, .A_PLUS⟩

/-- A lexeme that carries no value (keywords, brackets, `:=`, `;`, ...). -/
def Lexeme.kw (t : Token) : Lexeme := ⟨t, 0, "", .C_EQ, .A_PLUS⟩

/-- An integer literal. -/
def Lexeme.num (v : Int) : Lexeme := ⟨.T_NUMBER, v, "", .C_EQ, .A_PLUS⟩

/-- An identifier. -/
def Lexeme.ident (s : String) : Lexeme := ⟨.T_IDENTIFIER, 0, s, .C_EQ, .A_PLUS⟩

/-- A comparison operator. -/
def Lexeme.cmp (c : Cmp) : Lexeme := ⟨.T_CMP, 0, "", c, .A_PLUS⟩

/-- The lexeme of `+` or `-`. -/
def Lexeme.addop (a : Arithmetic) : Lexeme := ⟨.T_ADDOP, 0, "", .C_EQ, a⟩

/-- The lexeme of `*` or `/`. -/
def Lexeme.mulop (a : Arithmetic) : Lexeme := ⟨.T_MULOP, 0, "", .C_EQ, a⟩

/-! ## The instruction buffer -/

/-- Modelled from the spec: the opcodes of the stack machine (the code
generator's header is not part of the sources).  `NOP` is the placeholder that
`reserve` appends. -/
inductive Instruction where
  | NOP | STOP | PUSH | LOAD | STORE | ADD | SUB | MULT | DIV | INVERT | AND | OR
  | COMPARE | DUP | JUMP | JUMP_YES | JUMP_NO | PRINT | INPUT
  deriving DecidableEq, Repr

/-- Modelled from the spec: an instruction is an opcode with an optional integer
operand. -/
structure Command where
  instruction : Instruction
  arg : Option Int
  deriving DecidableEq, Repr

/-- Diagnostics handed to `reportError`. -/
inductive Diagnostic where
  | foundWhileExpected (found expected : Token)
  | statementExpected
  | expressionExpected
  deriving DecidableEq, Repr

/-! ## The parser object -/

/-- The fields of `Parser` together with the state of the code generator it
owns.  `reserved` and `filled` log the addresses returned by `reserve` and
passed to `emitAt`; `flushed` records whether `flush` was invoked. -/
structure Parser where
  scanner_ : List Lexeme
  error_ : Bool
  variables_ : List (String × Nat)
  lastVar_ : Nat
  code : List Command
  reserved : List Nat
  filled : List Nat
  flushed : Bool
  diagnostics : List Diagnostic
  deriving DecidableEq, Repr

namespace Parser

/-- Modelled from the spec: a fresh translator over the given lexemes: no error,
empty variable table with addresses starting at 0, empty instruction buffer. -/
def init (toks : List Lexeme) : Parser :=
  ⟨toks, false, [], 0, [], [], [], false, []⟩

/-- The current lexeme. -/
def lexeme (p : Parser) : Lexeme := p.scanner_.headD Lexeme.eof

/-- The kind of the current lexeme, `scanner_->token()`. -/
def token (p : Parser) : Token := p.lexeme.token

/-- Modelled from the spec: `see(t)` tests the current token without consuming
it. -/
def see (p : Parser) (t : Token) : Bool := decide (p.token = t)

/-- Modelled from the spec: `next()` advances the scanner by one lexeme; at the
end of the input the scanner keeps answering `T_EOF`. -/
def next (p : Parser) : Parser := { p with scanner_ := p.scanner_.tail }

/-- Modelled from the spec: `match(t)` consumes the current token when it is
`t` and tells whether it did. -/
def match_ (p : Parser) (t : Token) : Bool × Parser :=
  if p.see t then (true, p.next) else (false, p)

/-- Modelled from the spec: `reportError` records a diagnostic and sets the
error flag. -/
def reportError (p : Parser) (d : Diagnostic) : Parser :=
  { p with error_ := true, diagnostics := p.diagnostics ++ [d] }

/-- Modelled from the spec: `getCurrentAddress()` is the index the next `emit`
would occupy. -/
def getCurrentAddress (p : Parser) : Nat := p.code.length

/-- Modelled from the spec: `emit` appends an instruction. -/
def emit (p : Parser) (i : Instruction) (arg : Option Int) : Parser :=
  { p with code := p.code ++ [⟨i, arg⟩] }

/-- Modelled from the spec: `reserve()` appends a placeholder and returns its
address. -/
def reserve (p : Parser) : Nat × Parser :=
  (p.code.length,
    { p with code := p.code ++ [⟨.NOP, none⟩], reserved := p.reserved ++ [p.code.length] })

/-- Modelled from the spec: `emitAt` overwrites the instruction at an address. -/
def emitAt (p : Parser) (address : Nat) (i : Instruction) (arg : Option Int) : Parser :=
  { p with code := p.code.set address ⟨i, arg⟩, filled := p.filled ++ [address] }

/-- Modelled from the spec: `flush()` exposes the finished instruction
sequence. -/
def flush (p : Parser) : Parser := { p with flushed := true }

/-- `Parser::findOrAddVariable`. -/
def findOrAddVariable (p : Parser) (var : String) : Nat × Parser :=
  match p.variables_.lookup var with
  | none =>
    (p.lastVar_,
      { p with variables_ := p.variables_ ++ [(var, p.lastVar_)], lastVar_ := p.lastVar_ + 1 })
  | some a => (a, p)

/-- The loop of `Parser::recover`: `while (!see(t) && !see(T_EOF)) next();`,
on the list of lexemes still to be read. -/
def recoverLoop (t : Token) : List Lexeme → List Lexeme
  | [] => []
  | l :: ls => if l.token = t ∨ l.token = .T_EOF then l :: ls else recoverLoop t ls

/-- `Parser::recover`. -/
def recover (p : Parser) (t : Token) : Parser :=
  let p1 : Parser := { p with scanner_ := recoverLoop t p.scanner_ }
  if p1.see t then p1.next else p1

/-- `Parser::mustBe`. -/
def mustBe (p : Parser) (t : Token) : Parser :=
  if (p.match_ t).1 then (p.match_ t).2
  else (({ p with error_ := true } : Parser).reportError (.foundWhileExpected p.token t)).recover t

end Parser

/-! ## The productions -/

mutual

/-- `Parser::statementList`. -/
def statementList : Nat → Parser → Option Parser
  | 0, _ => none
  | n + 1, p =>
    if p.see .T_END || p.see .T_OD || p.see .T_ELSE || p.see .T_FI then some p
    else statementListLoop n p

/-- The loop `while (more) { statement(); more = match(T_SEMICOLON); }` of
`Parser::statementList`. -/
def statementListLoop : Nat → Parser → Option Parser
  | 0, _ => none
  | n + 1, p =>
    (statement n p).bind fun p1 =>
      if (p1.match_ .T_SEMICOLON).1 then statementListLoop n (p1.match_ .T_SEMICOLON).2
      else some (p1.match_ .T_SEMICOLON).2

/-- `Parser::statement`. -/
def statement : Nat → Parser → Option Parser
  | 0, _ => none
  | n + 1, p =>
    if p.see .T_IDENTIFIER then
      let varAddress := (p.findOrAddVariable p.lexeme.stringValue).1
      let p1 := (p.findOrAddVariable p.lexeme.stringValue).2
      (expression n (p1.next.mustBe .T_ASSIGN)).bind fun p2 =>
        some (p2.emit .STORE (some varAddress))
    else if (p.match_ .T_IF).1 then
      (expression n (p.match_ .T_IF).2).bind fun p1 =>
        let jumpNoAddress := p1.reserve.1
        (statementList n (p1.reserve.2.mustBe .T_THEN)).bind fun p2 =>
          if (p2.match_ .T_ELSE).1 then
            let p3 := (p2.match_ .T_ELSE).2
            let jumpAddress := p3.reserve.1
            let p4 := p3.reserve.2
            (statementList n (p4.emitAt jumpNoAddress .JUMP_NO (some p4.getCurrentAddress))).bind
              fun p5 =>
                some ((p5.emitAt jumpAddress .JUMP (some p5.getCurrentAddress)).mustBe .T_FI)
          else
            let p3 := (p2.match_ .T_ELSE).2
            some ((p3.emitAt jumpNoAddress .JUMP_NO (some p3.getCurrentAddress)).mustBe .T_FI)
    else if (p.match_ .T_WHILE).1 then
      let p0 := (p.match_ .T_WHILE).2
      let conditionAddress := p0.getCurrentAddress
      (expression n p0).bind fun p1 =>
        let jumpNoAddress := p1.reserve.1
        (statementList n (p1.reserve.2.mustBe .T_DO)).bind fun p2 =>
          let p3 := (p2.mustBe .T_OD).emit .JUMP (some conditionAddress)
          some (p3.emitAt jumpNoAddress .JUMP_NO (some p3.getCurrentAddress))
    else if (p.match_ .T_WRITE).1 then
      (expression n ((p.match_ .T_WRITE).2.mustBe .T_LPAREN)).bind fun p1 =>
        some ((p1.mustBe .T_RPAREN).emit .PRINT none)
    else
      some ((p.match_ .T_WRITE).2.reportError .statementExpected)

/-- `Parser::expression`. -/
def expression : Nat → Parser → Option Parser
  | 0, _ => none
  | n + 1, p => (orExpression n p).bind (expressionLoop n)

/-- The `while (see(T_LOGICALOROP))` loop of `Parser::expression`. -/
def expressionLoop : Nat → Parser → Option Parser
  | 0, _ => none
  | n + 1, p =>
    if p.see .T_LOGICALOROP then
      let dupAddress := p.reserve.1
      let p1 := p.reserve.2
      let jumpYesAddress := p1.reserve.1
      let p2 := p1.reserve.2
      (orExpression n p2.next).bind fun p3 =>
        let p4 := p3.emit .OR none
        let p5 := p4.emitAt dupAddress .DUP none
        let p6 := p5.emitAt jumpYesAddress .JUMP_YES (some p5.getCurrentAddress)
        expressionLoop n ((p6.emit .PUSH (some 0)).emit .COMPARE (some Cmp.C_NE.toInt))
    else some p

/-- `Parser::orExpression`. -/
def orExpression : Nat → Parser → Option Parser
  | 0, _ => none
  | n + 1, p => (andExpression n p).bind (orExpressionLoop n)

/-- The `while (see(T_LOGICALANDOP))` loop of `Parser::orExpression`. -/
def orExpressionLoop : Nat → Parser → Option Parser
  | 0, _ => none
  | n + 1, p =>
    if p.see .T_LOGICALANDOP then
      let p0 := (p.emit .PUSH (some 0)).emit .COMPARE (some Cmp.C_NE.toInt)
      let dupAddress := p0.reserve.1
      let p1 := p0.reserve.2
      let jumpNoAddress := p1.reserve.1
      let p2 := p1.reserve.2
      (andExpression n p2.next).bind fun p3 =>
        let p4 := ((p3.emit .PUSH (some 0)).emit .COMPARE (some Cmp.C_NE.toInt)).emit .AND none
        let p5 := p4.emitAt dupAddress .DUP none
        orExpressionLoop n (p5.emitAt jumpNoAddress .JUMP_NO (some p5.getCurrentAddress))
    else some p

/-- `Parser::andExpression`. -/
def andExpression : Nat → Parser → Option Parser
  | 0, _ => none
  | n + 1, p => (bitwiseOrExpression n p).bind (andExpressionLoop n)

/-- The `while (see(T_BITWISEOROP))` loop of `Parser::andExpression`. -/
def andExpressionLoop : Nat → Parser → Option Parser
  | 0, _ => none
  | n + 1, p =>
    if p.see .T_BITWISEOROP then
      (bitwiseOrExpression n p.next).bind fun p1 => andExpressionLoop n (p1.emit .OR none)
    else some p

/-- `Parser::bitwiseOrExpression`. -/
def bitwiseOrExpression : Nat → Parser → Option Parser
  | 0, _ => none
  | n + 1, p => (bitwiseAndExpression n p).bind (bitwiseOrExpressionLoop n)

/-- The `while (see(T_BITWISEANDOP))` loop of `Parser::bitwiseOrExpression`. -/
def bitwiseOrExpressionLoop : Nat → Parser → Option Parser
  | 0, _ => none
  | n + 1, p =>
    if p.see .T_BITWISEANDOP then
      (bitwiseAndExpression n p.next).bind fun p1 =>
        bitwiseOrExpressionLoop n (p1.emit .AND none)
    else some p

/-- `Parser::bitwiseAndExpression`. -/
def bitwiseAndExpression : Nat → Parser → Option Parser
  | 0, _ => none
  | n + 1, p => (equalityExpression n p).bind (bitwiseAndExpressionLoop n)

/-- The `while (see(T_CMP))` loop of `Parser::bitwiseAndExpression`; the `break`
leaves the loop. -/
def bitwiseAndExpressionLoop : Nat → Parser → Option Parser
  | 0, _ => none
  | n + 1, p =>
    if p.see .T_CMP then
      let cmp := p.lexeme.cmpValue
      if cmp = .C_EQ ∨ cmp = .C_NE then
        (equalityExpression n p.next).bind fun p1 =>
          bitwiseAndExpressionLoop n (p1.emit .COMPARE (some cmp.toInt))
      else some p
    else some p

/-- `Parser::equalityExpression`. -/
def equalityExpression : Nat → Parser → Option Parser
  | 0, _ => none
  | n + 1, p => (relationalExpression n p).bind (equalityExpressionLoop n)

/-- The `while (see(T_CMP))` loop of `Parser::equalityExpression`; the `break`
leaves the loop. -/
def equalityExpressionLoop : Nat → Parser → Option Parser
  | 0, _ => none
  | n + 1, p =>
    if p.see .T_CMP then
      let cmp := p.lexeme.cmpValue
      if cmp = .C_LT ∨ cmp = .C_LE ∨ cmp = .C_GT ∨ cmp = .C_GE then
        (relationalExpression n p.next).bind fun p1 =>
          equalityExpressionLoop n (p1.emit .COMPARE (some cmp.toInt))
      else some p
    else some p

/-- `Parser::relationalExpression`. -/
def relationalExpression : Nat → Parser → Option Parser
  | 0, _ => none
  | n + 1, p => (term n p).bind (relationalExpressionLoop n)

/-- The `while (see(T_ADDOP))` loop of `Parser::relationalExpression`. -/
def relationalExpressionLoop : Nat → Parser → Option Parser
  | 0, _ => none
  | n + 1, p =>
    if p.see .T_ADDOP then
      let op := p.lexeme.arithmeticValue
      (term n p.next).bind fun p1 =>
        relationalExpressionLoop n
          (if op = .A_PLUS then p1.emit .ADD none else p1.emit .SUB none)
    else some p

/-- `Parser::term`. -/
def term : Nat → Parser → Option Parser
  | 0, _ => none
  | n + 1, p => (factor n p).bind (termLoop n)

/-- The `while (see(T_MULOP))` loop of `Parser::term`. -/
def termLoop : Nat → Parser → Option Parser
  | 0, _ => none
  | n + 1, p =>
    if p.see .T_MULOP then
      let op := p.lexeme.arithmeticValue
      (factor n p.next).bind fun p1 =>
        termLoop n (if op = .A_MULTIPLY then p1.emit .MULT none else p1.emit .DIV none)
    else some p

/-- `Parser::factor`. -/
def factor : Nat → Parser → Option Parser
  | 0, _ => none
  | n + 1, p =>
    if p.see .T_NUMBER then
      let value := p.lexeme.intValue
      some (p.next.emit .PUSH (some value))
    else if p.see .T_IDENTIFIER then
      let varAddress := (p.findOrAddVariable p.lexeme.stringValue).1
      let p1 := (p.findOrAddVariable p.lexeme.stringValue).2
      some (p1.next.emit .LOAD (some varAddress))
    else if p.see .T_TRUE then
      some (p.next.emit .PUSH (some 1))
    else if p.see .T_FALSE then
      some (p.next.emit .PUSH (some 0))
    else if p.see .T_ADDOP && decide (p.lexeme.arithmeticValue = .A_MINUS) then
      (factor n p.next).bind fun p1 => some (p1.emit .INVERT none)
    else if p.see .T_LOGICALNOTOP then
      (factor n p.next).bind fun p1 =>
        some ((p1.emit .PUSH (some 0)).emit .COMPARE (some Cmp.C_EQ.toInt))
    else if (p.match_ .T_LPAREN).1 then
      (expression n (p.match_ .T_LPAREN).2).bind fun p1 => some (p1.mustBe .T_RPAREN)
    else if (p.match_ .T_READ).1 then
      some ((p.match_ .T_READ).2.emit .INPUT none)
    else
      some ((p.match_ .T_READ).2.reportError .expressionExpected)

end

/-- `Parser::program`. -/
def program (n : Nat) (p : Parser) : Option Parser :=
  (statementList n (p.mustBe .T_BEGIN)).bind fun p1 =>
    some ((p1.mustBe .T_END).emit .STOP none)

/-- `Parser::parse`. -/
def parse (n : Nat) (p : Parser) : Option Parser :=
  (program n p).bind fun p1 => some (if !p1.error_ then p1.flush else p1)

/-- A call depth that suffices for `parse` on the given lexemes. -/
def parseFuel (toks : List Lexeme) : Nat := 10 * toks.length + 3

/-! ## Sample programs -/

/-- The lexemes of `begin write(a+b*c) end`. -/
def writeSumProduct (a b c : Int) : List Lexeme :=
  [.kw .T_BEGIN, .kw .T_WRITE, .kw .T_LPAREN, .num a, .addop .A_PLUS, .num b,
   .mulop .A_MULTIPLY, .num c, .kw .T_RPAREN, .kw .T_END]

/-! ## Predicates, sample inputs and the stack machine -/

/-- An instruction that a production may write: neither the placeholder nor
`STOP`, and a jump only to an address that is at most `len`. -/
def okCommand (len : Nat) (c : Command) : Prop :=
  c.instruction ≠ .NOP ∧ c.instruction ≠ .STOP ∧
    ((c.instruction = .JUMP ∨ c.instruction = .JUMP_YES ∨ c.instruction = .JUMP_NO) →
      ∃ t : Nat, c.arg = some (t : Int) ∧ t ≤ len)

/-- The steps a production takes: it reads lexemes, reports errors, enters
variables, appends instructions, and reserves slots that it fills itself, in one
of the three shapes in which `reserve` and `emitAt` are paired in the parser. -/
inductive Reach : Parser → Parser → Prop
  | refl (p : Parser) : Reach p p
  | trans {p q r : Parser} : Reach p q → Reach q r → Reach p r
  | scan (p : Parser) (ts : List Lexeme) : ts <:+ p.scanner_ → Reach p { p with scanner_ := ts }
  | report (p : Parser) (d : Diagnostic) : Reach p (p.reportError d)
  | vars (p : Parser) (x : String) : Reach p (p.findOrAddVariable x).2
  | emit (p : Parser) (i : Instruction) (arg : Option Int) :
      okCommand p.code.length ⟨i, arg⟩ → Reach p (p.emit i arg)
  | patch {p q : Parser} (i : Instruction) (arg : Option Int) :
      Reach p.reserve.2 q → okCommand q.code.length ⟨i, arg⟩ →
      Reach p (q.emitAt p.reserve.1 i arg)
  | patchElse {p q r : Parser} (i1 i2 : Instruction) (arg1 arg2 : Option Int) :
      Reach p.reserve.2 q → okCommand q.reserve.2.code.length ⟨i1, arg1⟩ →
      Reach (q.reserve.2.emitAt p.reserve.1 i1 arg1) r → okCommand r.code.length ⟨i2, arg2⟩ →
      Reach p (r.emitAt q.reserve.1 i2 arg2)
  | patchPair {p q : Parser} (i1 i2 : Instruction) (arg1 arg2 : Option Int) :
      Reach p.reserve.2.reserve.2 q → okCommand q.code.length ⟨i1, arg1⟩ →
      okCommand q.code.length ⟨i2, arg2⟩ →
      Reach p ((q.emitAt p.reserve.1 i1 arg1).emitAt p.reserve.2.reserve.1 i2 arg2)

/-- Every result of production `f` at call depth `n` is reached by parser steps. -/
def Sound (f : Nat → Parser → Option Parser) (n : Nat) : Prop :=
  ∀ p q, f n p = some q → Reach p q

/-- All productions are sound at every call depth. -/
def AllSound (n : Nat) : Prop :=
  Sound statementList n ∧ Sound statementListLoop n ∧ Sound statement n ∧
  Sound expression n ∧ Sound expressionLoop n ∧ Sound orExpression n ∧
  Sound orExpressionLoop n ∧ Sound andExpression n ∧ Sound andExpressionLoop n ∧
  Sound bitwiseOrExpression n ∧ Sound bitwiseOrExpressionLoop n ∧
  Sound bitwiseAndExpression n ∧ Sound bitwiseAndExpressionLoop n ∧
  Sound equalityExpression n ∧ Sound equalityExpressionLoop n ∧
  Sound relationalExpression n ∧ Sound relationalExpressionLoop n ∧
  Sound term n ∧ Sound termLoop n ∧ Sound factor n

/-- The error flag is set exactly when a diagnostic has been reported. -/
def ErrorReported (p : Parser) : Prop := p.error_ = true ↔ p.diagnostics ≠ []

/-- The code of `q` is the code of `p` followed by instructions that a
production may write. -/
def Frame (p q : Parser) : Prop :=
  ∃ c : List Command, q.code = p.code ++ c ∧ ∀ x ∈ c, okCommand q.code.length x

/-- Production `f` returns at call depth `n` on every input of at most
`(n - r) / 10` lexemes. -/
def Total (f : Nat → Parser → Option Parser) (r n : Nat) : Prop :=
  ∀ p : Parser, 10 * p.scanner_.length + r ≤ n → ∃ q, f n p = some q

/-- All productions return once the call depth is ten per lexeme (plus a
constant that depends on the production). -/
def AllTotal (n : Nat) : Prop :=
  Total statementList 3 n ∧ Total statementListLoop 2 n ∧ Total statement 1 n ∧
  Total expression 9 n ∧ Total expressionLoop 1 n ∧ Total orExpression 8 n ∧
  Total orExpressionLoop 1 n ∧ Total andExpression 7 n ∧ Total andExpressionLoop 1 n ∧
  Total bitwiseOrExpression 6 n ∧ Total bitwiseOrExpressionLoop 1 n ∧
  Total bitwiseAndExpression 5 n ∧ Total bitwiseAndExpressionLoop 1 n ∧
  Total equalityExpression 4 n ∧ Total equalityExpressionLoop 1 n ∧
  Total relationalExpression 3 n ∧ Total relationalExpressionLoop 1 n ∧
  Total term 2 n ∧ Total termLoop 1 n ∧ Total factor 1 n

/-- The lexemes of `begin if read>0 then write(1) else write(0) fi end`. -/
def ifReadSample : List Lexeme :=
  [.kw .T_BEGIN, .kw .T_IF, .kw .T_READ, .cmp .C_GT, .num 0, .kw .T_THEN, .kw .T_WRITE,
   .kw .T_LPAREN, .num 1, .kw .T_RPAREN, .kw .T_ELSE, .kw .T_WRITE, .kw .T_LPAREN, .num 0,
   .kw .T_RPAREN, .kw .T_FI, .kw .T_END]

/-- The parser in front of `if 1 then write(2) fi`. -/
def ifThenSample : Parser :=
  Parser.init [.kw .T_IF, .num 1, .kw .T_THEN, .kw .T_WRITE, .kw .T_LPAREN, .num 2,
    .kw .T_RPAREN, .kw .T_FI]

/-- The parser after the `begin` of
`begin if read>0 then write(1) else write(0) fi end`. -/
def ifReadState : Parser := (Parser.init ifReadSample).mustBe .T_BEGIN

/-- The lexemes of `begin x:=1; while x<5 do x:=x+1 od; write(x) end`. -/
def whileSample : List Lexeme :=
  [.kw .T_BEGIN, .ident "x", .kw .T_ASSIGN, .num 1, .kw .T_SEMICOLON, .kw .T_WHILE, .ident "x",
   .cmp .C_LT, .num 5, .kw .T_DO, .ident "x", .kw .T_ASSIGN, .ident "x", .addop .A_PLUS, .num 1,
   .kw .T_OD, .kw .T_SEMICOLON, .kw .T_WRITE, .kw .T_LPAREN, .ident "x", .kw .T_RPAREN,
   .kw .T_END]

/-- The parser in front of the `while` of `whileSample`: `x:=1;` has been
translated to `PUSH 1, STORE 0` and `x` has address 0. -/
def whileState : Parser :=
  ⟨whileSample.drop 5, false, [("x", 0)], 1, [⟨.PUSH, some 1⟩, ⟨.STORE, some 0⟩], [], [], false,
    []⟩

/-- Successive calls of `findOrAddVariable`, with the addresses they return. -/
def Parser.findOrAddAll (p : Parser) : List String → List Nat × Parser
  | [] => ([], p)
  | x :: xs =>
    ((p.findOrAddVariable x).1 :: ((p.findOrAddVariable x).2.findOrAddAll xs).1,
      ((p.findOrAddVariable x).2.findOrAddAll xs).2)

/-- First-seen order as the spec words it: the distinct names met so far, each
at the place of its first occurrence, continued along a sequence of names. -/
def firstSeenFrom (seen : List String) : List String → List String
  | [] => seen
  | x :: xs => firstSeenFrom (if x ∈ seen then seen else seen ++ [x]) xs

/-- The distinct names of a sequence in the order of their first occurrence. -/
def firstSeen (names : List String) : List String := firstSeenFrom [] names

/-- A table that gives the names of a list the consecutive addresses `k`,
`k + 1`, ... -/
def numbered (k : Nat) : List String → List (String × Nat)
  | [] => []
  | x :: xs => (x, k) :: numbered (k + 1) xs

/-- The parser in front of `1 || 0`. -/
def orSample : Parser := Parser.init [.num 1, .kw .T_LOGICALOROP, .num 0]

/-- The parser in front of `1 && 2`. -/
def andSample : Parser := Parser.init [.num 1, .kw .T_LOGICALANDOP, .num 2]

/-- The lexemes of `begin x:= end`. -/
def missingExpressionSample : List Lexeme :=
  [.kw .T_BEGIN, .ident "x", .kw .T_ASSIGN, .kw .T_END]

/-- An operand of the claims about `||` and `&&`: an integer literal or a
variable. -/
inductive Operand where
  | lit (v : Int)
  | var (name : String)

/-- The lexeme of an operand. -/
def Operand.lexeme : Operand → Lexeme
  | .lit v => .num v
  | .var x => .ident x

/-- The instruction `c` is the code of operand `a` under the variable table
`vars`, and `v` is the value it pushes when the memory is `memory`: `PUSH v` for
a literal, `LOAD k` for a variable with address `k`, which pushes the content of
cell `k`. -/
def OperandCode (vars : List (String × Nat)) (memory : Int → Int) (a : Operand) (c : Command)
    (v : Int) : Prop :=
  match a with
  | .lit w => c = ⟨.PUSH, some w⟩ ∧ v = w
  | .var x => ∃ k : Nat, vars.lookup x = some k ∧ c = ⟨.LOAD, some (k : Int)⟩ ∧ v = memory k

/-- The state of the stack machine: the address of the next instruction and the
value stack, top first. -/
structure Machine where
  pc : Nat
  stack : List Int
  deriving DecidableEq, Repr

/-- Modelled from the spec: one step of the stack machine (the machine is an
external collaborator of the translator).  `PUSH` pushes its operand and `LOAD`
the content of a memory cell; `DUP` duplicates the top; `JUMP_YES` pops the top
and jumps iff it is nonzero, `JUMP_NO` iff it is zero; `OR` and `AND` pop two
values and push their bitwise or / and; `COMPARE ≠` pops two values and pushes 1
if they differ, else 0.  Instructions the spec does not describe do not step. -/
def Machine.step (code : List Command) (memory : Int → Int) (m : Machine) : Option Machine :=
  match code[m.pc]? with
  | none => none
  | some c =>
    match c.instruction, c.arg, m.stack with
    | .PUSH, some v, s => some ⟨m.pc + 1, v :: s⟩
    | .LOAD, some a, s => some ⟨m.pc + 1, memory a :: s⟩
    | .DUP, _, x :: s => some ⟨m.pc + 1, x :: x :: s⟩
    | .JUMP, some t, s => some ⟨t.toNat, s⟩
    | .JUMP_YES, some t, x :: s => some ⟨if x ≠ 0 then t.toNat else m.pc + 1, s⟩
    | .JUMP_NO, some t, x :: s => some ⟨if x = 0 then t.toNat else m.pc + 1, s⟩
    | .OR, _, y :: x :: s => some ⟨m.pc + 1, Int.lor x y :: s⟩
    | .AND, _, y :: x :: s => some ⟨m.pc + 1, Int.land x y :: s⟩
    | .COMPARE, some k, y :: x :: s =>
      if k = Cmp.C_NE.toInt then some ⟨m.pc + 1, (if x ≠ y then 1 else 0) :: s⟩ else none
    | _, _, _ => none

/-- Run the machine until the program counter is `stop`, for at most `fuel`
steps; the result is the final state with the addresses of the instructions that
were executed, in order. -/
def Machine.run (code : List Command) (memory : Int → Int) (stop : Nat) :
    Nat → Machine → Option (Machine × List Nat)
  | 0, _ => none
  | fuel + 1, m =>
    if m.pc = stop then some (m, [])
    else (m.step code memory).bind fun m1 =>
      (Machine.run code memory stop fuel m1).map fun r => (r.1, m.pc :: r.2)

/-- The lexemes of `begin write(1 || y) end`. -/
def orWriteSample : List Lexeme :=
  [.kw .T_BEGIN, .kw .T_WRITE, .kw .T_LPAREN, (Operand.lit 1).lexeme, .kw .T_LOGICALOROP,
   (Operand.var "y").lexeme, .kw .T_RPAREN, .kw .T_END]

/-- The parser after the `write(` of `begin write(1 || y) end`, in front of
`1 || y) end`. -/
def orWriteState : Parser := Parser.init (orWriteSample.drop 3)

/-- The lexemes of `begin write(0 && y) end`. -/
def andWriteSample : List Lexeme :=
  [.kw .T_BEGIN, .kw .T_WRITE, .kw .T_LPAREN, (Operand.lit 0).lexeme, .kw .T_LOGICALANDOP,
   (Operand.var "y").lexeme, .kw .T_RPAREN, .kw .T_END]

/-- The parser after the `write(` of `begin write(0 && y) end`, in front of
`0 && y) end`. -/
def andWriteState : Parser := Parser.init (andWriteSample.drop 3)

/-- The lexemes of `begin write(1 && 2) end`. -/
def andLiteralSample : List Lexeme :=
  [.kw .T_BEGIN, .kw .T_WRITE, .kw .T_LPAREN, .num 1, .kw .T_LOGICALANDOP, .num 2,
   .kw .T_RPAREN, .kw .T_END]

/-! ## Definitions for the later sections -/

/-- A result of production `f` at call depth `n` is also its result at depth
`n + 1`. -/
def Mono (f : Nat → Parser → Option Parser) (n : Nat) : Prop :=
  ∀ p q, f n p = some q → f (n + 1) p = some q

/-- All productions are monotone in the call depth. -/
def AllMono (n : Nat) : Prop :=
  Mono statementList n ∧ Mono statementListLoop n ∧ Mono statement n ∧
  Mono expression n ∧ Mono expressionLoop n ∧ Mono orExpression n ∧
  Mono orExpressionLoop n ∧ Mono andExpression n ∧ Mono andExpressionLoop n ∧
  Mono bitwiseOrExpression n ∧ Mono bitwiseOrExpressionLoop n ∧
  Mono bitwiseAndExpression n ∧ Mono bitwiseAndExpressionLoop n ∧
  Mono equalityExpression n ∧ Mono equalityExpressionLoop n ∧
  Mono relationalExpression n ∧ Mono relationalExpressionLoop n ∧
  Mono term n ∧ Mono termLoop n ∧ Mono factor n

/-- Between `p` and `q` every address returned by `reserve` was passed to
`emitAt` once: the addresses filled are a rearrangement of the addresses
reserved, no address was reserved twice, and they all lie in the code added
since `p`. -/
def Balanced (p q : Parser) : Prop :=
  ∃ rs fs : List Nat, q.reserved = p.reserved ++ rs ∧ q.filled = p.filled ++ fs ∧
    fs.Perm rs ∧ rs.Nodup ∧ ∀ a ∈ rs, p.code.length ≤ a ∧ a < q.code.length

/-- The lexemes of `begin if read()>0 then write(1) else write(0) fi end`, with
the parentheses after `read` as the spec writes the example. -/
def ifReadParenSample : List Lexeme :=
  [.kw .T_BEGIN, .kw .T_IF, .kw .T_READ, .kw .T_LPAREN, .kw .T_RPAREN, .cmp .C_GT, .num 0,
   .kw .T_THEN, .kw .T_WRITE, .kw .T_LPAREN, .num 1, .kw .T_RPAREN, .kw .T_ELSE, .kw .T_WRITE,
   .kw .T_LPAREN, .num 0, .kw .T_RPAREN, .kw .T_FI, .kw .T_END]

/-- Modelled from the spec: the addresses control can reach directly after the
instruction at address `i` (the machine is an external collaborator).  `STOP`
has none, `JUMP t` has `t`, a conditional jump has the next address and its
target, every other instruction has the next address. -/
def successors (code : List Command) (i : Nat) : List Nat :=
  match code[i]? with
  | none => []
  | some c =>
    match c.instruction, c.arg with
    | .STOP, _ => []
    | .JUMP, some t => [t.toNat]
    | .JUMP_YES, some t => [i + 1, t.toNat]
    | .JUMP_NO, some t => [i + 1, t.toNat]
    | _, _ => [i + 1]

/-- The execution paths from address `i` that end, within `fuel` instructions,
at an instruction without successor; each path lists the addresses it
executes. -/
def paths (code : List Command) : Nat → Nat → List (List Nat)
  | 0, _ => []
  | fuel + 1, i =>
    match successors code i with
    | [] => [[i]]
    | ss => ss.flatMap fun j => (paths code fuel j).map fun path => i :: path

/-- The number of `PRINT` instructions on a path. -/
def printsOn (code : List Command) (path : List Nat) : Nat :=
  (path.filter fun i => decide ((code[i]?).map Command.instruction = some .PRINT)).length

/-- The parser in front of `1 2 ) end`. -/
def recoverSample : Parser := Parser.init [.num 1, .num 2, .kw .T_RPAREN, .kw .T_END]

/-- The parser with further lexemes appended to its input. -/
def Parser.extend (p : Parser) (s : List Lexeme) : Parser :=
  { p with scanner_ := p.scanner_ ++ s }

/-- A production that stops before the end of its lexemes does the same when
further lexemes follow. -/
def Ext (f : Nat → Parser → Option Parser) (n : Nat) : Prop :=
  ∀ p q s, f n p = some q → q.scanner_ ≠ [] → f n (p.extend s) = some (q.extend s)

/-- All productions ignore the lexemes behind the place where they stop. -/
def AllExt (n : Nat) : Prop :=
  Ext statementList n ∧ Ext statementListLoop n ∧ Ext statement n ∧
  Ext expression n ∧ Ext expressionLoop n ∧ Ext orExpression n ∧
  Ext orExpressionLoop n ∧ Ext andExpression n ∧ Ext andExpressionLoop n ∧
  Ext bitwiseOrExpression n ∧ Ext bitwiseOrExpressionLoop n ∧
  Ext bitwiseAndExpression n ∧ Ext bitwiseAndExpressionLoop n ∧
  Ext equalityExpression n ∧ Ext equalityExpressionLoop n ∧
  Ext relationalExpression n ∧ Ext relationalExpressionLoop n ∧
  Ext term n ∧ Ext termLoop n ∧ Ext factor n

/-- The lexemes `end 5 fi`, as an example of what may follow a program. -/
def trailingSample : List Lexeme := [.kw .T_END, .num 5, .kw .T_FI]

/-- The binary operators of the language. -/
inductive BinOp where
  | lor | land | bor | band | eq | ne | lt | le | gt | ge | add | sub | mul | div
  deriving DecidableEq, Repr

/-- Modelled from the spec: the precedence level of an operator, from 1 for
`||`, which binds loosest, to 8 for `*` and `/`. -/
def BinOp.level : BinOp → Nat
  | .lor => 1
  | .land => 2
  | .bor => 3
  | .band => 4
  | .eq => 5
  | .ne => 5
  | .lt => 6
  | .le => 6
  | .gt => 6
  | .ge => 6
  | .add => 7
  | .sub => 7
  | .mul => 8
  | .div => 8

/-- The lexeme of an operator. -/
def BinOp.lexeme : BinOp → Lexeme
  | .lor => .kw .T_LOGICALOROP
  | .land => .kw .T_LOGICALANDOP
  | .bor => .kw .T_BITWISEOROP
  | .band => .kw .T_BITWISEANDOP
  | .eq => .cmp .C_EQ
  | .ne => .cmp .C_NE
  | .lt => .cmp .C_LT
  | .le => .cmp .C_LE
  | .gt => .cmp .C_GT
  | .ge => .cmp .C_GE
  | .add => .addop .A_PLUS
  | .sub => .addop .A_MINUS
  | .mul => .mulop .A_MULTIPLY
  | .div => .mulop .A_DIVIDE

/-- Modelled from the spec: the instruction that combines the two operand
values of an operator. -/
def BinOp.command : BinOp → Command
  | .lor => ⟨.OR, none⟩
  | .land => ⟨.AND, none⟩
  | .bor => ⟨.OR, none⟩
  | .band => ⟨.AND, none⟩
  | .eq => ⟨.COMPARE, some Cmp.C_EQ.toInt⟩
  | .ne => ⟨.COMPARE, some Cmp.C_NE.toInt⟩
  | .lt => ⟨.COMPARE, some Cmp.C_LT.toInt⟩
  | .le => ⟨.COMPARE, some Cmp.C_LE.toInt⟩
  | .gt => ⟨.COMPARE, some Cmp.C_GT.toInt⟩
  | .ge => ⟨.COMPARE, some Cmp.C_GE.toInt⟩
  | .add => ⟨.ADD, none⟩
  | .sub => ⟨.SUB, none⟩
  | .mul => ⟨.MULT, none⟩
  | .div => ⟨.DIV, none⟩

/-- The number of instructions between the code of the left operand and the code
of the right operand: the two reserved slots of `||`, and for `&&` the
normalisation of the left operand before them. -/
def BinOp.gap : BinOp → Nat
  | .lor => 2
  | .land => 4
  | _ => 0

/-- Modelled from the spec: what an operator puts around the code `cr` of its
right operand, when the code of its left operand ends at address `addr`.  For
`||`: `DUP`, `JUMP_YES t`, `cr`, `OR`, `PUSH 0`, `COMPARE ≠` with `t` the address
of the `PUSH 0`; for `&&`: `PUSH 0`, `COMPARE ≠`, `DUP`, `JUMP_NO t`, `cr`,
`PUSH 0`, `COMPARE ≠`, `AND` with `t` the address after the `AND`; for every
other operator: `cr` and the combining instruction. -/
def BinOp.wrap (op : BinOp) (addr : Nat) (cr : List Command) : List Command :=
  match op with
  | .lor =>
    ⟨.DUP, none⟩ :: ⟨.JUMP_YES, some ((addr + 2 + cr.length + 1 : Nat) : Int)⟩ :: cr ++
      [⟨.OR, none⟩, ⟨.PUSH, some 0⟩, ⟨.COMPARE, some Cmp.C_NE.toInt⟩]
  | .land =>
    ⟨.PUSH, some 0⟩ :: ⟨.COMPARE, some Cmp.C_NE.toInt⟩ :: ⟨.DUP, none⟩ ::
      ⟨.JUMP_NO, some ((addr + 4 + cr.length + 3 : Nat) : Int)⟩ :: cr ++
      [⟨.PUSH, some 0⟩, ⟨.COMPARE, some Cmp.C_NE.toInt⟩, ⟨.AND, none⟩]
  | op => cr ++ [op.command]

/-- An expression tree over operands that are literals or variables. -/
inductive Expr where
  | atom (a : Operand)
  | bin (op : BinOp) (l r : Expr)

/-- The level of an expression: that of its operator, 9 for an operand. -/
def Expr.level : Expr → Nat
  | .atom _ => 9
  | .bin op _ _ => op.level

/-- The lexemes of an expression written without parentheses. -/
def Expr.lexemes : Expr → List Lexeme
  | .atom a => [a.lexeme]
  | .bin op l r => l.lexemes ++ op.lexeme :: r.lexemes

/-- The tree is the one that precedence and left-to-right grouping give to its
lexemes: the left operand of an operator is of the same or a higher level, the
right operand of a higher level. -/
def Expr.Fits : Expr → Prop
  | .atom _ => True
  | .bin op l r => op.level ≤ l.level ∧ op.level < r.level ∧ l.Fits ∧ r.Fits

/-- Whether a tree fits can be computed. -/
instance Expr.decidableFits : (e : Expr) → Decidable e.Fits
  | .atom _ => isTrue trivial
  | .bin op l r =>
    have := Expr.decidableFits l
    have := Expr.decidableFits r
    inferInstanceAs (Decidable (op.level ≤ l.level ∧ op.level < r.level ∧ l.Fits ∧ r.Fits))

/-- The variables of an operand. -/
def Operand.names : Operand → List String
  | .lit _ => []
  | .var x => [x]

/-- The variables of an expression. -/
def Expr.names : Expr → List String
  | .atom a => a.names
  | .bin _ l r => l.names ++ r.names

/-- Modelled from the spec: the instruction of an operand under a variable
table: `PUSH v` for a literal, `LOAD k` for a variable with address `k`. -/
def Operand.code (vars : List (String × Nat)) : Operand → Command
  | .lit v => ⟨.PUSH, some v⟩
  | .var x => ⟨.LOAD, some (((vars.lookup x).getD 0 : Nat) : Int)⟩

/-- Modelled from the spec: the code of an expression tree placed at address
`base`: the code of the left operand, then what the operator puts around the
code of the right operand. -/
def Expr.code (vars : List (String × Nat)) : Nat → Expr → List Command
  | _, .atom a => [a.code vars]
  | base, .bin op l r =>
    l.code vars base ++
      op.wrap (base + (l.code vars base).length)
        (r.code vars (base + (l.code vars base).length + op.gap))

/-- The production of a level: `expression` for 1, ..., `term` for 8, and
`factor` above. -/
def levelProduction : Nat → Nat → Parser → Option Parser
  | 1 => expression
  | 2 => orExpression
  | 3 => andExpression
  | 4 => bitwiseOrExpression
  | 5 => bitwiseAndExpression
  | 6 => equalityExpression
  | 7 => relationalExpression
  | 8 => term
  | _ => factor

/-- The operator loop of a level; above level 8 there is none. -/
def levelLoop : Nat → Nat → Parser → Option Parser
  | 1 => expressionLoop
  | 2 => orExpressionLoop
  | 3 => andExpressionLoop
  | 4 => bitwiseOrExpressionLoop
  | 5 => bitwiseAndExpressionLoop
  | 6 => equalityExpressionLoop
  | 7 => relationalExpressionLoop
  | 8 => termLoop
  | _ => fun _ p => some p

/-- The level of the operator loop that continues on a lexeme, 0 if none
does. -/
def Lexeme.level (l : Lexeme) : Nat :=
  match l.token with
  | .T_LOGICALOROP => 1
  | .T_LOGICALANDOP => 2
  | .T_BITWISEOROP => 3
  | .T_BITWISEANDOP => 4
  | .T_CMP => if l.cmpValue = .C_EQ ∨ l.cmpValue = .C_NE then 5 else 6
  | .T_ADDOP => 7
  | .T_MULOP => 8
  | _ => 0

/-- Production `f` returns `q` on `p` at some call depth. -/
def Runs (f : Nat → Parser → Option Parser) (p q : Parser) : Prop := ∃ n, f n p = some q

/-- What a loop does between seeing the operator and parsing the right
operand. -/
def BinOp.pre (op : BinOp) (p : Parser) : Parser :=
  match op with
  | .lor => p.reserve.2.reserve.2.next
  | .land =>
    ((p.emit .PUSH (some 0)).emit .COMPARE (some Cmp.C_NE.toInt)).reserve.2.reserve.2.next
  | _ => p.next

/-- What a loop does after parsing the right operand; `p` is the state in which
it saw the operator, `p3` the state after the right operand. -/
def BinOp.post (op : BinOp) (p p3 : Parser) : Parser :=
  match op with
  | .lor =>
    (((((p3.emit .OR none).emitAt p.reserve.1 .DUP none).emitAt p.reserve.2.reserve.1
      .JUMP_YES (some (((p3.emit .OR none).emitAt p.reserve.1 .DUP
        none).getCurrentAddress : Int))).emit .PUSH (some 0)).emit .COMPARE
      (some Cmp.C_NE.toInt))
  | .land =>
    (((((p3.emit .PUSH (some 0)).emit .COMPARE (some Cmp.C_NE.toInt)).emit .AND none).emitAt
      ((p.emit .PUSH (some 0)).emit .COMPARE (some Cmp.C_NE.toInt)).reserve.1 .DUP none).emitAt
      ((p.emit .PUSH (some 0)).emit .COMPARE (some Cmp.C_NE.toInt)).reserve.2.reserve.1 .JUMP_NO
      (some ((((((p3.emit .PUSH (some 0)).emit .COMPARE (some Cmp.C_NE.toInt)).emit .AND
        none).emitAt ((p.emit .PUSH (some 0)).emit .COMPARE (some Cmp.C_NE.toInt)).reserve.1
        .DUP none).getCurrentAddress : Nat) : Int)))
  | op => p3.emit op.command.instruction op.command.arg

/-- The loops of the levels `k + d - 1`, ..., `k`, run one after the other, lead
from `q` to `r`. -/
def TailFrom (k : Nat) : Nat → Parser → Parser → Prop
  | 0, q, r => r = q
  | d + 1, q, r => ∃ q1, Runs (levelLoop (k + d)) q q1 ∧ TailFrom k d q1 r

/-- The production has read the expression `e` between `p` and `q`: the lexemes
`rest` are left, the code of `e` has been appended, the error flag is as before,
the variable table has kept its entries and holds the variables of `e`. -/
def Parsed (e : Expr) (rest : List Lexeme) (p q : Parser) : Prop :=
  q.scanner_ = rest ∧ q.code = p.code ++ e.code q.variables_ p.code.length ∧
    q.error_ = p.error_ ∧
    (∀ y k, p.variables_.lookup y = some k → q.variables_.lookup y = some k) ∧
    ∀ x ∈ e.names, ∃ k, q.variables_.lookup x = some k

/-- The instructions a loop emits before the right operand. -/
def BinOp.preCode : BinOp → List Command
  | .lor => [⟨.NOP, none⟩, ⟨.NOP, none⟩]
  | .land => [⟨.PUSH, some 0⟩, ⟨.COMPARE, some Cmp.C_NE.toInt⟩, ⟨.NOP, none⟩, ⟨.NOP, none⟩]
  | _ => []

/-- The tree of `1 | 2 & 3 = 4 < 5 + 6 * 7`. -/
def precedenceSample : Expr :=
  .bin .bor (.atom (.lit 1)) (.bin .band (.atom (.lit 2)) (.bin .eq (.atom (.lit 3))
    (.bin .lt (.atom (.lit 4)) (.bin .add (.atom (.lit 5))
      (.bin .mul (.atom (.lit 6)) (.atom (.lit 7)))))))

/-- The tree of `f1 o1 f2 o2 ... fn`, grouped from the left. -/
def chainExpr (f1 : Operand) (ops : List (BinOp × Operand)) : Expr :=
  ops.foldl (fun acc o => .bin o.1 acc (.atom o.2)) (.atom f1)

/-- The lexemes of `f1 o1 f2 o2 ... fn`. -/
def chainLexemes (f1 : Operand) (ops : List (BinOp × Operand)) : List Lexeme :=
  f1.lexeme :: ops.flatMap fun o => [o.1.lexeme, o.2.lexeme]

/-- Modelled from the spec: the left-to-right fold of a chain: the code of `f1`,
then for each further operand its code and the instruction of its operator. -/
def chainCode (vars : List (String × Nat)) (f1 : Operand) (ops : List (BinOp × Operand)) :
    List Command :=
  f1.code vars :: ops.flatMap fun o => [o.2.code vars, o.1.command]

/-- The parser in front of `8-3-2`. -/
def subtractSample : Parser := Parser.init [.num 8, .addop .A_MINUS, .num 3, .addop .A_MINUS, .num 2]

/-- The lexemes of `begin write(1<2<3) end`. -/
def compareChainSample : List Lexeme :=
  [.kw .T_BEGIN, .kw .T_WRITE, .kw .T_LPAREN, .num 1, .cmp .C_LT, .num 2, .cmp .C_LT, .num 3,
   .kw .T_RPAREN, .kw .T_END]

/-- The parser in front of `1<2<3)`. -/
def compareChainState : Parser :=
  Parser.init [.num 1, .cmp .C_LT, .num 2, .cmp .C_LT, .num 3, .kw .T_RPAREN]

/-! ## Elementary facts about the primitive operations -/

theorem Parser.mustBe_eq (p : Parser) (t : Token) :
    p.mustBe t =
      if p.see t then p.next
      else (p.reportError (.foundWhileExpected p.token t)).recover t := by
  unfold Parser.mustBe Parser.match_
  by_cases h : p.see t = true
  · simp [h]
  · simp [h, Parser.reportError]

theorem Parser.recoverLoop_suffix (t : Token) (ls : List Lexeme) :
    Parser.recoverLoop t ls <:+ ls := by
  induction ls with
  | nil => simp [Parser.recoverLoop]
  | cons l ls ih =>
    unfold Parser.recoverLoop
    split
    · exact List.suffix_refl _
    · exact ih.trans (List.suffix_cons l ls)

theorem okCommand.weaken {len len1 : Nat} {c : Command} (h : okCommand len c) (hl : len ≤ len1) :
    okCommand len1 c := by
  refine ⟨h.1, h.2.1, fun hj => ?_⟩
  obtain ⟨t, ht, hle⟩ := h.2.2 hj
  exact ⟨t, ht, hle.trans hl⟩

theorem Reach.next (p : Parser) : Reach p p.next :=
  Reach.scan p p.scanner_.tail (List.tail_suffix _)

theorem Reach.match_ (p : Parser) (t : Token) : Reach p (p.match_ t).2 := by
  unfold Parser.match_
  split
  · exact Reach.next p
  · exact Reach.refl p

theorem Reach.recover (p : Parser) (t : Token) : Reach p (p.recover t) := by
  unfold Parser.recover
  have h1 : Reach p { p with scanner_ := Parser.recoverLoop t p.scanner_ } :=
    Reach.scan p _ (Parser.recoverLoop_suffix t _)
  dsimp only
  split
  · exact h1.trans (Reach.next _)
  · exact h1

theorem Reach.mustBe (p : Parser) (t : Token) : Reach p (p.mustBe t) := by
  rw [Parser.mustBe_eq]
  split
  · exact Reach.next p
  · exact (Reach.report p _).trans (Reach.recover _ t)

theorem Reach.emitPlain (p : Parser) (i : Instruction) (arg : Option Int)
    (h1 : i ≠ .NOP) (h2 : i ≠ .STOP) (h3 : i ≠ .JUMP) (h4 : i ≠ .JUMP_YES) (h5 : i ≠ .JUMP_NO) :
    Reach p (p.emit i arg) :=
  Reach.emit p i arg ⟨h1, h2, fun h => by rcases h with h | h | h <;> contradiction⟩

theorem Reach.code_length_le {p q : Parser} (h : Reach p q) :
    p.code.length ≤ q.code.length := by
  induction h with
  | refl p => exact le_refl _
  | trans _ _ ih1 ih2 => exact ih1.trans ih2
  | scan p ts _ => exact le_refl _
  | report p d => exact le_refl _
  | vars p x =>
    unfold Parser.findOrAddVariable
    split <;> exact le_refl _
  | emit p i arg _ => simp [Parser.emit]
  | patch i arg _ _ ih =>
    simp only [Parser.reserve, Parser.emitAt, List.length_append, List.length_set,
      List.length_singleton] at ih ⊢
    omega
  | patchElse i1 i2 arg1 arg2 _ _ _ _ ih1 ih2 =>
    simp only [Parser.reserve, Parser.emitAt, List.length_append, List.length_set,
      List.length_singleton] at ih1 ih2 ⊢
    omega
  | patchPair i1 i2 arg1 arg2 _ _ _ ih =>
    simp only [Parser.reserve, Parser.emitAt, List.length_append, List.length_set,
      List.length_singleton] at ih ⊢
    omega

theorem okCommand_jump (len t : Nat) (i : Instruction) (h1 : i ≠ .NOP) (h2 : i ≠ .STOP)
    (h : t ≤ len) : okCommand len ⟨i, some (t : Int)⟩ :=
  ⟨h1, h2, fun _ => ⟨t, rfl, h⟩⟩

theorem okCommand_plain (len : Nat) (i : Instruction) (arg : Option Int)
    (h1 : i ≠ .NOP) (h2 : i ≠ .STOP) (h3 : i ≠ .JUMP) (h4 : i ≠ .JUMP_YES) (h5 : i ≠ .JUMP_NO) :
    okCommand len ⟨i, arg⟩ :=
  ⟨h1, h2, fun h => by rcases h with h | h | h <;> contradiction⟩

theorem factor_sound (n : Nat) (hf : Sound factor n) (he : Sound expression n) :
    Sound factor (n + 1) := by
  intro p q h
  simp only [factor] at h
  split at h
  · cases h
    exact (Reach.next p).trans (Reach.emitPlain _ _ _ (by decide) (by decide) (by decide)
      (by decide) (by decide))
  split at h
  · cases h
    exact (Reach.vars p _).trans ((Reach.next _).trans (Reach.emitPlain _ _ _ (by decide)
      (by decide) (by decide) (by decide) (by decide)))
  split at h
  · cases h
    exact (Reach.next p).trans (Reach.emitPlain _ _ _ (by decide) (by decide) (by decide)
      (by decide) (by decide))
  split at h
  · cases h
    exact (Reach.next p).trans (Reach.emitPlain _ _ _ (by decide) (by decide) (by decide)
      (by decide) (by decide))
  split at h
  · simp only [Option.bind_eq_some] at h
    obtain ⟨p1, h1, h2⟩ := h
    cases h2
    exact (Reach.next p).trans ((hf _ _ h1).trans (Reach.emitPlain _ _ _ (by decide)
      (by decide) (by decide) (by decide) (by decide)))
  split at h
  · simp only [Option.bind_eq_some] at h
    obtain ⟨p1, h1, h2⟩ := h
    cases h2
    exact (Reach.next p).trans ((hf _ _ h1).trans ((Reach.emitPlain _ _ _ (by decide)
      (by decide) (by decide) (by decide) (by decide)).trans (Reach.emitPlain _ _ _ (by decide)
      (by decide) (by decide) (by decide) (by decide))))
  split at h
  · simp only [Option.bind_eq_some] at h
    obtain ⟨p1, h1, h2⟩ := h
    cases h2
    exact (Reach.match_ p _).trans ((he _ _ h1).trans (Reach.mustBe _ _))
  split at h
  · cases h
    exact (Reach.match_ p _).trans (Reach.emitPlain _ _ _ (by decide) (by decide) (by decide)
      (by decide) (by decide))
  · cases h
    exact (Reach.match_ p _).trans (Reach.report _ _)

theorem term_sound (n : Nat) (hf : Sound factor n) (hl : Sound termLoop n) :
    Sound term (n + 1) := by
  intro p q h
  simp only [term, Option.bind_eq_some] at h
  obtain ⟨p1, h1, h2⟩ := h
  exact (hf _ _ h1).trans (hl _ _ h2)

theorem termLoop_sound (n : Nat) (hf : Sound factor n) (hl : Sound termLoop n) :
    Sound termLoop (n + 1) := by
  intro p q h
  simp only [termLoop] at h
  split at h
  · simp only [Option.bind_eq_some] at h
    obtain ⟨p1, h1, h2⟩ := h
    refine (Reach.next p).trans ((hf _ _ h1).trans (Reach.trans ?_ (hl _ _ h2)))
    split <;> exact Reach.emitPlain _ _ _ (by decide) (by decide) (by decide) (by decide)
      (by decide)
  · cases h
    exact Reach.refl _

theorem relationalExpression_sound (n : Nat) (hf : Sound term n)
    (hl : Sound relationalExpressionLoop n) : Sound relationalExpression (n + 1) := by
  intro p q h
  simp only [relationalExpression, Option.bind_eq_some] at h
  obtain ⟨p1, h1, h2⟩ := h
  exact (hf _ _ h1).trans (hl _ _ h2)

theorem relationalExpressionLoop_sound (n : Nat) (hf : Sound term n)
    (hl : Sound relationalExpressionLoop n) : Sound relationalExpressionLoop (n + 1) := by
  intro p q h
  simp only [relationalExpressionLoop] at h
  split at h
  · simp only [Option.bind_eq_some] at h
    obtain ⟨p1, h1, h2⟩ := h
    refine (Reach.next p).trans ((hf _ _ h1).trans (Reach.trans ?_ (hl _ _ h2)))
    split <;> exact Reach.emitPlain _ _ _ (by decide) (by decide) (by decide) (by decide)
      (by decide)
  · cases h
    exact Reach.refl _

theorem equalityExpression_sound (n : Nat) (hf : Sound relationalExpression n)
    (hl : Sound equalityExpressionLoop n) : Sound equalityExpression (n + 1) := by
  intro p q h
  simp only [equalityExpression, Option.bind_eq_some] at h
  obtain ⟨p1, h1, h2⟩ := h
  exact (hf _ _ h1).trans (hl _ _ h2)

theorem equalityExpressionLoop_sound (n : Nat) (hf : Sound relationalExpression n)
    (hl : Sound equalityExpressionLoop n) : Sound equalityExpressionLoop (n + 1) := by
  intro p q h
  simp only [equalityExpressionLoop] at h
  split at h
  · split at h
    · simp only [Option.bind_eq_some] at h
      obtain ⟨p1, h1, h2⟩ := h
      exact (Reach.next p).trans ((hf _ _ h1).trans (Reach.trans (Reach.emitPlain _ _ _
        (by decide) (by decide) (by decide) (by decide) (by decide)) (hl _ _ h2)))
    · cases h
      exact Reach.refl _
  · cases h
    exact Reach.refl _

theorem bitwiseAndExpression_sound (n : Nat) (hf : Sound equalityExpression n)
    (hl : Sound bitwiseAndExpressionLoop n) : Sound bitwiseAndExpression (n + 1) := by
  intro p q h
  simp only [bitwiseAndExpression, Option.bind_eq_some] at h
  obtain ⟨p1, h1, h2⟩ := h
  exact (hf _ _ h1).trans (hl _ _ h2)

theorem bitwiseAndExpressionLoop_sound (n : Nat) (hf : Sound equalityExpression n)
    (hl : Sound bitwiseAndExpressionLoop n) : Sound bitwiseAndExpressionLoop (n + 1) := by
  intro p q h
  simp only [bitwiseAndExpressionLoop] at h
  split at h
  · split at h
    · simp only [Option.bind_eq_some] at h
      obtain ⟨p1, h1, h2⟩ := h
      exact (Reach.next p).trans ((hf _ _ h1).trans (Reach.trans (Reach.emitPlain _ _ _
        (by decide) (by decide) (by decide) (by decide) (by decide)) (hl _ _ h2)))
    · cases h
      exact Reach.refl _
  · cases h
    exact Reach.refl _

theorem bitwiseOrExpression_sound (n : Nat) (hf : Sound bitwiseAndExpression n)
    (hl : Sound bitwiseOrExpressionLoop n) : Sound bitwiseOrExpression (n + 1) := by
  intro p q h
  simp only [bitwiseOrExpression, Option.bind_eq_some] at h
  obtain ⟨p1, h1, h2⟩ := h
  exact (hf _ _ h1).trans (hl _ _ h2)

theorem bitwiseOrExpressionLoop_sound (n : Nat) (hf : Sound bitwiseAndExpression n)
    (hl : Sound bitwiseOrExpressionLoop n) : Sound bitwiseOrExpressionLoop (n + 1) := by
  intro p q h
  simp only [bitwiseOrExpressionLoop] at h
  split at h
  · simp only [Option.bind_eq_some] at h
    obtain ⟨p1, h1, h2⟩ := h
    exact (Reach.next p).trans ((hf _ _ h1).trans (Reach.trans (Reach.emitPlain _ _ _
      (by decide) (by decide) (by decide) (by decide) (by decide)) (hl _ _ h2)))
  · cases h
    exact Reach.refl _

theorem andExpression_sound (n : Nat) (hf : Sound bitwiseOrExpression n)
    (hl : Sound andExpressionLoop n) : Sound andExpression (n + 1) := by
  intro p q h
  simp only [andExpression, Option.bind_eq_some] at h
  obtain ⟨p1, h1, h2⟩ := h
  exact (hf _ _ h1).trans (hl _ _ h2)

theorem andExpressionLoop_sound (n : Nat) (hf : Sound bitwiseOrExpression n)
    (hl : Sound andExpressionLoop n) : Sound andExpressionLoop (n + 1) := by
  intro p q h
  simp only [andExpressionLoop] at h
  split at h
  · simp only [Option.bind_eq_some] at h
    obtain ⟨p1, h1, h2⟩ := h
    exact (Reach.next p).trans ((hf _ _ h1).trans (Reach.trans (Reach.emitPlain _ _ _
      (by decide) (by decide) (by decide) (by decide) (by decide)) (hl _ _ h2)))
  · cases h
    exact Reach.refl _

theorem orExpression_sound (n : Nat) (hf : Sound andExpression n)
    (hl : Sound orExpressionLoop n) : Sound orExpression (n + 1) := by
  intro p q h
  simp only [orExpression, Option.bind_eq_some] at h
  obtain ⟨p1, h1, h2⟩ := h
  exact (hf _ _ h1).trans (hl _ _ h2)

theorem orExpressionLoop_sound (n : Nat) (hf : Sound andExpression n)
    (hl : Sound orExpressionLoop n) : Sound orExpressionLoop (n + 1) := by
  intro p q h
  simp only [orExpressionLoop] at h
  split at h
  · simp only [Option.bind_eq_some] at h
    obtain ⟨p3, h1, h2⟩ := h
    refine Reach.trans ?_ (hl _ _ h2)
    refine Reach.trans ((Reach.emitPlain p .PUSH (some 0) (by decide) (by decide) (by decide)
      (by decide) (by decide)).trans (Reach.emitPlain _ .COMPARE (some Cmp.C_NE.toInt)
      (by decide) (by decide) (by decide) (by decide) (by decide))) ?_
    refine Reach.patchPair _ _ _ _ ?_ ?_ ?_
    · exact (Reach.next _).trans ((hf _ _ h1).trans ((Reach.emitPlain _ _ _ (by decide)
        (by decide) (by decide) (by decide) (by decide)).trans ((Reach.emitPlain _ _ _
        (by decide) (by decide) (by decide) (by decide) (by decide)).trans (Reach.emitPlain _
        _ _ (by decide) (by decide) (by decide) (by decide) (by decide)))))
    · exact okCommand_plain _ _ _ (by decide) (by decide) (by decide) (by decide) (by decide)
    · refine okCommand_jump _ _ _ (by decide) (by decide) ?_
      simp [Parser.getCurrentAddress, Parser.emitAt]
  · cases h
    exact Reach.refl _

theorem expression_sound (n : Nat) (hf : Sound orExpression n)
    (hl : Sound expressionLoop n) : Sound expression (n + 1) := by
  intro p q h
  simp only [expression, Option.bind_eq_some] at h
  obtain ⟨p1, h1, h2⟩ := h
  exact (hf _ _ h1).trans (hl _ _ h2)

theorem expressionLoop_sound (n : Nat) (hf : Sound orExpression n)
    (hl : Sound expressionLoop n) : Sound expressionLoop (n + 1) := by
  intro p q h
  simp only [expressionLoop] at h
  split at h
  · simp only [Option.bind_eq_some] at h
    obtain ⟨p3, h1, h2⟩ := h
    refine Reach.trans ?_ (hl _ _ h2)
    refine Reach.trans ?_ ((Reach.emitPlain _ .PUSH (some 0) (by decide) (by decide) (by decide)
      (by decide) (by decide)).trans (Reach.emitPlain _ .COMPARE (some Cmp.C_NE.toInt)
      (by decide) (by decide) (by decide) (by decide) (by decide)))
    refine Reach.patchPair _ _ _ _ ?_ ?_ ?_
    · exact (Reach.next _).trans ((hf _ _ h1).trans (Reach.emitPlain _ _ _ (by decide)
        (by decide) (by decide) (by decide) (by decide)))
    · exact okCommand_plain _ _ _ (by decide) (by decide) (by decide) (by decide) (by decide)
    · refine okCommand_jump _ _ _ (by decide) (by decide) ?_
      simp [Parser.getCurrentAddress, Parser.emitAt]
  · cases h
    exact Reach.refl _

theorem statement_sound (n : Nat) (he : Sound expression n) (hs : Sound statementList n) :
    Sound statement (n + 1) := by
  intro p q h
  simp only [statement] at h
  split at h
  · simp only [Option.bind_eq_some] at h
    obtain ⟨p2, h1, h2⟩ := h
    cases h2
    exact (Reach.vars p _).trans ((Reach.next _).trans ((Reach.mustBe _ _).trans
      ((he _ _ h1).trans (Reach.emitPlain _ _ _ (by decide) (by decide) (by decide)
      (by decide) (by decide)))))
  split at h
  · simp only [Option.bind_eq_some] at h
    obtain ⟨p1, h1, p2, h2, h3⟩ := h
    refine (Reach.match_ p _).trans ((he _ _ h1).trans ?_)
    split at h3
    · simp only [Option.bind_eq_some] at h3
      obtain ⟨p5, h4, h5⟩ := h3
      cases h5
      refine Reach.trans ?_ (Reach.mustBe _ _)
      refine Reach.patchElse _ _ _ _ ?_ ?_ (hs _ _ h4) ?_
      · exact (Reach.mustBe _ _).trans ((hs _ _ h2).trans (Reach.match_ _ _))
      · exact okCommand_jump _ _ _ (by decide) (by decide) (le_refl _)
      · exact okCommand_jump _ _ _ (by decide) (by decide) (le_refl _)
    · cases h3
      refine Reach.trans ?_ (Reach.mustBe _ _)
      refine Reach.patch _ _ ?_ ?_
      · exact (Reach.mustBe _ _).trans ((hs _ _ h2).trans (Reach.match_ _ _))
      · exact okCommand_jump _ _ _ (by decide) (by decide) (le_refl _)
  split at h
  · simp only [Option.bind_eq_some] at h
    obtain ⟨p1, h1, p2, h2, h3⟩ := h
    cases h3
    have r1 : Reach (p.match_ .T_WHILE).2 p1 := he _ _ h1
    have r2 : Reach p1.reserve.2 (p2.mustBe .T_OD) :=
      (Reach.mustBe _ _).trans ((hs _ _ h2).trans (Reach.mustBe _ _))
    refine (Reach.match_ p _).trans (r1.trans ?_)
    refine Reach.patch _ _ (r2.trans (Reach.emit _ _ _ ?_)) ?_
    · refine okCommand_jump _ _ _ (by decide) (by decide) ?_
      have l1 := r1.code_length_le
      have l2 := r2.code_length_le
      simp only [Parser.reserve, List.length_append, List.length_singleton] at l2
      simp only [Parser.getCurrentAddress]
      omega
    · exact okCommand_jump _ _ _ (by decide) (by decide) (le_refl _)
  split at h
  · simp only [Option.bind_eq_some] at h
    obtain ⟨p1, h1, h2⟩ := h
    cases h2
    exact (Reach.match_ p _).trans ((Reach.mustBe _ _).trans ((he _ _ h1).trans
      ((Reach.mustBe _ _).trans (Reach.emitPlain _ _ _ (by decide) (by decide) (by decide)
      (by decide) (by decide)))))
  · cases h
    exact (Reach.match_ p _).trans (Reach.report _ _)

theorem statementListLoop_sound (n : Nat) (hs : Sound statement n)
    (hl : Sound statementListLoop n) : Sound statementListLoop (n + 1) := by
  intro p q h
  simp only [statementListLoop, Option.bind_eq_some] at h
  obtain ⟨p1, h1, h2⟩ := h
  refine (hs _ _ h1).trans ((Reach.match_ p1 .T_SEMICOLON).trans ?_)
  split at h2
  · exact hl _ _ h2
  · cases h2
    exact Reach.refl _

theorem statementList_sound (n : Nat) (hl : Sound statementListLoop n) :
    Sound statementList (n + 1) := by
  intro p q h
  simp only [statementList] at h
  split at h
  · cases h
    exact Reach.refl _
  · exact hl _ _ h

theorem allSound (n : Nat) : AllSound n := by
  induction n with
  | zero =>
    refine ⟨?_, ?_, ?_, ?_, ?_, ?_, ?_, ?_, ?_, ?_, ?_, ?_, ?_, ?_, ?_, ?_, ?_, ?_, ?_, ?_⟩ <;>
      intro p q h
    · simp [statementList] at h
    · simp [statementListLoop] at h
    · simp [statement] at h
    · simp [expression] at h
    · simp [expressionLoop] at h
    · simp [orExpression] at h
    · simp [orExpressionLoop] at h
    · simp [andExpression] at h
    · simp [andExpressionLoop] at h
    · simp [bitwiseOrExpression] at h
    · simp [bitwiseOrExpressionLoop] at h
    · simp [bitwiseAndExpression] at h
    · simp [bitwiseAndExpressionLoop] at h
    · simp [equalityExpression] at h
    · simp [equalityExpressionLoop] at h
    · simp [relationalExpression] at h
    · simp [relationalExpressionLoop] at h
    · simp [term] at h
    · simp [termLoop] at h
    · simp [factor] at h
  | succ n ih =>
    obtain ⟨h1, h2, h3, h4, h5, h6, h7, h8, h9, h10, h11, h12, h13, h14, h15, h16, h17, h18,
      h19, h20⟩ := ih
    exact ⟨statementList_sound n h2, statementListLoop_sound n h3 h2, statement_sound n h4 h1,
      expression_sound n h6 h5, expressionLoop_sound n h6 h5, orExpression_sound n h8 h7,
      orExpressionLoop_sound n h8 h7, andExpression_sound n h10 h9,
      andExpressionLoop_sound n h10 h9, bitwiseOrExpression_sound n h12 h11,
      bitwiseOrExpressionLoop_sound n h12 h11, bitwiseAndExpression_sound n h14 h13,
      bitwiseAndExpressionLoop_sound n h14 h13, equalityExpression_sound n h16 h15,
      equalityExpressionLoop_sound n h16 h15, relationalExpression_sound n h18 h17,
      relationalExpressionLoop_sound n h18 h17, term_sound n h20 h19, termLoop_sound n h20 h19,
      factor_sound n h20 h4⟩

theorem statementList_reach {n : Nat} {p q : Parser} (h : statementList n p = some q) :
    Reach p q := (allSound n).1 p q h

theorem statement_reach {n : Nat} {p q : Parser} (h : statement n p = some q) :
    Reach p q := (allSound n).2.2.1 p q h

theorem expression_reach {n : Nat} {p q : Parser} (h : expression n p = some q) :
    Reach p q := (allSound n).2.2.2.1 p q h

theorem orExpression_reach {n : Nat} {p q : Parser} (h : orExpression n p = some q) :
    Reach p q := (allSound n).2.2.2.2.2.1 p q h

theorem andExpression_reach {n : Nat} {p q : Parser} (h : andExpression n p = some q) :
    Reach p q := (allSound n).2.2.2.2.2.2.2.1 p q h

theorem program_reach {n : Nat} {p q : Parser} (h : program n p = some q) :
    ∃ p1, Reach p p1 ∧ q = p1.emit .STOP none := by
  simp only [program, Option.bind_eq_some] at h
  obtain ⟨p1, h1, h2⟩ := h
  cases h2
  exact ⟨_, (Reach.mustBe _ _).trans ((statementList_reach h1).trans (Reach.mustBe _ _)), rfl⟩

/-! ## What the steps of a production preserve -/

theorem set_length_append {α : Type} (l1 l2 : List α) (a b : α) :
    (l1 ++ a :: l2).set l1.length b = l1 ++ b :: l2 := by
  induction l1 with
  | nil => rfl
  | cons x xs ih => simp [ih]

theorem Reach.scanner_suffix {p q : Parser} (h : Reach p q) : q.scanner_ <:+ p.scanner_ := by
  induction h with
  | refl p => exact List.suffix_refl _
  | trans _ _ ih1 ih2 => exact ih2.trans ih1
  | scan p ts hts => exact hts
  | report p d => exact List.suffix_refl _
  | vars p x =>
    unfold Parser.findOrAddVariable
    split <;> exact List.suffix_refl _
  | emit p i arg _ => exact List.suffix_refl _
  | patch i arg _ _ ih => exact ih
  | patchElse i1 i2 arg1 arg2 _ _ _ _ ih1 ih2 => exact ih2.trans ih1
  | patchPair i1 i2 arg1 arg2 _ _ _ ih => exact ih

theorem Reach.scanner_length_le {p q : Parser} (h : Reach p q) :
    q.scanner_.length ≤ p.scanner_.length :=
  h.scanner_suffix.length_le

theorem Reach.error_mono {p q : Parser} (h : Reach p q) :
    (p.error_ = true → q.error_ = true) ∧ (ErrorReported p → ErrorReported q) ∧
      q.flushed = p.flushed := by
  induction h with
  | refl p => exact ⟨id, id, rfl⟩
  | trans _ _ ih1 ih2 =>
    exact ⟨fun h => ih2.1 (ih1.1 h), fun h => ih2.2.1 (ih1.2.1 h), ih2.2.2.trans ih1.2.2⟩
  | scan p ts hts => exact ⟨id, id, rfl⟩
  | report p d => exact ⟨fun _ => rfl, fun _ => by simp [ErrorReported, Parser.reportError], rfl⟩
  | vars p x =>
    unfold Parser.findOrAddVariable
    split <;> exact ⟨id, id, rfl⟩
  | emit p i arg _ => exact ⟨id, id, rfl⟩
  | patch i arg _ _ ih => exact ih
  | patchElse i1 i2 arg1 arg2 _ _ _ _ ih1 ih2 =>
    exact ⟨fun h => ih2.1 (ih1.1 h), fun h => ih2.2.1 (ih1.2.1 h), ih2.2.2.trans ih1.2.2⟩
  | patchPair i1 i2 arg1 arg2 _ _ _ ih => exact ih

theorem Reach.frame {p q : Parser} (h : Reach p q) : Frame p q := by
  induction h with
  | refl p => exact ⟨[], by simp, by simp⟩
  | @trans p q r h1 h2 ih1 ih2 =>
    obtain ⟨c1, e1, o1⟩ := ih1
    obtain ⟨c2, e2, o2⟩ := ih2
    refine ⟨c1 ++ c2, by rw [e2, e1, List.append_assoc], fun x hx => ?_⟩
    rcases List.mem_append.mp hx with hx | hx
    · exact (o1 x hx).weaken h2.code_length_le
    · exact o2 x hx
  | scan p ts hts => exact ⟨[], by simp, by simp⟩
  | report p d => exact ⟨[], by simp [Parser.reportError], by simp⟩
  | vars p x =>
    unfold Parser.findOrAddVariable
    split <;> exact ⟨[], by simp, by simp⟩
  | emit p i arg hok =>
    refine ⟨[⟨i, arg⟩], rfl, fun x hx => ?_⟩
    rw [List.mem_singleton] at hx
    subst hx
    exact hok.weaken (by simp [Parser.emit])
  | @patch p q i arg h1 hok ih =>
    obtain ⟨c, e, o⟩ := ih
    simp only [Parser.reserve, List.append_assoc, List.singleton_append] at e
    have hlen : (q.emitAt p.reserve.1 i arg).code.length = q.code.length := by
      simp [Parser.emitAt]
    refine ⟨⟨i, arg⟩ :: c, ?_, fun x hx => ?_⟩
    · simp only [Parser.emitAt, Parser.reserve, e]
      exact set_length_append _ _ _ _
    · rw [hlen]
      rcases List.mem_cons.mp hx with hx | hx
      · rw [hx]
        exact hok
      · exact o x hx
  | @patchElse p q r i1 i2 arg1 arg2 h1 hok1 h2 hok2 ih1 ih2 =>
    obtain ⟨c1, e1, o1⟩ := ih1
    obtain ⟨c2, e2, o2⟩ := ih2
    simp only [Parser.reserve, List.append_assoc, List.singleton_append] at e1
    have l2 := h2.code_length_le
    have e3 : (q.reserve.2.emitAt p.reserve.1 i1 arg1).code =
        p.code ++ ⟨i1, arg1⟩ :: (c1 ++ [⟨.NOP, none⟩]) := by
      simp only [Parser.emitAt, Parser.reserve, e1, List.append_assoc, List.cons_append]
      exact set_length_append _ _ _ _
    have hq : q.code.length = (p.code ++ ⟨i1, arg1⟩ :: c1).length := by
      rw [e1]
      simp
    have hlen : (r.emitAt q.reserve.1 i2 arg2).code.length = r.code.length := by
      simp [Parser.emitAt]
    have hl3 : (q.reserve.2.emitAt p.reserve.1 i1 arg1).code.length = q.code.length + 1 := by
      simp [Parser.emitAt, Parser.reserve]
    refine ⟨⟨i1, arg1⟩ :: (c1 ++ ⟨i2, arg2⟩ :: c2), ?_, fun x hx => ?_⟩
    · have e4 : r.code = (p.code ++ ⟨i1, arg1⟩ :: c1) ++ ⟨.NOP, none⟩ :: c2 := by
        rw [e2, e3]
        simp
      simp only [Parser.emitAt, Parser.reserve]
      rw [hq, e4, set_length_append]
      simp
    · rw [hlen]
      rcases List.mem_cons.mp hx with hx | hx
      · rw [hx]
        refine hok1.weaken ?_
        have : q.reserve.2.code.length = q.code.length + 1 := by simp [Parser.reserve]
        omega
      · rcases List.mem_append.mp hx with hx | hx
        · exact (o1 x hx).weaken (by omega)
        · rcases List.mem_cons.mp hx with hx | hx
          · rw [hx]
            exact hok2
          · exact o2 x hx
  | @patchPair p q i1 i2 arg1 arg2 h1 hok1 hok2 ih =>
    obtain ⟨c, e, o⟩ := ih
    simp only [Parser.reserve, List.append_assoc, List.singleton_append, List.cons_append,
      List.nil_append] at e
    have hlen : ((q.emitAt p.reserve.1 i1 arg1).emitAt p.reserve.2.reserve.1 i2 arg2).code.length
        = q.code.length := by
      simp [Parser.emitAt]
    refine ⟨⟨i1, arg1⟩ :: ⟨i2, arg2⟩ :: c, ?_, fun x hx => ?_⟩
    · simp only [Parser.emitAt, Parser.reserve, e]
      rw [set_length_append]
      have h2 : (p.code ++ [(⟨.NOP, none⟩ : Command)]).length =
          (p.code ++ [(⟨i1, arg1⟩ : Command)]).length := by
        simp
      have h3 : p.code ++ ⟨i1, arg1⟩ :: ⟨.NOP, none⟩ :: c =
          (p.code ++ [⟨i1, arg1⟩]) ++ ⟨.NOP, none⟩ :: c := by simp
      rw [h2, h3, set_length_append]
      simp
    · rw [hlen]
      rcases List.mem_cons.mp hx with hx | hx
      · rw [hx]
        exact hok1
      · rcases List.mem_cons.mp hx with hx | hx
        · rw [hx]
          exact hok2
        · exact o x hx

theorem statementListLoop_reach {n : Nat} {p q : Parser} (h : statementListLoop n p = some q) :
    Reach p q := (allSound n).2.1 p q h

theorem expressionLoop_reach {n : Nat} {p q : Parser} (h : expressionLoop n p = some q) :
    Reach p q := (allSound n).2.2.2.2.1 p q h

theorem orExpressionLoop_reach {n : Nat} {p q : Parser} (h : orExpressionLoop n p = some q) :
    Reach p q := (allSound n).2.2.2.2.2.2.1 p q h

theorem andExpressionLoop_reach {n : Nat} {p q : Parser} (h : andExpressionLoop n p = some q) :
    Reach p q := (allSound n).2.2.2.2.2.2.2.2.1 p q h

theorem bitwiseOrExpression_reach {n : Nat} {p q : Parser} (h : bitwiseOrExpression n p = some q) :
    Reach p q := (allSound n).2.2.2.2.2.2.2.2.2.1 p q h

theorem bitwiseOrExpressionLoop_reach {n : Nat} {p q : Parser} (h : bitwiseOrExpressionLoop n p = some q) :
    Reach p q := (allSound n).2.2.2.2.2.2.2.2.2.2.1 p q h

theorem bitwiseAndExpression_reach {n : Nat} {p q : Parser} (h : bitwiseAndExpression n p = some q) :
    Reach p q := (allSound n).2.2.2.2.2.2.2.2.2.2.2.1 p q h

theorem bitwiseAndExpressionLoop_reach {n : Nat} {p q : Parser} (h : bitwiseAndExpressionLoop n p = some q) :
    Reach p q := (allSound n).2.2.2.2.2.2.2.2.2.2.2.2.1 p q h

theorem equalityExpression_reach {n : Nat} {p q : Parser} (h : equalityExpression n p = some q) :
    Reach p q := (allSound n).2.2.2.2.2.2.2.2.2.2.2.2.2.1 p q h

theorem equalityExpressionLoop_reach {n : Nat} {p q : Parser} (h : equalityExpressionLoop n p = some q) :
    Reach p q := (allSound n).2.2.2.2.2.2.2.2.2.2.2.2.2.2.1 p q h

theorem relationalExpression_reach {n : Nat} {p q : Parser} (h : relationalExpression n p = some q) :
    Reach p q := (allSound n).2.2.2.2.2.2.2.2.2.2.2.2.2.2.2.1 p q h

theorem relationalExpressionLoop_reach {n : Nat} {p q : Parser} (h : relationalExpressionLoop n p = some q) :
    Reach p q := (allSound n).2.2.2.2.2.2.2.2.2.2.2.2.2.2.2.2.1 p q h

theorem term_reach {n : Nat} {p q : Parser} (h : term n p = some q) :
    Reach p q := (allSound n).2.2.2.2.2.2.2.2.2.2.2.2.2.2.2.2.2.1 p q h

theorem termLoop_reach {n : Nat} {p q : Parser} (h : termLoop n p = some q) :
    Reach p q := (allSound n).2.2.2.2.2.2.2.2.2.2.2.2.2.2.2.2.2.2.1 p q h

theorem factor_reach {n : Nat} {p q : Parser} (h : factor n p = some q) :
    Reach p q := (allSound n).2.2.2.2.2.2.2.2.2.2.2.2.2.2.2.2.2.2.2 p q h

/-! ## Termination: a call depth of ten per lexeme suffices -/

@[simp] theorem Parser.emit_scanner (p : Parser) (i : Instruction) (arg : Option Int) :
    (p.emit i arg).scanner_ = p.scanner_ := rfl

@[simp] theorem Parser.reserve_scanner (p : Parser) : p.reserve.2.scanner_ = p.scanner_ := rfl

@[simp] theorem Parser.emitAt_scanner (p : Parser) (a : Nat) (i : Instruction)
    (arg : Option Int) : (p.emitAt a i arg).scanner_ = p.scanner_ := rfl

@[simp] theorem Parser.reportError_scanner (p : Parser) (d : Diagnostic) :
    (p.reportError d).scanner_ = p.scanner_ := rfl

@[simp] theorem Parser.findOrAddVariable_scanner (p : Parser) (x : String) :
    (p.findOrAddVariable x).2.scanner_ = p.scanner_ := by
  unfold Parser.findOrAddVariable
  split <;> rfl

@[simp] theorem Parser.match_fst (p : Parser) (t : Token) : (p.match_ t).1 = p.see t := by
  unfold Parser.match_
  split <;> simp_all

theorem Parser.match_snd_of_see (p : Parser) (t : Token) (h : p.see t = true) :
    (p.match_ t).2 = p.next := by
  simp [Parser.match_, h]

theorem Parser.match_snd_of_not_see (p : Parser) (t : Token) (h : ¬ p.see t = true) :
    (p.match_ t).2 = p := by
  simp [Parser.match_, h]

theorem Parser.next_length (p : Parser) : p.next.scanner_.length = p.scanner_.length - 1 := by
  simp [Parser.next]

theorem Parser.length_pos_of_see (p : Parser) (t : Token) (h : p.see t = true)
    (ht : t ≠ .T_EOF) : 0 < p.scanner_.length := by
  cases hs : p.scanner_ with
  | nil =>
    simp [Parser.see, Parser.token, Parser.lexeme, hs, Lexeme.eof] at h
    exact absurd h.symm ht
  | cons l ls => simp

theorem Parser.mustBe_length_le (p : Parser) (t : Token) :
    (p.mustBe t).scanner_.length ≤ p.scanner_.length :=
  (Reach.mustBe p t).scanner_length_le

theorem Parser.match_length_le (p : Parser) (t : Token) :
    (p.match_ t).2.scanner_.length ≤ p.scanner_.length :=
  (Reach.match_ p t).scanner_length_le

theorem factor_total (n : Nat) (hf : Total factor 1 n) (he : Total expression 9 n) :
    Total factor 1 (n + 1) := by
  intro p hp
  simp only [factor]
  split
  · exact ⟨_, rfl⟩
  split
  · exact ⟨_, rfl⟩
  split
  · exact ⟨_, rfl⟩
  split
  · exact ⟨_, rfl⟩
  split
  · rename_i hsee
    simp only [Bool.and_eq_true] at hsee
    have hpos := p.length_pos_of_see _ hsee.1 (by decide)
    have hlen := p.next_length
    obtain ⟨p1, h1⟩ := hf p.next (by omega)
    exact ⟨_, by rw [h1]; rfl⟩
  split
  · rename_i hsee
    have hpos := p.length_pos_of_see _ hsee (by decide)
    have hlen := p.next_length
    obtain ⟨p1, h1⟩ := hf p.next (by omega)
    exact ⟨_, by rw [h1]; rfl⟩
  split
  · rename_i hsee
    rw [Parser.match_fst] at hsee
    have hpos := p.length_pos_of_see _ hsee (by decide)
    have hlen := p.next_length
    rw [p.match_snd_of_see _ hsee]
    obtain ⟨p1, h1⟩ := he p.next (by omega)
    exact ⟨_, by rw [h1]; rfl⟩
  split
  · exact ⟨_, rfl⟩
  · exact ⟨_, rfl⟩

theorem term_total (n : Nat) (hf : Total factor 1 n) (hl : Total termLoop 1 n) :
    Total term 2 (n + 1) := by
  intro p hp
  obtain ⟨p1, h1⟩ := hf p (by omega)
  have l1 := (factor_reach h1).scanner_length_le
  obtain ⟨q, h2⟩ := hl p1 (by omega)
  exact ⟨q, by simp only [term, h1, Option.some_bind, h2]⟩

theorem termLoop_total (n : Nat) (hf : Total factor 1 n) (hl : Total termLoop 1 n) :
    Total termLoop 1 (n + 1) := by
  intro p hp
  simp only [termLoop]
  split
  · rename_i hsee
    have hpos := p.length_pos_of_see _ hsee (by decide)
    have hlen := p.next_length
    obtain ⟨p1, h1⟩ := hf p.next (by omega)
    have l1 := (factor_reach h1).scanner_length_le
    rw [h1, Option.some_bind]
    apply hl
    split <;> (simp only [Parser.emit_scanner]; omega)
  · exact ⟨_, rfl⟩

theorem relationalExpression_total (n : Nat) (hf : Total term 2 n) (hl : Total relationalExpressionLoop 1 n) :
    Total relationalExpression 3 (n + 1) := by
  intro p hp
  obtain ⟨p1, h1⟩ := hf p (by omega)
  have l1 := (term_reach h1).scanner_length_le
  obtain ⟨q, h2⟩ := hl p1 (by omega)
  exact ⟨q, by simp only [relationalExpression, h1, Option.some_bind, h2]⟩

theorem relationalExpressionLoop_total (n : Nat) (hf : Total term 2 n) (hl : Total relationalExpressionLoop 1 n) :
    Total relationalExpressionLoop 1 (n + 1) := by
  intro p hp
  simp only [relationalExpressionLoop]
  split
  · rename_i hsee
    have hpos := p.length_pos_of_see _ hsee (by decide)
    have hlen := p.next_length
    obtain ⟨p1, h1⟩ := hf p.next (by omega)
    have l1 := (term_reach h1).scanner_length_le
    rw [h1, Option.some_bind]
    apply hl
    split <;> (simp only [Parser.emit_scanner]; omega)
  · exact ⟨_, rfl⟩

theorem equalityExpression_total (n : Nat) (hf : Total relationalExpression 3 n) (hl : Total equalityExpressionLoop 1 n) :
    Total equalityExpression 4 (n + 1) := by
  intro p hp
  obtain ⟨p1, h1⟩ := hf p (by omega)
  have l1 := (relationalExpression_reach h1).scanner_length_le
  obtain ⟨q, h2⟩ := hl p1 (by omega)
  exact ⟨q, by simp only [equalityExpression, h1, Option.some_bind, h2]⟩

theorem equalityExpressionLoop_total (n : Nat) (hf : Total relationalExpression 3 n) (hl : Total equalityExpressionLoop 1 n) :
    Total equalityExpressionLoop 1 (n + 1) := by
  intro p hp
  simp only [equalityExpressionLoop]
  split
  · rename_i hsee
    split
    · have hpos := p.length_pos_of_see _ hsee (by decide)
      have hlen := p.next_length
      obtain ⟨p1, h1⟩ := hf p.next (by omega)
      have l1 := (relationalExpression_reach h1).scanner_length_le
      rw [h1, Option.some_bind]
      apply hl
      simp only [Parser.emit_scanner]
      omega
    · exact ⟨_, rfl⟩
  · exact ⟨_, rfl⟩

theorem bitwiseAndExpression_total (n : Nat) (hf : Total equalityExpression 4 n) (hl : Total bitwiseAndExpressionLoop 1 n) :
    Total bitwiseAndExpression 5 (n + 1) := by
  intro p hp
  obtain ⟨p1, h1⟩ := hf p (by omega)
  have l1 := (equalityExpression_reach h1).scanner_length_le
  obtain ⟨q, h2⟩ := hl p1 (by omega)
  exact ⟨q, by simp only [bitwiseAndExpression, h1, Option.some_bind, h2]⟩

theorem bitwiseAndExpressionLoop_total (n : Nat) (hf : Total equalityExpression 4 n) (hl : Total bitwiseAndExpressionLoop 1 n) :
    Total bitwiseAndExpressionLoop 1 (n + 1) := by
  intro p hp
  simp only [bitwiseAndExpressionLoop]
  split
  · rename_i hsee
    split
    · have hpos := p.length_pos_of_see _ hsee (by decide)
      have hlen := p.next_length
      obtain ⟨p1, h1⟩ := hf p.next (by omega)
      have l1 := (equalityExpression_reach h1).scanner_length_le
      rw [h1, Option.some_bind]
      apply hl
      simp only [Parser.emit_scanner]
      omega
    · exact ⟨_, rfl⟩
  · exact ⟨_, rfl⟩

theorem bitwiseOrExpression_total (n : Nat) (hf : Total bitwiseAndExpression 5 n) (hl : Total bitwiseOrExpressionLoop 1 n) :
    Total bitwiseOrExpression 6 (n + 1) := by
  intro p hp
  obtain ⟨p1, h1⟩ := hf p (by omega)
  have l1 := (bitwiseAndExpression_reach h1).scanner_length_le
  obtain ⟨q, h2⟩ := hl p1 (by omega)
  exact ⟨q, by simp only [bitwiseOrExpression, h1, Option.some_bind, h2]⟩

theorem bitwiseOrExpressionLoop_total (n : Nat) (hf : Total bitwiseAndExpression 5 n) (hl : Total bitwiseOrExpressionLoop 1 n) :
    Total bitwiseOrExpressionLoop 1 (n + 1) := by
  intro p hp
  simp only [bitwiseOrExpressionLoop]
  split
  · rename_i hsee
    have hpos := p.length_pos_of_see _ hsee (by decide)
    have hlen := p.next_length
    obtain ⟨p1, h1⟩ := hf p.next (by omega)
    have l1 := (bitwiseAndExpression_reach h1).scanner_length_le
    rw [h1, Option.some_bind]
    apply hl
    simp only [Parser.emit_scanner]
    omega
  · exact ⟨_, rfl⟩

theorem andExpression_total (n : Nat) (hf : Total bitwiseOrExpression 6 n) (hl : Total andExpressionLoop 1 n) :
    Total andExpression 7 (n + 1) := by
  intro p hp
  obtain ⟨p1, h1⟩ := hf p (by omega)
  have l1 := (bitwiseOrExpression_reach h1).scanner_length_le
  obtain ⟨q, h2⟩ := hl p1 (by omega)
  exact ⟨q, by simp only [andExpression, h1, Option.some_bind, h2]⟩

theorem andExpressionLoop_total (n : Nat) (hf : Total bitwiseOrExpression 6 n) (hl : Total andExpressionLoop 1 n) :
    Total andExpressionLoop 1 (n + 1) := by
  intro p hp
  simp only [andExpressionLoop]
  split
  · rename_i hsee
    have hpos := p.length_pos_of_see _ hsee (by decide)
    have hlen := p.next_length
    obtain ⟨p1, h1⟩ := hf p.next (by omega)
    have l1 := (bitwiseOrExpression_reach h1).scanner_length_le
    rw [h1, Option.some_bind]
    apply hl
    simp only [Parser.emit_scanner]
    omega
  · exact ⟨_, rfl⟩

theorem orExpression_total (n : Nat) (hf : Total andExpression 7 n) (hl : Total orExpressionLoop 1 n) :
    Total orExpression 8 (n + 1) := by
  intro p hp
  obtain ⟨p1, h1⟩ := hf p (by omega)
  have l1 := (andExpression_reach h1).scanner_length_le
  obtain ⟨q, h2⟩ := hl p1 (by omega)
  exact ⟨q, by simp only [orExpression, h1, Option.some_bind, h2]⟩

theorem orExpressionLoop_total (n : Nat) (hf : Total andExpression 7 n) (hl : Total orExpressionLoop 1 n) :
    Total orExpressionLoop 1 (n + 1) := by
  intro p hp
  simp only [orExpressionLoop]
  split
  · rename_i hsee
    have hpos := p.length_pos_of_see _ hsee (by decide)
    obtain ⟨p1, h1⟩ := hf ((p.emit .PUSH (some 0)).emit .COMPARE (some Cmp.C_NE.toInt)).reserve.2.reserve.2.next (by
      simp only [Parser.next_length, Parser.reserve_scanner, Parser.emit_scanner]
      omega)
    have l1 := (andExpression_reach h1).scanner_length_le
    simp only [Parser.next_length, Parser.reserve_scanner, Parser.emit_scanner] at l1
    rw [h1, Option.some_bind]
    apply hl
    simp only [Parser.emit_scanner, Parser.emitAt_scanner]
    omega
  · exact ⟨_, rfl⟩

theorem expression_total (n : Nat) (hf : Total orExpression 8 n) (hl : Total expressionLoop 1 n) :
    Total expression 9 (n + 1) := by
  intro p hp
  obtain ⟨p1, h1⟩ := hf p (by omega)
  have l1 := (orExpression_reach h1).scanner_length_le
  obtain ⟨q, h2⟩ := hl p1 (by omega)
  exact ⟨q, by simp only [expression, h1, Option.some_bind, h2]⟩

theorem expressionLoop_total (n : Nat) (hf : Total orExpression 8 n) (hl : Total expressionLoop 1 n) :
    Total expressionLoop 1 (n + 1) := by
  intro p hp
  simp only [expressionLoop]
  split
  · rename_i hsee
    have hpos := p.length_pos_of_see _ hsee (by decide)
    obtain ⟨p1, h1⟩ := hf p.reserve.2.reserve.2.next (by
      simp only [Parser.next_length, Parser.reserve_scanner, Parser.emit_scanner]
      omega)
    have l1 := (orExpression_reach h1).scanner_length_le
    simp only [Parser.next_length, Parser.reserve_scanner, Parser.emit_scanner] at l1
    rw [h1, Option.some_bind]
    apply hl
    simp only [Parser.emit_scanner, Parser.emitAt_scanner]
    omega
  · exact ⟨_, rfl⟩

theorem bind_total {x : Option Parser} {f : Parser → Option Parser} (hx : ∃ a, x = some a)
    (hf : ∀ a, x = some a → ∃ q, f a = some q) : ∃ q, x.bind f = some q := by
  obtain ⟨a, ha⟩ := hx
  obtain ⟨q, hq⟩ := hf a ha
  exact ⟨q, by rw [ha, Option.some_bind, hq]⟩

theorem statement_total (n : Nat) (he : Total expression 9 n) (hs : Total statementList 3 n) :
    Total statement 1 (n + 1) := by
  intro p hp
  have hlen := p.next_length
  simp only [statement]
  split
  · rename_i hsee
    have hpos := p.length_pos_of_see _ hsee (by decide)
    refine bind_total (he _ ?_) (fun p2 _ => ⟨_, rfl⟩)
    have l1 := Parser.mustBe_length_le (p.findOrAddVariable p.lexeme.stringValue).2.next .T_ASSIGN
    simp only [Parser.next_length, Parser.findOrAddVariable_scanner] at l1
    omega
  split
  · rename_i hsee
    rw [Parser.match_fst] at hsee
    have hpos := p.length_pos_of_see _ hsee (by decide)
    rw [p.match_snd_of_see _ hsee]
    refine bind_total (he _ (by omega)) (fun p1 h1 => ?_)
    have l1 := (expression_reach h1).scanner_length_le
    have l2 := Parser.mustBe_length_le p1.reserve.2 .T_THEN
    simp only [Parser.reserve_scanner] at l2
    refine bind_total (hs _ (by omega)) (fun p2 h2 => ?_)
    have l3 := (statementList_reach h2).scanner_length_le
    have l4 := Parser.match_length_le p2 .T_ELSE
    split
    · refine bind_total (hs _ ?_) (fun p5 _ => ⟨_, rfl⟩)
      simp only [Parser.emitAt_scanner, Parser.reserve_scanner]
      omega
    · exact ⟨_, rfl⟩
  split
  · rename_i hsee
    rw [Parser.match_fst] at hsee
    have hpos := p.length_pos_of_see _ hsee (by decide)
    rw [p.match_snd_of_see _ hsee]
    refine bind_total (he _ (by omega)) (fun p1 h1 => ?_)
    have l1 := (expression_reach h1).scanner_length_le
    have l2 := Parser.mustBe_length_le p1.reserve.2 .T_DO
    simp only [Parser.reserve_scanner] at l2
    exact bind_total (hs _ (by omega)) (fun p2 _ => ⟨_, rfl⟩)
  split
  · rename_i hsee
    rw [Parser.match_fst] at hsee
    have hpos := p.length_pos_of_see _ hsee (by decide)
    rw [p.match_snd_of_see _ hsee]
    have l1 := Parser.mustBe_length_le p.next .T_LPAREN
    exact bind_total (he _ (by omega)) (fun p1 _ => ⟨_, rfl⟩)
  · exact ⟨_, rfl⟩

theorem statementListLoop_total (n : Nat) (hs : Total statement 1 n)
    (hl : Total statementListLoop 2 n) : Total statementListLoop 2 (n + 1) := by
  intro p hp
  simp only [statementListLoop]
  refine bind_total (hs _ (by omega)) (fun p1 h1 => ?_)
  have l1 := (statement_reach h1).scanner_length_le
  split
  · rename_i hsee
    rw [Parser.match_fst] at hsee
    have hpos := p1.length_pos_of_see _ hsee (by decide)
    have hlen := p1.next_length
    rw [p1.match_snd_of_see _ hsee]
    exact hl _ (by omega)
  · exact ⟨_, rfl⟩

theorem statementList_total (n : Nat) (hl : Total statementListLoop 2 n) :
    Total statementList 3 (n + 1) := by
  intro p hp
  simp only [statementList]
  split
  · exact ⟨_, rfl⟩
  · exact hl _ (by omega)

theorem allTotal (n : Nat) : AllTotal n := by
  induction n with
  | zero =>
    refine ⟨?_, ?_, ?_, ?_, ?_, ?_, ?_, ?_, ?_, ?_, ?_, ?_, ?_, ?_, ?_, ?_, ?_, ?_, ?_, ?_⟩ <;>
      intro p hp <;> omega
  | succ n ih =>
    obtain ⟨h1, h2, h3, h4, h5, h6, h7, h8, h9, h10, h11, h12, h13, h14, h15, h16, h17, h18,
      h19, h20⟩ := ih
    exact ⟨statementList_total n h2, statementListLoop_total n h3 h2, statement_total n h4 h1,
      expression_total n h6 h5, expressionLoop_total n h6 h5, orExpression_total n h8 h7,
      orExpressionLoop_total n h8 h7, andExpression_total n h10 h9,
      andExpressionLoop_total n h10 h9, bitwiseOrExpression_total n h12 h11,
      bitwiseOrExpressionLoop_total n h12 h11, bitwiseAndExpression_total n h14 h13,
      bitwiseAndExpressionLoop_total n h14 h13, equalityExpression_total n h16 h15,
      equalityExpressionLoop_total n h16 h15, relationalExpression_total n h18 h17,
      relationalExpressionLoop_total n h18 h17, term_total n h20 h19, termLoop_total n h20 h19,
      factor_total n h20 h4⟩

theorem program_total (n : Nat) (p : Parser) (h : 10 * p.scanner_.length + 3 ≤ n) :
    ∃ q, program n p = some q := by
  have l1 := Parser.mustBe_length_le p .T_BEGIN
  exact bind_total ((allTotal n).1 _ (by omega)) (fun p1 _ => ⟨_, rfl⟩)

theorem parse_total (n : Nat) (p : Parser) (h : 10 * p.scanner_.length + 3 ≤ n) :
    ∃ q, parse n p = some q := by
  obtain ⟨q, hq⟩ := program_total n p h
  exact ⟨_, by rw [parse, hq]; rfl⟩

/-! ## Fields that the token-level operations leave alone -/

theorem Parser.recover_code (p : Parser) (t : Token) : (p.recover t).code = p.code := by
  unfold Parser.recover
  dsimp only
  split <;> rfl

theorem Parser.recover_error (p : Parser) (t : Token) : (p.recover t).error_ = p.error_ := by
  unfold Parser.recover
  dsimp only
  split <;> rfl

@[simp] theorem Parser.mustBe_code (p : Parser) (t : Token) : (p.mustBe t).code = p.code := by
  rw [Parser.mustBe_eq]
  split
  · rfl
  · rw [Parser.recover_code]
    rfl

theorem Parser.mustBe_error (p : Parser) (t : Token) :
    (p.mustBe t).error_ = (p.error_ || !p.see t) := by
  rw [Parser.mustBe_eq]
  split
  · rename_i h
    simp [h, Parser.next]
  · rename_i h
    rw [Parser.recover_error]
    simp [h, Parser.reportError]

theorem Parser.mustBe_of_see (p : Parser) (t : Token) (h : p.see t = true) :
    p.mustBe t = p.next := by
  rw [Parser.mustBe_eq, if_pos h]

@[simp] theorem Parser.match_code (p : Parser) (t : Token) : (p.match_ t).2.code = p.code := by
  unfold Parser.match_
  split <;> rfl

@[simp] theorem Parser.match_error (p : Parser) (t : Token) :
    (p.match_ t).2.error_ = p.error_ := by
  unfold Parser.match_
  split <;> rfl

/-! ## Whole programs and control statements -/

/-- C1: for all integer literals `a`, `b`, `c`, translating
`begin write(a+b*c) end` returns with the error flag clear and with the
instruction buffer `PUSH a, PUSH b, PUSH c, MULT, ADD, PRINT, STOP`. -/
theorem write_sum_product_code (a b c : Int) :
    ∃ r, parse (parseFuel (writeSumProduct a b c)) (Parser.init (writeSumProduct a b c)) = some r ∧
      r.error_ = false ∧
      r.code = [⟨.PUSH, some a⟩, ⟨.PUSH, some b⟩, ⟨.PUSH, some c⟩, ⟨.MULT, none⟩,
        ⟨.ADD, none⟩, ⟨.PRINT, none⟩, ⟨.STOP, none⟩] := by
  have h : parse (parseFuel (writeSumProduct a b c)) (Parser.init (writeSumProduct a b c)) =
      some ⟨[], false, [], 0, [⟨.PUSH, some a⟩, ⟨.PUSH, some b⟩, ⟨.PUSH, some c⟩,
        ⟨.MULT, none⟩, ⟨.ADD, none⟩, ⟨.PRINT, none⟩, ⟨.STOP, none⟩], [], [], true, []⟩ := by
    conv => lhs; whnf
    simp [Parser.mustBe, Parser.match_, Parser.see, Parser.token, Parser.lexeme, Parser.next,
      Parser.emit, Parser.init, writeSumProduct, Lexeme.kw, Lexeme.num, Lexeme.addop,
      Lexeme.mulop, Parser.flush]
  exact ⟨_, h, rfl, rfl⟩

theorem parse_code {n : Nat} {p r : Parser} (h : parse n p = some r) :
    ∃ p1, Reach p p1 ∧ r.code = p1.code ++ [⟨.STOP, none⟩] ∧
      r.error_ = p1.error_ ∧ r.diagnostics = p1.diagnostics ∧ r.flushed = (!p1.error_ || p1.flushed) := by
  simp only [parse, Option.bind_eq_some] at h
  obtain ⟨q, h1, h2⟩ := h
  obtain ⟨p1, r1, e1⟩ := program_reach h1
  refine ⟨p1, r1, ?_⟩
  cases h2
  subst e1
  by_cases he : p1.error_ = true <;> simp [he, Parser.emit, Parser.flush]

/-- C2: whenever `parse` translates a token sequence with the error flag clear,
the instruction buffer holds exactly one `STOP` and it is the last instruction;
`parse` returns on every token sequence, and what `statementList` (the whole
body of `program`) appends to the buffer holds no `STOP`. -/
theorem stop_once_and_last (toks : List Lexeme) :
    (∃ r, parse (parseFuel toks) (Parser.init toks) = some r) ∧
    (∀ n r, parse n (Parser.init toks) = some r → r.error_ = false →
      (r.code.map (·.instruction)).count .STOP = 1 ∧
      (r.code.map (·.instruction)).getLast? = some .STOP) ∧
    (∀ n p q, statementList n p = some q →
      ∃ c, q.code = p.code ++ c ∧ ∀ x ∈ c, x.instruction ≠ .STOP) := by
  refine ⟨parse_total _ _ (le_refl _), fun n r h _ => ?_, fun n p q h => ?_⟩
  · obtain ⟨p1, r1, e1, -⟩ := parse_code h
    obtain ⟨c, ec, oc⟩ := r1.frame
    have hc : (c.map (·.instruction)).count .STOP = 0 := by
      rw [List.count_eq_zero]
      intro hmem
      obtain ⟨x, hx, hxs⟩ := List.mem_map.mp hmem
      exact (oc x hx).2.1 hxs
    simp only [Parser.init, List.nil_append] at ec
    rw [e1, ec]
    simp [hc]
  · obtain ⟨c, ec, oc⟩ := (statementList_reach h).frame
    exact ⟨c, ec, fun x hx => (oc x hx).2.1⟩

/-- C2 at `begin if read>0 then write(1) else write(0) fi end`: the translation
has the error flag clear, one `STOP`, and the `STOP` is last. -/
theorem stop_once_and_last_witness :
    ∃ r, parse (parseFuel ifReadSample) (Parser.init ifReadSample) = some r ∧
      r.error_ = false ∧
      (r.code.map (·.instruction)).count .STOP = 1 ∧
      (r.code.map (·.instruction)).getLast? = some .STOP :=
  have h : ∃ r, parse (parseFuel ifReadSample) (Parser.init ifReadSample) = some r ∧
      r.error_ = false := by decide
  h.elim fun r hr => ⟨r, hr.1, hr.2, (stop_once_and_last ifReadSample).2.1 _ r hr.1 hr.2⟩

@[simp] theorem Parser.emit_see (p : Parser) (i : Instruction) (arg : Option Int) (t : Token) :
    (p.emit i arg).see t = p.see t := rfl

@[simp] theorem Parser.reserve_see (p : Parser) (t : Token) : p.reserve.2.see t = p.see t := rfl

@[simp] theorem Parser.emitAt_see (p : Parser) (a : Nat) (i : Instruction) (arg : Option Int)
    (t : Token) : (p.emitAt a i arg).see t = p.see t := rfl

theorem Parser.see_unique (p : Parser) {t u : Token} (h : p.see t = true) (hne : u ≠ t) :
    p.see u = false := by
  simp only [Parser.see, decide_eq_true_eq, decide_eq_false_iff_not] at h ⊢
  rw [h]
  exact fun e => hne e.symm

theorem Reach.error_false {p q : Parser} (h : Reach p q) (hq : q.error_ = false) :
    p.error_ = false := by
  cases hp : p.error_ with
  | false => rfl
  | true => rw [h.error_mono.1 hp] at hq; exact hq

theorem Parser.mustBe_ok (p : Parser) (t : Token) (h : (p.mustBe t).error_ = false) :
    p.error_ = false ∧ p.see t = true := by
  rw [Parser.mustBe_error] at h
  cases h1 : p.error_ <;> cases h2 : p.see t <;> simp_all

/-- C3: in `if C then S fi` parsed without error, the slot reserved right after
the code of `C` is filled with `JUMP_NO t`, where `t` is the address that follows
the last instruction of `S`: `t` is the address of the slot plus one plus the
length of the code of `S`. -/
theorem if_without_else_backpatch (p : Parser) (hif : p.see .T_IF = true) :
    (∃ q, statement (10 * p.scanner_.length + 1) p = some q) ∧
    ∀ n q, statement (n + 1) p = some q → q.error_ = false →
      ∃ pC pS cC cS,
        expression n p.next = some pC ∧ pC.code = p.code ++ cC ∧
        statementList n (pC.reserve.2.mustBe .T_THEN) = some pS ∧
        pS.code = p.code ++ cC ++ ⟨.NOP, none⟩ :: cS ∧
        (pS.see .T_ELSE = false →
          pC.see .T_THEN = true ∧ pS.see .T_FI = true ∧ pC.reserve.1 = p.code.length + cC.length ∧
          q.code = p.code ++ cC ++
            ⟨.JUMP_NO, some ((p.code.length + cC.length + 1 + cS.length : Nat) : Int)⟩ :: cS) := by
  refine ⟨(allTotal _).2.2.1 p (le_refl _), fun n q h herr => ?_⟩
  simp only [statement] at h
  rw [if_neg (by simp [p.see_unique hif (by decide : Token.T_IDENTIFIER ≠ .T_IF)])] at h
  simp only [Parser.match_fst, hif, if_true, p.match_snd_of_see _ hif,
    Option.bind_eq_some] at h
  obtain ⟨pC, hC, pS, hS, h3⟩ := h
  obtain ⟨cC, eC, -⟩ := (expression_reach hC).frame
  obtain ⟨cS, eS, -⟩ := (statementList_reach hS).frame
  have eC1 : pC.code = p.code ++ cC := eC
  have eS1 : pS.code = p.code ++ cC ++ ⟨.NOP, none⟩ :: cS := by
    rw [eS, Parser.mustBe_code, ← eC1]
    simp [Parser.reserve]
  refine ⟨pC, pS, cC, cS, hC, eC1, hS, eS1, fun helse => ?_⟩
  rw [if_neg (by simp [helse]), pS.match_snd_of_not_see _ (by simp [helse])] at h3
  cases h3
  obtain ⟨e1, hfi⟩ := Parser.mustBe_ok _ _ herr
  have e2 : pS.error_ = false := e1
  have e3 := Parser.mustBe_ok _ _ ((statementList_reach hS).error_false e2)
  refine ⟨e3.2, hfi, by simp [Parser.reserve, eC1], ?_⟩
  rw [Parser.mustBe_code]
  simp only [Parser.emitAt, Parser.reserve, Parser.getCurrentAddress]
  have hl : pC.code.length = (p.code ++ cC).length := by rw [eC1]
  have ht : pS.code.length = p.code.length + cC.length + 1 + cS.length := by
    rw [eS1]
    simp
    omega
  rw [hl, ht, eS1, set_length_append]

/-- C4: in `if C then S1 else S2 fi` parsed without error the emitted code is
the code of `C`, `JUMP_NO e`, the code of `S1`, `JUMP x`, the code of `S2`, where
`e` is the address right after the `JUMP` slot (the first instruction of the
else block) and `x` is the address after the last instruction of `S2`. -/
theorem if_else_backpatch (p : Parser) (hif : p.see .T_IF = true) :
    (∃ q, statement (10 * p.scanner_.length + 1) p = some q) ∧
    ∀ n q, statement (n + 1) p = some q → q.error_ = false →
      ∃ pC pS cC cS,
        expression n p.next = some pC ∧ pC.code = p.code ++ cC ∧
        statementList n (pC.reserve.2.mustBe .T_THEN) = some pS ∧
        pS.code = p.code ++ cC ++ ⟨.NOP, none⟩ :: cS ∧
        (pS.see .T_ELSE = true →
          ∃ pE cE,
            statementList n (pS.next.reserve.2.emitAt pC.reserve.1 .JUMP_NO
              (some (pS.next.reserve.2.getCurrentAddress : Int))) = some pE ∧
            pE.code = p.code ++ cC ++
              ⟨.JUMP_NO, some ((p.code.length + cC.length + 1 + cS.length + 1 : Nat) : Int)⟩ ::
                cS ++ ⟨.NOP, none⟩ :: cE ∧
            pC.see .T_THEN = true ∧ pE.see .T_FI = true ∧
            q.code = p.code ++ cC ++
              ⟨.JUMP_NO, some ((p.code.length + cC.length + 1 + cS.length + 1 : Nat) : Int)⟩ ::
                cS ++
              ⟨.JUMP, some ((p.code.length + cC.length + 1 + cS.length + 1 + cE.length : Nat) :
                Int)⟩ :: cE) := by
  refine ⟨(allTotal _).2.2.1 p (le_refl _), fun n q h herr => ?_⟩
  simp only [statement] at h
  rw [if_neg (by simp [p.see_unique hif (by decide : Token.T_IDENTIFIER ≠ .T_IF)])] at h
  simp only [Parser.match_fst, hif, if_true, p.match_snd_of_see _ hif,
    Option.bind_eq_some] at h
  obtain ⟨pC, hC, pS, hS, h3⟩ := h
  obtain ⟨cC, eC, -⟩ := (expression_reach hC).frame
  obtain ⟨cS, eS, -⟩ := (statementList_reach hS).frame
  have eC1 : pC.code = p.code ++ cC := eC
  have eS1 : pS.code = p.code ++ cC ++ ⟨.NOP, none⟩ :: cS := by
    rw [eS, Parser.mustBe_code, ← eC1]
    simp [Parser.reserve]
  refine ⟨pC, pS, cC, cS, hC, eC1, hS, eS1, fun helse => ?_⟩
  rw [if_pos helse, pS.match_snd_of_see _ helse] at h3
  simp only [Option.bind_eq_some] at h3
  obtain ⟨pE, hE, h4⟩ := h3
  cases h4
  obtain ⟨cE, eE, -⟩ := (statementList_reach hE).frame
  have hl : pC.code.length = (p.code ++ cC).length := by rw [eC1]
  have ht : pS.code.length + 1 = p.code.length + cC.length + 1 + cS.length + 1 := by
    rw [eS1]
    simp
    omega
  have eE1 : pE.code = p.code ++ cC ++
      ⟨.JUMP_NO, some ((p.code.length + cC.length + 1 + cS.length + 1 : Nat) : Int)⟩ ::
        cS ++ ⟨.NOP, none⟩ :: cE := by
    rw [eE]
    simp only [Parser.emitAt, Parser.reserve, Parser.getCurrentAddress, Parser.next,
      List.length_append, List.length_singleton]
    rw [hl, ht, eS1, List.append_assoc (p.code ++ cC), List.cons_append, set_length_append]
    simp
  obtain ⟨e1, hfi⟩ := Parser.mustBe_ok _ _ herr
  have e2 : pE.error_ = false := e1
  have e3 : pS.error_ = false := (statementList_reach hE).error_false e2
  have e4 := Parser.mustBe_ok _ _ ((statementList_reach hS).error_false e3)
  refine ⟨pE, cE, hE, eE1, e4.2, hfi, ?_⟩
  rw [Parser.mustBe_code]
  simp only [Parser.emitAt, Parser.reserve, Parser.getCurrentAddress, Parser.next]
  have hx : pE.code.length = p.code.length + cC.length + 1 + cS.length + 1 + cE.length := by
    rw [eE1]
    simp
    omega
  have hs : pS.code.length = (p.code ++ cC ++
      ⟨.JUMP_NO, some ((p.code.length + cC.length + 1 + cS.length + 1 : Nat) : Int)⟩ ::
        cS).length := by
    rw [eS1]
    simp
  rw [hx, hs, eE1, set_length_append]

/-- C5: in `while C do S od` parsed without error the emitted code is the code
of `C`, `JUMP_NO x`, the code of `S`, `JUMP h`, where `h` is the address recorded
before any instruction of `C` was emitted and `x` is the address right after the
`JUMP h`. -/
theorem while_backpatch (p : Parser) (hwhile : p.see .T_WHILE = true) :
    (∃ q, statement (10 * p.scanner_.length + 1) p = some q) ∧
    ∀ n q, statement (n + 1) p = some q → q.error_ = false →
      ∃ pC pS cC cS,
        expression n p.next = some pC ∧ pC.code = p.code ++ cC ∧
        statementList n (pC.reserve.2.mustBe .T_DO) = some pS ∧
        pS.code = p.code ++ cC ++ ⟨.NOP, none⟩ :: cS ∧
        pC.see .T_DO = true ∧ pS.see .T_OD = true ∧
        q.code = p.code ++ cC ++
          ⟨.JUMP_NO, some ((p.code.length + cC.length + 1 + cS.length + 1 : Nat) : Int)⟩ ::
            cS ++ [⟨.JUMP, some (p.code.length : Int)⟩] := by
  refine ⟨(allTotal _).2.2.1 p (le_refl _), fun n q h herr => ?_⟩
  simp only [statement] at h
  rw [if_neg (by simp [p.see_unique hwhile (by decide : Token.T_IDENTIFIER ≠ .T_WHILE)])] at h
  simp only [Parser.match_fst] at h
  rw [if_neg (by simp [p.see_unique hwhile (by decide : Token.T_IF ≠ .T_WHILE)]),
    if_pos hwhile, p.match_snd_of_see _ hwhile] at h
  simp only [Option.bind_eq_some] at h
  obtain ⟨pC, hC, pS, hS, h3⟩ := h
  cases h3
  obtain ⟨cC, eC, -⟩ := (expression_reach hC).frame
  obtain ⟨cS, eS, -⟩ := (statementList_reach hS).frame
  have eC1 : pC.code = p.code ++ cC := eC
  have eS1 : pS.code = p.code ++ cC ++ ⟨.NOP, none⟩ :: cS := by
    rw [eS, Parser.mustBe_code, ← eC1]
    simp [Parser.reserve]
  have e1 : (pS.mustBe .T_OD).error_ = false := herr
  obtain ⟨e2, hod⟩ := Parser.mustBe_ok _ _ e1
  have e3 := Parser.mustBe_ok _ _ ((statementList_reach hS).error_false e2)
  refine ⟨pC, pS, cC, cS, hC, eC1, hS, eS1, e3.2, hod, ?_⟩
  simp only [Parser.emitAt, Parser.emit, Parser.reserve, Parser.getCurrentAddress,
    Parser.mustBe_code, Parser.next, List.length_append, List.length_singleton]
  have hl : pC.code.length = (p.code ++ cC).length := by rw [eC1]
  have ht : pS.code.length + 1 = p.code.length + cC.length + 1 + cS.length + 1 := by
    rw [eS1]
    simp
    omega
  rw [hl, ht, eS1, List.append_assoc (p.code ++ cC), List.cons_append, set_length_append]
  simp

/-- C3 at `if 1 then write(2) fi`: the statement is parsed without error into
`PUSH 1, JUMP_NO 4, PUSH 2, PRINT`, and address 4 follows the `PRINT`. -/
theorem if_without_else_backpatch_witness :
    ifThenSample.see .T_IF = true ∧
    ∃ q, statement 81 ifThenSample = some q ∧ q.error_ = false ∧
      q.code = [⟨.PUSH, some 1⟩, ⟨.JUMP_NO, some 4⟩, ⟨.PUSH, some 2⟩, ⟨.PRINT, none⟩] ∧
      ∃ pC pS cC cS,
        expression 80 ifThenSample.next = some pC ∧ pC.code = ifThenSample.code ++ cC ∧
        statementList 80 (pC.reserve.2.mustBe .T_THEN) = some pS ∧
        pS.code = ifThenSample.code ++ cC ++ ⟨.NOP, none⟩ :: cS ∧
        (pS.see .T_ELSE = false →
          pC.see .T_THEN = true ∧ pS.see .T_FI = true ∧
          pC.reserve.1 = ifThenSample.code.length + cC.length ∧
          q.code = ifThenSample.code ++ cC ++
            ⟨.JUMP_NO, some ((ifThenSample.code.length + cC.length + 1 + cS.length : Nat) : Int)⟩ ::
              cS) :=
  have h : ∃ q, statement 81 ifThenSample = some q ∧ q.error_ = false ∧
      q.code = [⟨.PUSH, some 1⟩, ⟨.JUMP_NO, some 4⟩, ⟨.PUSH, some 2⟩, ⟨.PRINT, none⟩] := by
    decide
  ⟨by decide, h.elim fun q hq => ⟨q, hq.1, hq.2.1, hq.2.2,
    (if_without_else_backpatch ifThenSample (by decide)).2 80 q hq.1 hq.2.1⟩⟩

/-- C4 at `begin if read>0 then write(1) else write(0) fi end`: the program is
translated to `INPUT, PUSH 0, COMPARE >, JUMP_NO 7, PUSH 1, PRINT, JUMP 9,
PUSH 0, PRINT, STOP`, and its conditional has the layout of the claim. -/
theorem if_else_backpatch_witness :
    ifReadState.see .T_IF = true ∧
    (parse (parseFuel ifReadSample) (Parser.init ifReadSample)).map (·.code) =
      some [⟨.INPUT, none⟩, ⟨.PUSH, some 0⟩, ⟨.COMPARE, some Cmp.C_GT.toInt⟩,
        ⟨.JUMP_NO, some 7⟩, ⟨.PUSH, some 1⟩, ⟨.PRINT, none⟩, ⟨.JUMP, some 9⟩,
        ⟨.PUSH, some 0⟩, ⟨.PRINT, none⟩, ⟨.STOP, none⟩] ∧
    ∃ q, statement 161 ifReadState = some q ∧ q.error_ = false ∧
      ∃ pC pS cC cS,
        expression 160 ifReadState.next = some pC ∧ pC.code = ifReadState.code ++ cC ∧
        statementList 160 (pC.reserve.2.mustBe .T_THEN) = some pS ∧
        pS.code = ifReadState.code ++ cC ++ ⟨.NOP, none⟩ :: cS ∧
        (pS.see .T_ELSE = true →
          ∃ pE cE,
            statementList 160 (pS.next.reserve.2.emitAt pC.reserve.1 .JUMP_NO
              (some (pS.next.reserve.2.getCurrentAddress : Int))) = some pE ∧
            pE.code = ifReadState.code ++ cC ++
              ⟨.JUMP_NO,
                some ((ifReadState.code.length + cC.length + 1 + cS.length + 1 : Nat) : Int)⟩ ::
                cS ++ ⟨.NOP, none⟩ :: cE ∧
            pC.see .T_THEN = true ∧ pE.see .T_FI = true ∧
            q.code = ifReadState.code ++ cC ++
              ⟨.JUMP_NO,
                some ((ifReadState.code.length + cC.length + 1 + cS.length + 1 : Nat) : Int)⟩ ::
                cS ++
              ⟨.JUMP, some ((ifReadState.code.length + cC.length + 1 + cS.length + 1 +
                cE.length : Nat) : Int)⟩ :: cE) :=
  have h : ∃ q, statement 161 ifReadState = some q ∧ q.error_ = false := by decide
  ⟨by decide, by decide, h.elim fun q hq => ⟨q, hq.1, hq.2,
    (if_else_backpatch ifReadState (by decide)).2 160 q hq.1 hq.2⟩⟩

/-- C5 at `begin x:=1; while x<5 do x:=x+1 od; write(x) end`: the program is
translated to the code of the claim, whose loop head 2 is the address of the
`LOAD` of `x` in the condition, and the loop has the layout of the claim. -/
theorem while_backpatch_witness :
    whileState.see .T_WHILE = true ∧
    (parse (parseFuel whileSample) (Parser.init whileSample)).map (·.code) =
      some [⟨.PUSH, some 1⟩, ⟨.STORE, some 0⟩, ⟨.LOAD, some 0⟩, ⟨.PUSH, some 5⟩,
        ⟨.COMPARE, some Cmp.C_LT.toInt⟩, ⟨.JUMP_NO, some 11⟩, ⟨.LOAD, some 0⟩,
        ⟨.PUSH, some 1⟩, ⟨.ADD, none⟩, ⟨.STORE, some 0⟩, ⟨.JUMP, some 2⟩, ⟨.LOAD, some 0⟩,
        ⟨.PRINT, none⟩, ⟨.STOP, none⟩] ∧
    (statement 220 ((Parser.init whileSample).mustBe .T_BEGIN)).map (·.next) = some whileState ∧
    ∃ q, statement 171 whileState = some q ∧ q.error_ = false ∧
      ∃ pC pS cC cS,
        expression 170 whileState.next = some pC ∧ pC.code = whileState.code ++ cC ∧
        statementList 170 (pC.reserve.2.mustBe .T_DO) = some pS ∧
        pS.code = whileState.code ++ cC ++ ⟨.NOP, none⟩ :: cS ∧
        pC.see .T_DO = true ∧ pS.see .T_OD = true ∧
        q.code = whileState.code ++ cC ++
          ⟨.JUMP_NO, some ((whileState.code.length + cC.length + 1 + cS.length + 1 : Nat) : Int)⟩ ::
            cS ++ [⟨.JUMP, some (whileState.code.length : Int)⟩] :=
  have h : ∃ q, statement 171 whileState = some q ∧ q.error_ = false := by decide
  ⟨by decide, by decide, by decide, h.elim fun q hq => ⟨q, hq.1, hq.2,
    (while_backpatch whileState (by decide)).2 170 q hq.1 hq.2⟩⟩

/-! ## The variable table -/

theorem numbered_append (k : Nat) (ds : List String) (x : String) :
    numbered k (ds ++ [x]) = numbered k ds ++ [(x, k + ds.length)] := by
  induction ds generalizing k with
  | nil => simp [numbered]
  | cons d ds ih =>
    have h := ih (k + 1)
    rw [show k + 1 + ds.length = k + (ds.length + 1) by omega] at h
    simp only [List.cons_append, numbered, List.length_cons]
    exact congrArg _ h

theorem lookup_numbered (k : Nat) (ds : List String) (x : String) :
    (numbered k ds).lookup x = if x ∈ ds then some (k + ds.indexOf x) else none := by
  induction ds generalizing k with
  | nil => simp [numbered]
  | cons d ds ih =>
    simp only [numbered, List.lookup_cons, List.mem_cons]
    by_cases h : x = d
    · subst h
      simp
    · have h1 : (x == d) = false := by simpa using h
      have h2 : d ≠ x := fun e => h e.symm
      rw [h1, ih, List.indexOf_cons_ne _ h2]
      by_cases hm : x ∈ ds
      · simp only [hm, or_true, if_true, Nat.succ_eq_add_one]
        congr 1
        omega
      · simp [hm, h]

theorem firstSeenFrom_append_left (ds names : List String) :
    ∃ rest, firstSeenFrom ds names = ds ++ rest := by
  induction names generalizing ds with
  | nil => exact ⟨[], by simp [firstSeenFrom]⟩
  | cons x xs ih =>
    simp only [firstSeenFrom]
    split
    · exact ih ds
    · obtain ⟨rest, hr⟩ := ih (ds ++ [x])
      exact ⟨x :: rest, by rw [hr]; simp⟩

theorem firstSeenFrom_append (ds l1 l2 : List String) :
    firstSeenFrom ds (l1 ++ l2) = firstSeenFrom (firstSeenFrom ds l1) l2 := by
  induction l1 generalizing ds with
  | nil => rfl
  | cons x xs ih => exact ih _

theorem mem_firstSeenFrom (ds names : List String) (x : String) :
    x ∈ firstSeenFrom ds names ↔ x ∈ ds ∨ x ∈ names := by
  induction names generalizing ds with
  | nil => simp [firstSeenFrom]
  | cons y ys ih =>
    simp only [firstSeenFrom, ih, List.mem_cons]
    split
    · rename_i hy
      constructor
      · rintro (h | h)
        · exact Or.inl h
        · exact Or.inr (Or.inr h)
      · rintro (h | h | h)
        · exact Or.inl h
        · exact Or.inl (h ▸ hy)
        · exact Or.inr h
    · simp only [List.mem_append, List.mem_singleton]
      tauto

theorem nodup_firstSeenFrom (ds names : List String) (h : ds.Nodup) :
    (firstSeenFrom ds names).Nodup := by
  induction names generalizing ds with
  | nil => exact h
  | cons y ys ih =>
    simp only [firstSeenFrom]
    split
    · exact ih ds h
    · rename_i hy
      refine ih _ ?_
      rw [List.nodup_append]
      refine ⟨h, List.nodup_singleton y, ?_⟩
      intro a ha hb
      rw [List.mem_singleton] at hb
      exact hy (hb ▸ ha)

theorem findOrAddAll_spec (p : Parser) (ds names : List String)
    (hv : p.variables_ = numbered 0 ds) (hl : p.lastVar_ = ds.length) :
    (p.findOrAddAll names).1 = names.map (fun x => (firstSeenFrom ds names).indexOf x) ∧
    (p.findOrAddAll names).2.variables_ = numbered 0 (firstSeenFrom ds names) ∧
    (p.findOrAddAll names).2.lastVar_ = (firstSeenFrom ds names).length := by
  induction names generalizing p ds with
  | nil => exact ⟨rfl, hv, hl⟩
  | cons x xs ih =>
    have hlook := lookup_numbered 0 ds x
    rw [← hv] at hlook
    by_cases hx : x ∈ ds
    · rw [if_pos hx] at hlook
      have e : p.findOrAddVariable x = (ds.indexOf x, p) := by
        simp only [Parser.findOrAddVariable, hlook, Nat.zero_add]
      obtain ⟨i1, i2, i3⟩ := ih p ds hv hl
      obtain ⟨rest, hr⟩ := firstSeenFrom_append_left ds xs
      simp only [Parser.findOrAddAll, e, firstSeenFrom, if_pos hx, List.map_cons, i1, i2, i3]
      refine ⟨?_, trivial, trivial⟩
      rw [hr, List.indexOf_append_of_mem hx]
    · rw [if_neg hx] at hlook
      have e : p.findOrAddVariable x = (p.lastVar_, ⟨p.scanner_, p.error_,
          p.variables_ ++ [(x, p.lastVar_)], p.lastVar_ + 1, p.code, p.reserved, p.filled,
          p.flushed, p.diagnostics⟩) := by
        simp only [Parser.findOrAddVariable, hlook]
      obtain ⟨i1, i2, i3⟩ := ih ⟨p.scanner_, p.error_, p.variables_ ++ [(x, p.lastVar_)],
        p.lastVar_ + 1, p.code, p.reserved, p.filled, p.flushed, p.diagnostics⟩ (ds ++ [x])
        (by simp [numbered_append, hv, hl]) (by simp [hl])
      obtain ⟨rest, hr⟩ := firstSeenFrom_append_left (ds ++ [x]) xs
      simp only [Parser.findOrAddAll, e, firstSeenFrom, if_neg hx, List.map_cons, i1, i2, i3]
      refine ⟨?_, trivial, trivial⟩
      rw [hr, List.indexOf_append_of_mem (by simp), List.indexOf_append_of_not_mem hx, hl]
      simp

theorem findOrAddVariable_lookup (p : Parser) (x y : String) (a : Nat)
    (h : p.variables_.lookup y = some a) :
    (p.findOrAddVariable x).2.variables_.lookup y = some a := by
  unfold Parser.findOrAddVariable
  split
  · simp [List.lookup_append, h]
  · exact h

/-- C6: starting from an empty variable table, the address returned for a name
is the zero-based rank of its first occurrence among the distinct names seen so
far; the same name gets the same address and different names different
addresses, the addresses handed out are exactly `0..N-1` for `N` distinct names,
in first-seen order, and a call never removes or changes an entry. -/
theorem variable_addresses_first_seen (toks : List Lexeme) (names : List String) :
    ((Parser.init toks).findOrAddAll names).1 =
      names.map (fun x => (firstSeen names).indexOf x) ∧
    (∀ (i : Nat) (x : String), names[i]? = some x →
      ((Parser.init toks).findOrAddAll names).1[i]? =
        some ((firstSeen (names.take (i + 1))).indexOf x)) ∧
    (∀ (i j : Nat) (x : String), names[i]? = some x → names[j]? = some x →
      ((Parser.init toks).findOrAddAll names).1[i]? =
        ((Parser.init toks).findOrAddAll names).1[j]?) ∧
    (∀ (i j : Nat) (x y : String), names[i]? = some x → names[j]? = some y → x ≠ y →
      ((Parser.init toks).findOrAddAll names).1[i]? ≠
        ((Parser.init toks).findOrAddAll names).1[j]?) ∧
    (firstSeen names).Nodup ∧ (∀ x, x ∈ firstSeen names ↔ x ∈ names) ∧
    (∀ a, a ∈ ((Parser.init toks).findOrAddAll names).1 ↔ a < (firstSeen names).length) ∧
    ((Parser.init toks).findOrAddAll names).2.variables_ = numbered 0 (firstSeen names) ∧
    ((Parser.init toks).findOrAddAll names).2.lastVar_ = (firstSeen names).length ∧
    (∀ (p : Parser) (x y : String) (a : Nat), p.variables_.lookup y = some a →
      (p.findOrAddVariable x).2.variables_.lookup y = some a) := by
  obtain ⟨h1, h2, h3⟩ := findOrAddAll_spec (Parser.init toks) [] names rfl rfl
  have hmem : ∀ x, x ∈ firstSeen names ↔ x ∈ names := fun x => by
    simp [firstSeen, mem_firstSeenFrom]
  have hnd : (firstSeen names).Nodup := nodup_firstSeenFrom [] names List.nodup_nil
  have hget : ∀ (i : Nat) (x : String), names[i]? = some x →
      ((Parser.init toks).findOrAddAll names).1[i]? = some ((firstSeen names).indexOf x) := by
    intro i x hx
    rw [h1, List.getElem?_map, hx]
    rfl
  have hin : ∀ (i : Nat) (x : String), names[i]? = some x → x ∈ names := fun i x hx =>
    List.getElem?_mem hx
  refine ⟨h1, fun i x hx => ?_, fun i j x hi hj => ?_, fun i j x y hi hj hne => ?_, hnd, hmem,
    fun a => ?_, h2, h3, findOrAddVariable_lookup⟩
  · rw [hget i x hx]
    have hsplit : names = names.take (i + 1) ++ names.drop (i + 1) :=
      (List.take_append_drop _ _).symm
    have hx1 : x ∈ names.take (i + 1) := by
      have : (names.take (i + 1))[i]? = some x := by
        rw [List.getElem?_take_of_lt (Nat.lt_succ_self i)]
        exact hx
      exact List.getElem?_mem this
    have hx2 : x ∈ firstSeen (names.take (i + 1)) := by
      simp [firstSeen, mem_firstSeenFrom, hx1]
    obtain ⟨rest, hr⟩ := firstSeenFrom_append_left (firstSeen (names.take (i + 1)))
      (names.drop (i + 1))
    have e : firstSeen names = firstSeen (names.take (i + 1)) ++ rest := by
      rw [← hr]
      conv => lhs; rw [hsplit]
      exact firstSeenFrom_append _ _ _
    rw [e, List.indexOf_append_of_mem hx2]
  · rw [hget i x hi, hget j x hj]
  · rw [hget i x hi, hget j y hj]
    intro e
    have e1 : (firstSeen names).indexOf x = (firstSeen names).indexOf y := Option.some.inj e
    exact hne ((List.indexOf_inj ((hmem x).2 (hin i x hi)) ((hmem y).2 (hin j y hj))).1 e1)
  · rw [h1, List.mem_map]
    constructor
    · rintro ⟨x, hx, rfl⟩
      exact List.indexOf_lt_length.2 ((hmem x).2 hx)
    · intro ha
      refine ⟨(firstSeen names)[a], (hmem _).1 (List.getElem_mem _), ?_⟩
      exact List.indexOf_getElem hnd a ha

/-- C6 at the names `x, y, x, z`: the addresses returned are `0, 1, 0, 2`. -/
theorem variable_addresses_first_seen_witness :
    ((Parser.init []).findOrAddAll ["x", "y", "x", "z"]).1 = [0, 1, 0, 2] :=
  (variable_addresses_first_seen [] ["x", "y", "x", "z"]).1.trans (by decide)

/-! ## Short-circuit operators -/

theorem set_set_length_append {α : Type} (l1 l2 : List α) (a b c d : α) :
    ((l1 ++ a :: b :: l2).set l1.length c).set (l1.length + 1) d = l1 ++ c :: d :: l2 := by
  induction l1 with
  | nil => rfl
  | cons x xs ih => simp [ih]

theorem expressionLoop_of_not_see {n : Nat} {p q : Parser} (h : expressionLoop n p = some q)
    (hs : p.see .T_LOGICALOROP = false) : q = p := by
  cases n with
  | zero => simp [expressionLoop] at h
  | succ n =>
    simp only [expressionLoop, hs] at h
    simpa using h.symm

theorem orExpressionLoop_of_not_see {n : Nat} {p q : Parser} (h : orExpressionLoop n p = some q)
    (hs : p.see .T_LOGICALANDOP = false) : q = p := by
  cases n with
  | zero => simp [orExpressionLoop] at h
  | succ n =>
    simp only [orExpressionLoop, hs] at h
    simpa using h.symm

/-- C8: for `A || B` the code emitted by `expression` is the code of `A`, `DUP`,
`JUMP_YES t`, the code of `B`, `OR`, `PUSH 0`, `COMPARE ≠`; `DUP` and `JUMP_YES`
fill the two slots reserved right after the code of `A`, and `t` is the address
of the `PUSH 0` that follows the `OR`.  (`rest` is what further `||` operands
append; it is empty when no `||` follows `B`.) -/
theorem logical_or_layout (p : Parser) :
    (∃ q, expression (10 * p.scanner_.length + 9) p = some q) ∧
    ∀ n q, expression (n + 2) p = some q →
      ∃ pA cA,
        orExpression (n + 1) p = some pA ∧ pA.code = p.code ++ cA ∧
        (pA.see .T_LOGICALOROP = true →
          ∃ pB cB rest,
            orExpression n pA.reserve.2.reserve.2.next = some pB ∧
            pA.reserve.1 = p.code.length + cA.length ∧
            pA.reserve.2.reserve.1 = p.code.length + cA.length + 1 ∧
            pB.code = p.code ++ cA ++ ⟨.NOP, none⟩ :: ⟨.NOP, none⟩ :: cB ∧
            q.code = p.code ++ cA ++
              ⟨.DUP, none⟩ ::
              ⟨.JUMP_YES, some ((p.code.length + cA.length + 2 + cB.length + 1 : Nat) : Int)⟩ ::
              cB ++ [⟨.OR, none⟩, ⟨.PUSH, some 0⟩, ⟨.COMPARE, some Cmp.C_NE.toInt⟩] ++ rest ∧
            (pB.see .T_LOGICALOROP = false → rest = [])) := by
  refine ⟨(allTotal _).2.2.2.1 p (le_refl _), fun n q h => ?_⟩
  simp only [expression, Option.bind_eq_some] at h
  obtain ⟨pA, hA, h2⟩ := h
  obtain ⟨cA, eA, -⟩ := (orExpression_reach hA).frame
  refine ⟨pA, cA, hA, eA, fun hsee => ?_⟩
  simp only [expressionLoop, hsee, if_true, Option.bind_eq_some] at h2
  obtain ⟨pB, hB, h3⟩ := h2
  obtain ⟨cB, eB, -⟩ := (orExpression_reach hB).frame
  obtain ⟨rest, eR, -⟩ := (expressionLoop_reach h3).frame
  have eB1 : pB.code = p.code ++ cA ++ ⟨.NOP, none⟩ :: ⟨.NOP, none⟩ :: cB := by
    rw [eB]
    simp [Parser.reserve, Parser.next, eA]
  have hl : pA.code.length = (p.code ++ cA).length := by rw [eA]
  have ht : pB.code.length + 1 = p.code.length + cA.length + 2 + cB.length + 1 := by
    rw [eB1]
    simp
    omega
  refine ⟨pB, cB, rest, hB, by simp [Parser.reserve, eA], by simp [Parser.reserve, eA]; omega, eB1, ?_,
    fun hsB => ?_⟩
  · rw [eR]
    simp only [Parser.emit, Parser.emitAt, Parser.reserve, Parser.getCurrentAddress,
      List.length_append, List.length_singleton, List.length_set]
    rw [hl, ht, eB1, List.append_assoc (p.code ++ cA), List.cons_append, List.cons_append,
      set_set_length_append]
    simp
  · have e := expressionLoop_of_not_see h3 (by simpa using hsB)
    rw [e] at eR
    exact List.self_eq_append_right.mp eR

/-- C8 at `1 || 0`: the code is `PUSH 1, DUP, JUMP_YES 5, PUSH 0, OR, PUSH 0,
COMPARE ≠`, and address 5 holds the `PUSH 0` after the `OR`. -/
theorem logical_or_layout_witness :
    ∃ q, expression 39 orSample = some q ∧ q.error_ = false ∧
      q.code = [⟨.PUSH, some 1⟩, ⟨.DUP, none⟩, ⟨.JUMP_YES, some 5⟩, ⟨.PUSH, some 0⟩,
        ⟨.OR, none⟩, ⟨.PUSH, some 0⟩, ⟨.COMPARE, some Cmp.C_NE.toInt⟩] ∧
      ∃ pA cA,
        orExpression 38 orSample = some pA ∧ pA.code = orSample.code ++ cA ∧
        (pA.see .T_LOGICALOROP = true →
          ∃ pB cB rest,
            orExpression 37 pA.reserve.2.reserve.2.next = some pB ∧
            pA.reserve.1 = orSample.code.length + cA.length ∧
            pA.reserve.2.reserve.1 = orSample.code.length + cA.length + 1 ∧
            pB.code = orSample.code ++ cA ++ ⟨.NOP, none⟩ :: ⟨.NOP, none⟩ :: cB ∧
            q.code = orSample.code ++ cA ++
              ⟨.DUP, none⟩ ::
              ⟨.JUMP_YES,
                some ((orSample.code.length + cA.length + 2 + cB.length + 1 : Nat) : Int)⟩ ::
              cB ++ [⟨.OR, none⟩, ⟨.PUSH, some 0⟩, ⟨.COMPARE, some Cmp.C_NE.toInt⟩] ++ rest ∧
            (pB.see .T_LOGICALOROP = false → rest = [])) :=
  have h : ∃ q, expression 39 orSample = some q ∧ q.error_ = false ∧
      q.code = [⟨.PUSH, some 1⟩, ⟨.DUP, none⟩, ⟨.JUMP_YES, some 5⟩, ⟨.PUSH, some 0⟩,
        ⟨.OR, none⟩, ⟨.PUSH, some 0⟩, ⟨.COMPARE, some Cmp.C_NE.toInt⟩] := by decide
  h.elim fun q hq => ⟨q, hq.1, hq.2.1, hq.2.2, (logical_or_layout orSample).2 37 q hq.1⟩

/-- C9 as amended: for `A && B` the code emitted by `orExpression` is the code
of `A`, `PUSH 0`, `COMPARE ≠`, `DUP`, `JUMP_NO t`, the code of `B`, `PUSH 0`,
`COMPARE ≠`, `AND`: each operand is normalised before the `AND`, the two slots
are reserved after the normalisation of `A`, and `t` is the address right after
the `AND`, where the code of the operator ends.  (`rest` is what further `&&`
operands append; it is empty when no `&&` follows `B`.) -/
theorem logical_and_layout (p : Parser) :
    (∃ q, orExpression (10 * p.scanner_.length + 8) p = some q) ∧
    ∀ n q, orExpression (n + 2) p = some q →
      ∃ pA cA,
        andExpression (n + 1) p = some pA ∧ pA.code = p.code ++ cA ∧
        (pA.see .T_LOGICALANDOP = true →
          ∃ pB cB rest,
            andExpression n (((pA.emit .PUSH (some 0)).emit .COMPARE
              (some Cmp.C_NE.toInt)).reserve.2.reserve.2.next) = some pB ∧
            pB.code = p.code ++ cA ++ ⟨.PUSH, some 0⟩ :: ⟨.COMPARE, some Cmp.C_NE.toInt⟩ ::
              ⟨.NOP, none⟩ :: ⟨.NOP, none⟩ :: cB ∧
            q.code = p.code ++ cA ++
              ⟨.PUSH, some 0⟩ :: ⟨.COMPARE, some Cmp.C_NE.toInt⟩ :: ⟨.DUP, none⟩ ::
              ⟨.JUMP_NO, some ((p.code.length + cA.length + 4 + cB.length + 3 : Nat) : Int)⟩ ::
              cB ++ [⟨.PUSH, some 0⟩, ⟨.COMPARE, some Cmp.C_NE.toInt⟩, ⟨.AND, none⟩] ++ rest ∧
            (pB.see .T_LOGICALANDOP = false → rest = [])) := by
  refine ⟨(allTotal _).2.2.2.2.2.1 p (le_refl _), fun n q h => ?_⟩
  simp only [orExpression, Option.bind_eq_some] at h
  obtain ⟨pA, hA, h2⟩ := h
  obtain ⟨cA, eA, -⟩ := (andExpression_reach hA).frame
  refine ⟨pA, cA, hA, eA, fun hsee => ?_⟩
  simp only [orExpressionLoop, hsee, if_true, Option.bind_eq_some] at h2
  obtain ⟨pB, hB, h3⟩ := h2
  obtain ⟨cB, eB, -⟩ := (andExpression_reach hB).frame
  obtain ⟨rest, eR, -⟩ := (orExpressionLoop_reach h3).frame
  have eB1 : pB.code = p.code ++ cA ++ ⟨.PUSH, some 0⟩ :: ⟨.COMPARE, some Cmp.C_NE.toInt⟩ ::
      ⟨.NOP, none⟩ :: ⟨.NOP, none⟩ :: cB := by
    rw [eB]
    simp [Parser.reserve, Parser.next, Parser.emit, eA]
  have hl : pA.code.length + 1 + 1 = (p.code ++ cA ++
      ([⟨.PUSH, some 0⟩, ⟨.COMPARE, some Cmp.C_NE.toInt⟩] : List Command)).length := by
    rw [eA]
    simp
    omega
  have ht : pB.code.length + 1 + 1 + 1 = p.code.length + cA.length + 4 + cB.length + 3 := by
    rw [eB1]
    simp
    omega
  refine ⟨pB, cB, rest, hB, eB1, ?_, fun hsB => ?_⟩
  · rw [eR]
    simp only [Parser.emit, Parser.emitAt, Parser.reserve, Parser.getCurrentAddress,
      List.length_append, List.length_singleton, List.length_set]
    rw [hl, ht, eB1]
    have e1 : p.code ++ cA ++ ⟨.PUSH, some 0⟩ :: ⟨.COMPARE, some Cmp.C_NE.toInt⟩ ::
        ⟨.NOP, none⟩ :: ⟨.NOP, none⟩ :: cB ++ [⟨.PUSH, some 0⟩] ++
        [⟨.COMPARE, some Cmp.C_NE.toInt⟩] ++ [⟨.AND, none⟩] =
        (p.code ++ cA ++ [⟨.PUSH, some 0⟩, ⟨.COMPARE, some Cmp.C_NE.toInt⟩]) ++
        ⟨.NOP, none⟩ :: ⟨.NOP, none⟩ :: (cB ++ [⟨.PUSH, some 0⟩,
          ⟨.COMPARE, some Cmp.C_NE.toInt⟩, ⟨.AND, none⟩]) := by simp
    rw [e1, set_set_length_append]
    simp
  · have e := orExpressionLoop_of_not_see h3 (by simpa using hsB)
    rw [e] at eR
    exact List.self_eq_append_right.mp eR

/-- C9 refuted at `1 && 2`: the code is `PUSH 1, PUSH 0, COMPARE ≠, DUP,
JUMP_NO 9, PUSH 2, PUSH 0, COMPARE ≠, AND`; it ends with the `AND`, so it is not
of the shape "code of `A`, `DUP`, `JUMP_NO t`, code of `B`, `AND`, `PUSH 0`,
`COMPARE ≠`" for any choice of the two operand codes and of `t`. -/
theorem logical_and_layout_counterexample :
    ∃ q, orExpression 38 andSample = some q ∧ q.error_ = false ∧
      q.code = [⟨.PUSH, some 1⟩, ⟨.PUSH, some 0⟩, ⟨.COMPARE, some Cmp.C_NE.toInt⟩,
        ⟨.DUP, none⟩, ⟨.JUMP_NO, some 9⟩, ⟨.PUSH, some 2⟩, ⟨.PUSH, some 0⟩,
        ⟨.COMPARE, some Cmp.C_NE.toInt⟩, ⟨.AND, none⟩] ∧
      ¬ ∃ (cA cB : List Command) (t : Option Int),
        q.code = cA ++ [⟨.DUP, none⟩, ⟨.JUMP_NO, t⟩] ++ cB ++
          [⟨.AND, none⟩, ⟨.PUSH, some 0⟩, ⟨.COMPARE, some Cmp.C_NE.toInt⟩] := by
  have h : ∃ q, orExpression 38 andSample = some q ∧ q.error_ = false ∧
      q.code = [⟨.PUSH, some 1⟩, ⟨.PUSH, some 0⟩, ⟨.COMPARE, some Cmp.C_NE.toInt⟩,
        ⟨.DUP, none⟩, ⟨.JUMP_NO, some 9⟩, ⟨.PUSH, some 2⟩, ⟨.PUSH, some 0⟩,
        ⟨.COMPARE, some Cmp.C_NE.toInt⟩, ⟨.AND, none⟩] := by decide
  obtain ⟨q, h1, h2, h3⟩ := h
  refine ⟨q, h1, h2, h3, ?_⟩
  rintro ⟨cA, cB, t, e⟩
  rw [h3] at e
  have e2 := congrArg (fun l => (l.reverse.head?).map (·.instruction)) e
  simp at e2

/-- C9 as amended, at `1 && 2`: the code is `PUSH 1, PUSH 0, COMPARE ≠, DUP,
JUMP_NO 9, PUSH 2, PUSH 0, COMPARE ≠, AND`, and address 9 follows the `AND`. -/
theorem logical_and_layout_witness :
    ∃ q, orExpression 38 andSample = some q ∧ q.error_ = false ∧
      ∃ pA cA,
        andExpression 37 andSample = some pA ∧ pA.code = andSample.code ++ cA ∧
        (pA.see .T_LOGICALANDOP = true →
          ∃ pB cB rest,
            andExpression 36 (((pA.emit .PUSH (some 0)).emit .COMPARE
              (some Cmp.C_NE.toInt)).reserve.2.reserve.2.next) = some pB ∧
            pB.code = andSample.code ++ cA ++ ⟨.PUSH, some 0⟩ ::
              ⟨.COMPARE, some Cmp.C_NE.toInt⟩ :: ⟨.NOP, none⟩ :: ⟨.NOP, none⟩ :: cB ∧
            q.code = andSample.code ++ cA ++
              ⟨.PUSH, some 0⟩ :: ⟨.COMPARE, some Cmp.C_NE.toInt⟩ :: ⟨.DUP, none⟩ ::
              ⟨.JUMP_NO,
                some ((andSample.code.length + cA.length + 4 + cB.length + 3 : Nat) : Int)⟩ ::
              cB ++ [⟨.PUSH, some 0⟩, ⟨.COMPARE, some Cmp.C_NE.toInt⟩, ⟨.AND, none⟩] ++ rest ∧
            (pB.see .T_LOGICALANDOP = false → rest = [])) :=
  have h : ∃ q, orExpression 38 andSample = some q ∧ q.error_ = false := by decide
  h.elim fun q hq => ⟨q, hq.1, hq.2, (logical_and_layout andSample).2 36 q hq.1⟩

/-! ## The error flag and `flush` -/

/-- C10: a syntax error is reported during the pass exactly when the error flag
is set at the end of `program`; a set flag is never cleared by `program`; and
`parse` invokes `flush` exactly when the flag is clear, that is when no error was
reported. -/
theorem error_flag_gates_flush (toks : List Lexeme) :
    (∃ r, parse (parseFuel toks) (Parser.init toks) = some r) ∧
    (∀ n r, program n (Parser.init toks) = some r →
      (r.diagnostics ≠ [] ↔ r.error_ = true) ∧ r.flushed = false) ∧
    (∀ n r, parse n (Parser.init toks) = some r →
      (r.diagnostics ≠ [] ↔ r.error_ = true) ∧ (r.flushed = true ↔ r.error_ = false) ∧
      (r.flushed = true ↔ r.diagnostics = [])) ∧
    (∀ n p q, program n p = some q → p.error_ = true → q.error_ = true) := by
  have hinit : ErrorReported (Parser.init toks) := by simp [ErrorReported, Parser.init]
  refine ⟨parse_total _ _ (le_refl _), fun n r h => ?_, fun n r h => ?_, fun n p q h hp => ?_⟩
  · obtain ⟨p1, r1, e1⟩ := program_reach h
    obtain ⟨-, m2, m3⟩ := r1.error_mono
    have := m2 hinit
    subst e1
    exact ⟨this.symm, m3⟩
  · obtain ⟨p1, r1, -, e2, e3, e4⟩ := parse_code h
    obtain ⟨-, m2, m3⟩ := r1.error_mono
    have hr : p1.error_ = true ↔ p1.diagnostics ≠ [] := m2 hinit
    have hf : p1.flushed = false := m3
    rw [e2, e3, e4, hf]
    cases he : p1.error_
    · have : p1.diagnostics = [] := by
        by_contra hd
        rw [hr.2 hd] at he
        exact Bool.noConfusion he
      simp [this]
    · have : p1.diagnostics ≠ [] := hr.1 he
      simp [this]
  · obtain ⟨p1, r1, e1⟩ := program_reach h
    subst e1
    exact r1.error_mono.1 hp

/-- C10 at `begin x:= end`: `factor` meets `end` where an expression is
expected, the error flag is set and `flush` is not invoked. -/
theorem error_flag_gates_flush_witness :
    ∃ r, parse (parseFuel missingExpressionSample) (Parser.init missingExpressionSample) = some r ∧
      r.diagnostics = [.expressionExpected] ∧ r.error_ = true ∧ r.flushed = false :=
  have h : ∃ r, parse (parseFuel missingExpressionSample)
      (Parser.init missingExpressionSample) = some r ∧
      r.diagnostics = [.expressionExpected] := by decide
  h.elim fun r hr =>
    have h2 := (error_flag_gates_flush missingExpressionSample).2.2.1 _ r hr.1
    have hd : r.diagnostics ≠ [] := by rw [hr.2]; exact List.cons_ne_nil _ _
    have he : r.error_ = true := h2.1.1 hd
    ⟨r, hr.1, hr.2, he, by
      cases hf : r.flushed
      · rfl
      · rw [h2.2.1.1 hf] at he
        exact Bool.noConfusion he⟩

/-! ## Operands and loop exits -/

theorem termLoop_exit (n : Nat) (p : Parser) (h : p.see .T_MULOP = false) :
    termLoop (n + 1) p = some p := by
  simp [termLoop, h]

theorem relationalExpressionLoop_exit (n : Nat) (p : Parser) (h : p.see .T_ADDOP = false) :
    relationalExpressionLoop (n + 1) p = some p := by
  simp [relationalExpressionLoop, h]

theorem equalityExpressionLoop_exit (n : Nat) (p : Parser) (h : p.see .T_CMP = false) :
    equalityExpressionLoop (n + 1) p = some p := by
  simp [equalityExpressionLoop, h]

theorem bitwiseAndExpressionLoop_exit (n : Nat) (p : Parser) (h : p.see .T_CMP = false) :
    bitwiseAndExpressionLoop (n + 1) p = some p := by
  simp [bitwiseAndExpressionLoop, h]

theorem bitwiseOrExpressionLoop_exit (n : Nat) (p : Parser)
    (h : p.see .T_BITWISEANDOP = false) : bitwiseOrExpressionLoop (n + 1) p = some p := by
  simp [bitwiseOrExpressionLoop, h]

theorem andExpressionLoop_exit (n : Nat) (p : Parser) (h : p.see .T_BITWISEOROP = false) :
    andExpressionLoop (n + 1) p = some p := by
  simp [andExpressionLoop, h]

theorem orExpressionLoop_exit (n : Nat) (p : Parser) (h : p.see .T_LOGICALANDOP = false) :
    orExpressionLoop (n + 1) p = some p := by
  simp [orExpressionLoop, h]

theorem expressionLoop_exit (n : Nat) (p : Parser) (h : p.see .T_LOGICALOROP = false) :
    expressionLoop (n + 1) p = some p := by
  simp [expressionLoop, h]

/-- An operand that is followed by no operator of the levels below `||` is all
that `orExpression` reads. -/
theorem orExpression_of_factor {n : Nat} {p q : Parser} (h : factor (n + 1) p = some q)
    (h1 : q.see .T_MULOP = false) (h2 : q.see .T_ADDOP = false) (h3 : q.see .T_CMP = false)
    (h4 : q.see .T_BITWISEANDOP = false) (h5 : q.see .T_BITWISEOROP = false)
    (h6 : q.see .T_LOGICALANDOP = false) : orExpression (n + 8) p = some q := by
  have t1 : term (n + 2) p = some q := by
    simp only [term, h, Option.some_bind]
    exact termLoop_exit n q h1
  have t2 : relationalExpression (n + 3) p = some q := by
    simp only [relationalExpression, t1, Option.some_bind]
    exact relationalExpressionLoop_exit _ q h2
  have t3 : equalityExpression (n + 4) p = some q := by
    simp only [equalityExpression, t2, Option.some_bind]
    exact equalityExpressionLoop_exit _ q h3
  have t4 : bitwiseAndExpression (n + 5) p = some q := by
    simp only [bitwiseAndExpression, t3, Option.some_bind]
    exact bitwiseAndExpressionLoop_exit _ q h3
  have t5 : bitwiseOrExpression (n + 6) p = some q := by
    simp only [bitwiseOrExpression, t4, Option.some_bind]
    exact bitwiseOrExpressionLoop_exit _ q h4
  have t6 : andExpression (n + 7) p = some q := by
    simp only [andExpression, t5, Option.some_bind]
    exact andExpressionLoop_exit _ q h5
  simp only [orExpression, t6, Option.some_bind]
  exact orExpressionLoop_exit _ q h6

theorem findOrAddVariable_lookup_self (p : Parser) (x : String) :
    (p.findOrAddVariable x).2.variables_.lookup x = some (p.findOrAddVariable x).1 := by
  unfold Parser.findOrAddVariable
  split
  · rename_i h
    simp [List.lookup_append, h]
  · rename_i a h
    exact h

theorem see_of_scanner (p : Parser) (l : Lexeme) (rest : List Lexeme) (t : Token)
    (hs : p.scanner_ = l :: rest) : p.see t = decide (l.token = t) := by
  simp [Parser.see, Parser.token, Parser.lexeme, hs]

theorem see_of_scanner_nil (p : Parser) (t : Token) (hs : p.scanner_ = []) :
    p.see t = decide (Token.T_EOF = t) := by
  simp [Parser.see, Parser.token, Parser.lexeme, hs, Lexeme.eof]

/-- What `factor` does with an operand: it consumes the lexeme and appends the
code of the operand. -/
theorem factor_operand (n : Nat) (p : Parser) (a : Operand) (rest : List Lexeme)
    (hs : p.scanner_ = a.lexeme :: rest) (memory : Int → Int) :
    ∃ q c v, factor (n + 1) p = some q ∧ q.scanner_ = rest ∧ q.code = p.code ++ [c] ∧
      OperandCode q.variables_ memory a c v ∧
      (∀ y k, p.variables_.lookup y = some k → q.variables_.lookup y = some k) := by
  cases a with
  | lit w =>
    have h1 : p.see .T_NUMBER = true := by
      rw [see_of_scanner p _ _ _ hs]
      rfl
    refine ⟨p.next.emit .PUSH (some p.lexeme.intValue), ⟨.PUSH, some w⟩, w, ?_, ?_, ?_, ?_, ?_⟩
    · simp only [factor, h1, if_true]
    · simp [Parser.next, Parser.emit, hs]
    · simp [Parser.next, Parser.emit, Parser.lexeme, hs, Operand.lexeme, Lexeme.num]
    · exact ⟨rfl, rfl⟩
    · exact fun y k h => h
  | var x =>
    have h1 : p.see .T_NUMBER = false := by
      rw [see_of_scanner p _ _ _ hs]
      rfl
    have h2 : p.see .T_IDENTIFIER = true := by
      rw [see_of_scanner p _ _ _ hs]
      rfl
    have h3 : p.lexeme.stringValue = x := by
      simp [Parser.lexeme, hs, Operand.lexeme, Lexeme.ident]
    refine ⟨(p.findOrAddVariable x).2.next.emit .LOAD (some ((p.findOrAddVariable x).1 : Int)),
      ⟨.LOAD, some ((p.findOrAddVariable x).1 : Int)⟩, memory (p.findOrAddVariable x).1,
      ?_, ?_, ?_, ?_, ?_⟩
    · simp [factor, h1, h2, h3]
    · simp [Parser.next, Parser.emit, hs]
    · have : (p.findOrAddVariable x).2.code = p.code := by
        unfold Parser.findOrAddVariable
        split <;> rfl
      simp [Parser.next, Parser.emit, this]
    · exact ⟨_, findOrAddVariable_lookup_self p x, rfl, rfl⟩
    · exact fun y k h => findOrAddVariable_lookup p x y k h

theorem OperandCode.extend {vars vars1 : List (String × Nat)} {memory : Int → Int} {a : Operand}
    {c : Command} {v : Int} (h : OperandCode vars memory a c v)
    (hv : ∀ y k, vars.lookup y = some k → vars1.lookup y = some k) :
    OperandCode vars1 memory a c v := by
  cases a with
  | lit w => exact h
  | var x =>
    obtain ⟨k, h1, h2⟩ := h
    exact ⟨k, hv x k h1, h2⟩

theorem expressionLoop_step (n : Nat) (p : Parser) (h : p.see .T_LOGICALOROP = true) :
    expressionLoop (n + 1) p =
      (orExpression n p.reserve.2.reserve.2.next).bind fun p3 =>
        expressionLoop n
          (((((p3.emit .OR none).emitAt p.reserve.1 .DUP none).emitAt p.reserve.2.reserve.1
            .JUMP_YES (some (((p3.emit .OR none).emitAt p.reserve.1 .DUP
              none).getCurrentAddress : Int))).emit .PUSH (some 0)).emit .COMPARE
            (some Cmp.C_NE.toInt)) := by
  simp only [expressionLoop, h, if_true]

theorem lor_zero_left (b : Int) : Int.lor 0 b = b := by
  cases b with
  | ofNat n =>
    show ((0 ||| n : Nat) : Int) = (n : Int)
    simp
  | negSucc n =>
    show Int.negSucc (Nat.ldiff n 0) = Int.negSucc n
    congr 1
    apply Nat.eq_of_testBit_eq
    intro k
    simp [Nat.testBit_ldiff]

theorem Machine.step_operand (code : List Command) (memory : Int → Int) (pc : Nat)
    (s : List Int) (vars : List (String × Nat)) (a : Operand) (c : Command) (v : Int)
    (hc : code[pc]? = some c) (ho : OperandCode vars memory a c v) :
    Machine.step code memory ⟨pc, s⟩ = some ⟨pc + 1, v :: s⟩ := by
  cases a with
  | lit w =>
    obtain ⟨h1, h2⟩ := ho
    subst h1 h2
    simp [Machine.step, hc]
  | var x =>
    obtain ⟨k, -, h1, h2⟩ := ho
    subst h1 h2
    simp [Machine.step, hc]

/-! ## A larger call depth gives the same result -/

theorem factor_mono (n : Nat) (hf : Mono factor n) (he : Mono expression n) :
    Mono factor (n + 1) := by
  intro p q h
  rw [factor] at h
  rw [factor]
  split_ifs at h ⊢
  all_goals first
    | exact h
    | (simp only [Option.bind_eq_some] at h ⊢
       obtain ⟨p1, h1, h2⟩ := h
       first
         | exact ⟨p1, hf _ _ h1, h2⟩
         | exact ⟨p1, he _ _ h1, h2⟩)

theorem term_mono (n : Nat) (hf : Mono factor n) (hl : Mono termLoop n) :
    Mono term (n + 1) := by
  intro p q h
  rw [term] at h
  rw [term]
  simp only [Option.bind_eq_some] at h ⊢
  obtain ⟨p1, h1, h2⟩ := h
  exact ⟨p1, hf _ _ h1, hl _ _ h2⟩

theorem termLoop_mono (n : Nat) (hf : Mono factor n) (hl : Mono termLoop n) :
    Mono termLoop (n + 1) := by
  intro p q h
  rw [termLoop] at h
  rw [termLoop]
  split_ifs at h ⊢
  all_goals first
    | exact h
    | (simp only [Option.bind_eq_some] at h ⊢
       obtain ⟨p1, h1, h2⟩ := h
       exact ⟨p1, hf _ _ h1, hl _ _ h2⟩)

theorem relationalExpression_mono (n : Nat) (hf : Mono term n) (hl : Mono relationalExpressionLoop n) :
    Mono relationalExpression (n + 1) := by
  intro p q h
  rw [relationalExpression] at h
  rw [relationalExpression]
  simp only [Option.bind_eq_some] at h ⊢
  obtain ⟨p1, h1, h2⟩ := h
  exact ⟨p1, hf _ _ h1, hl _ _ h2⟩

theorem relationalExpressionLoop_mono (n : Nat) (hf : Mono term n) (hl : Mono relationalExpressionLoop n) :
    Mono relationalExpressionLoop (n + 1) := by
  intro p q h
  rw [relationalExpressionLoop] at h
  rw [relationalExpressionLoop]
  split_ifs at h ⊢
  all_goals first
    | exact h
    | (simp only [Option.bind_eq_some] at h ⊢
       obtain ⟨p1, h1, h2⟩ := h
       exact ⟨p1, hf _ _ h1, hl _ _ h2⟩)

theorem equalityExpression_mono (n : Nat) (hf : Mono relationalExpression n) (hl : Mono equalityExpressionLoop n) :
    Mono equalityExpression (n + 1) := by
  intro p q h
  rw [equalityExpression] at h
  rw [equalityExpression]
  simp only [Option.bind_eq_some] at h ⊢
  obtain ⟨p1, h1, h2⟩ := h
  exact ⟨p1, hf _ _ h1, hl _ _ h2⟩

theorem equalityExpressionLoop_mono (n : Nat) (hf : Mono relationalExpression n) (hl : Mono equalityExpressionLoop n) :
    Mono equalityExpressionLoop (n + 1) := by
  intro p q h
  rw [equalityExpressionLoop] at h
  rw [equalityExpressionLoop]
  dsimp only at h ⊢
  split_ifs at h ⊢
  all_goals first
    | exact h
    | (simp only [Option.bind_eq_some] at h ⊢
       obtain ⟨p1, h1, h2⟩ := h
       exact ⟨p1, hf _ _ h1, hl _ _ h2⟩)

theorem bitwiseAndExpression_mono (n : Nat) (hf : Mono equalityExpression n) (hl : Mono bitwiseAndExpressionLoop n) :
    Mono bitwiseAndExpression (n + 1) := by
  intro p q h
  rw [bitwiseAndExpression] at h
  rw [bitwiseAndExpression]
  simp only [Option.bind_eq_some] at h ⊢
  obtain ⟨p1, h1, h2⟩ := h
  exact ⟨p1, hf _ _ h1, hl _ _ h2⟩

theorem bitwiseAndExpressionLoop_mono (n : Nat) (hf : Mono equalityExpression n) (hl : Mono bitwiseAndExpressionLoop n) :
    Mono bitwiseAndExpressionLoop (n + 1) := by
  intro p q h
  rw [bitwiseAndExpressionLoop] at h
  rw [bitwiseAndExpressionLoop]
  dsimp only at h ⊢
  split_ifs at h ⊢
  all_goals first
    | exact h
    | (simp only [Option.bind_eq_some] at h ⊢
       obtain ⟨p1, h1, h2⟩ := h
       exact ⟨p1, hf _ _ h1, hl _ _ h2⟩)

theorem bitwiseOrExpression_mono (n : Nat) (hf : Mono bitwiseAndExpression n) (hl : Mono bitwiseOrExpressionLoop n) :
    Mono bitwiseOrExpression (n + 1) := by
  intro p q h
  rw [bitwiseOrExpression] at h
  rw [bitwiseOrExpression]
  simp only [Option.bind_eq_some] at h ⊢
  obtain ⟨p1, h1, h2⟩ := h
  exact ⟨p1, hf _ _ h1, hl _ _ h2⟩

theorem bitwiseOrExpressionLoop_mono (n : Nat) (hf : Mono bitwiseAndExpression n) (hl : Mono bitwiseOrExpressionLoop n) :
    Mono bitwiseOrExpressionLoop (n + 1) := by
  intro p q h
  rw [bitwiseOrExpressionLoop] at h
  rw [bitwiseOrExpressionLoop]
  split_ifs at h ⊢
  all_goals first
    | exact h
    | (simp only [Option.bind_eq_some] at h ⊢
       obtain ⟨p1, h1, h2⟩ := h
       exact ⟨p1, hf _ _ h1, hl _ _ h2⟩)

theorem andExpression_mono (n : Nat) (hf : Mono bitwiseOrExpression n) (hl : Mono andExpressionLoop n) :
    Mono andExpression (n + 1) := by
  intro p q h
  rw [andExpression] at h
  rw [andExpression]
  simp only [Option.bind_eq_some] at h ⊢
  obtain ⟨p1, h1, h2⟩ := h
  exact ⟨p1, hf _ _ h1, hl _ _ h2⟩

theorem andExpressionLoop_mono (n : Nat) (hf : Mono bitwiseOrExpression n) (hl : Mono andExpressionLoop n) :
    Mono andExpressionLoop (n + 1) := by
  intro p q h
  rw [andExpressionLoop] at h
  rw [andExpressionLoop]
  split_ifs at h ⊢
  all_goals first
    | exact h
    | (simp only [Option.bind_eq_some] at h ⊢
       obtain ⟨p1, h1, h2⟩ := h
       exact ⟨p1, hf _ _ h1, hl _ _ h2⟩)

theorem orExpression_mono (n : Nat) (hf : Mono andExpression n) (hl : Mono orExpressionLoop n) :
    Mono orExpression (n + 1) := by
  intro p q h
  rw [orExpression] at h
  rw [orExpression]
  simp only [Option.bind_eq_some] at h ⊢
  obtain ⟨p1, h1, h2⟩ := h
  exact ⟨p1, hf _ _ h1, hl _ _ h2⟩

theorem orExpressionLoop_mono (n : Nat) (hf : Mono andExpression n) (hl : Mono orExpressionLoop n) :
    Mono orExpressionLoop (n + 1) := by
  intro p q h
  rw [orExpressionLoop] at h
  rw [orExpressionLoop]
  split_ifs at h ⊢
  all_goals first
    | exact h
    | (simp only [Option.bind_eq_some] at h ⊢
       obtain ⟨p1, h1, h2⟩ := h
       exact ⟨p1, hf _ _ h1, hl _ _ h2⟩)

theorem expression_mono (n : Nat) (hf : Mono orExpression n) (hl : Mono expressionLoop n) :
    Mono expression (n + 1) := by
  intro p q h
  rw [expression] at h
  rw [expression]
  simp only [Option.bind_eq_some] at h ⊢
  obtain ⟨p1, h1, h2⟩ := h
  exact ⟨p1, hf _ _ h1, hl _ _ h2⟩

theorem expressionLoop_mono (n : Nat) (hf : Mono orExpression n) (hl : Mono expressionLoop n) :
    Mono expressionLoop (n + 1) := by
  intro p q h
  rw [expressionLoop] at h
  rw [expressionLoop]
  split_ifs at h ⊢
  all_goals first
    | exact h
    | (simp only [Option.bind_eq_some] at h ⊢
       obtain ⟨p1, h1, h2⟩ := h
       exact ⟨p1, hf _ _ h1, hl _ _ h2⟩)

theorem statement_mono (n : Nat) (he : Mono expression n) (hs : Mono statementList n) :
    Mono statement (n + 1) := by
  intro p q h
  rw [statement] at h
  rw [statement]
  split_ifs at h ⊢
  · simp only [Option.bind_eq_some] at h ⊢
    obtain ⟨p1, h1, h2⟩ := h
    exact ⟨p1, he _ _ h1, h2⟩
  · simp only [Option.bind_eq_some] at h ⊢
    obtain ⟨p1, h1, p2, h2, h3⟩ := h
    refine ⟨p1, he _ _ h1, p2, hs _ _ h2, ?_⟩
    split_ifs at h3 ⊢
    · simp only [Option.bind_eq_some] at h3 ⊢
      obtain ⟨p5, h4, h5⟩ := h3
      exact ⟨p5, hs _ _ h4, h5⟩
    · exact h3
  · simp only [Option.bind_eq_some] at h ⊢
    obtain ⟨p1, h1, p2, h2, h3⟩ := h
    exact ⟨p1, he _ _ h1, p2, hs _ _ h2, h3⟩
  · simp only [Option.bind_eq_some] at h ⊢
    obtain ⟨p1, h1, h2⟩ := h
    exact ⟨p1, he _ _ h1, h2⟩
  · exact h

theorem statementListLoop_mono (n : Nat) (hs : Mono statement n)
    (hl : Mono statementListLoop n) : Mono statementListLoop (n + 1) := by
  intro p q h
  rw [statementListLoop] at h
  rw [statementListLoop]
  simp only [Option.bind_eq_some] at h ⊢
  obtain ⟨p1, h1, h2⟩ := h
  refine ⟨p1, hs _ _ h1, ?_⟩
  split_ifs at h2 ⊢
  · exact hl _ _ h2
  · exact h2

theorem statementList_mono (n : Nat) (hl : Mono statementListLoop n) :
    Mono statementList (n + 1) := by
  intro p q h
  rw [statementList] at h
  rw [statementList]
  split_ifs at h ⊢
  · exact h
  · exact hl _ _ h

theorem allMono (n : Nat) : AllMono n := by
  induction n with
  | zero =>
    refine ⟨?_, ?_, ?_, ?_, ?_, ?_, ?_, ?_, ?_, ?_, ?_, ?_, ?_, ?_, ?_, ?_, ?_, ?_, ?_, ?_⟩ <;>
      intro p q h
    · simp [statementList] at h
    · simp [statementListLoop] at h
    · simp [statement] at h
    · simp [expression] at h
    · simp [expressionLoop] at h
    · simp [orExpression] at h
    · simp [orExpressionLoop] at h
    · simp [andExpression] at h
    · simp [andExpressionLoop] at h
    · simp [bitwiseOrExpression] at h
    · simp [bitwiseOrExpressionLoop] at h
    · simp [bitwiseAndExpression] at h
    · simp [bitwiseAndExpressionLoop] at h
    · simp [equalityExpression] at h
    · simp [equalityExpressionLoop] at h
    · simp [relationalExpression] at h
    · simp [relationalExpressionLoop] at h
    · simp [term] at h
    · simp [termLoop] at h
    · simp [factor] at h
  | succ n ih =>
    obtain ⟨h1, h2, h3, h4, h5, h6, h7, h8, h9, h10, h11, h12, h13, h14, h15, h16, h17, h18,
      h19, h20⟩ := ih
    exact ⟨statementList_mono n h2, statementListLoop_mono n h3 h2, statement_mono n h4 h1,
      expression_mono n h6 h5, expressionLoop_mono n h6 h5, orExpression_mono n h8 h7,
      orExpressionLoop_mono n h8 h7, andExpression_mono n h10 h9,
      andExpressionLoop_mono n h10 h9, bitwiseOrExpression_mono n h12 h11,
      bitwiseOrExpressionLoop_mono n h12 h11, bitwiseAndExpression_mono n h14 h13,
      bitwiseAndExpressionLoop_mono n h14 h13, equalityExpression_mono n h16 h15,
      equalityExpressionLoop_mono n h16 h15, relationalExpression_mono n h18 h17,
      relationalExpressionLoop_mono n h18 h17, term_mono n h20 h19, termLoop_mono n h20 h19,
      factor_mono n h20 h4⟩

theorem mono_le {f : Nat → Parser → Option Parser} (hf : ∀ n, Mono f n) {n m : Nat}
    {p q : Parser} (h : f n p = some q) (hnm : n ≤ m) : f m p = some q := by
  induction hnm with
  | refl => exact h
  | step _ ih => exact hf _ _ _ ih

theorem statementList_mono_le {n m : Nat} {p q : Parser} (h : statementList n p = some q)
    (hnm : n ≤ m) : statementList m p = some q :=
  mono_le (fun k => (allMono k).1) h hnm

theorem program_mono_le {n m : Nat} {p q : Parser} (h : program n p = some q) (hnm : n ≤ m) :
    program m p = some q := by
  simp only [program, Option.bind_eq_some] at h ⊢
  obtain ⟨p1, h1, h2⟩ := h
  exact ⟨p1, statementList_mono_le h1 hnm, h2⟩

theorem parse_mono_le {n m : Nat} {p q : Parser} (h : parse n p = some q) (hnm : n ≤ m) :
    parse m p = some q := by
  simp only [parse, Option.bind_eq_some] at h ⊢
  obtain ⟨p1, h1, h2⟩ := h
  exact ⟨p1, program_mono_le h1 hnm, h2⟩

theorem parse_deterministic {n m : Nat} {p q r : Parser} (h1 : parse n p = some q)
    (h2 : parse m p = some r) : q = r := by
  have e1 := parse_mono_le h1 (Nat.le_max_left n m)
  have e2 := parse_mono_le h2 (Nat.le_max_right n m)
  rw [e1] at e2
  exact Option.some.inj e2

/-! ## Jump targets and reserved slots -/

/-- C19: for every token sequence, when `program` returns the buffer ends with
the `STOP`, and every `JUMP`, `JUMP_YES` and `JUMP_NO` in it has an operand `t`
that is a natural number not larger than the address of that `STOP`. -/
theorem jump_targets_in_range (toks : List Lexeme) :
    (∃ r, program (parseFuel toks) (Parser.init toks) = some r) ∧
    ∀ n r, program n (Parser.init toks) = some r →
      r.code[r.code.length - 1]? = some ⟨.STOP, none⟩ ∧
      ∀ c ∈ r.code,
        (c.instruction = .JUMP ∨ c.instruction = .JUMP_YES ∨ c.instruction = .JUMP_NO) →
        ∃ t : Nat, c.arg = some (t : Int) ∧ t ≤ r.code.length - 1 := by
  refine ⟨program_total _ _ (le_refl _), fun n r h => ?_⟩
  obtain ⟨p1, r1, e1⟩ := program_reach h
  obtain ⟨c, ec, oc⟩ := r1.frame
  simp only [Parser.init, List.nil_append] at ec
  have hcode : r.code = p1.code ++ [⟨.STOP, none⟩] := by rw [e1]; rfl
  have hlen : r.code.length - 1 = p1.code.length := by rw [hcode]; simp
  refine ⟨?_, fun x hx hj => ?_⟩
  · rw [hlen, hcode]
    simp
  · rw [hcode, List.mem_append, List.mem_singleton] at hx
    rcases hx with hx | hx
    · rw [ec] at hx
      obtain ⟨t, ht, hle⟩ := (oc x hx).2.2 hj
      exact ⟨t, ht, by rw [hlen]; exact hle⟩
    · subst hx
      rcases hj with hj | hj | hj <;> exact absurd hj (by decide)

theorem Balanced.same {p q : Parser} (hr : q.reserved = p.reserved) (hf : q.filled = p.filled) :
    Balanced p q :=
  ⟨[], [], by simp [hr], by simp [hf], List.Perm.refl _, List.nodup_nil, by simp⟩

theorem Reach.balanced {p q : Parser} (h : Reach p q) : Balanced p q := by
  induction h with
  | refl p => exact Balanced.same rfl rfl
  | @trans p q r h1 h2 ih1 ih2 =>
    obtain ⟨rs1, fs1, e1, f1, p1, n1, b1⟩ := ih1
    obtain ⟨rs2, fs2, e2, f2, p2, n2, b2⟩ := ih2
    have l1 := h1.code_length_le
    have l2 := h2.code_length_le
    refine ⟨rs1 ++ rs2, fs1 ++ fs2, by rw [e2, e1, List.append_assoc],
      by rw [f2, f1, List.append_assoc], p1.append p2, ?_, fun a ha => ?_⟩
    · rw [List.nodup_append]
      refine ⟨n1, n2, fun a ha hb => ?_⟩
      have := (b1 a ha).2
      have := (b2 a hb).1
      omega
    · rcases List.mem_append.mp ha with ha | ha
      · have := b1 a ha
        omega
      · have := b2 a ha
        omega
  | scan p ts hts => exact Balanced.same rfl rfl
  | report p d => exact Balanced.same rfl rfl
  | vars p x =>
    unfold Parser.findOrAddVariable
    split <;> exact Balanced.same rfl rfl
  | emit p i arg hok => exact Balanced.same rfl rfl
  | @patch p q i arg h1 hok ih =>
    obtain ⟨rs, fs, e, f, pm, nd, b⟩ := ih
    have l1 := h1.code_length_le
    simp only [Parser.reserve, List.length_append, List.length_singleton] at e f b l1
    refine ⟨p.code.length :: rs, fs ++ [p.code.length], ?_, ?_, ?_, ?_, fun a ha => ?_⟩
    · simp [Parser.emitAt, Parser.reserve, e]
    · simp [Parser.emitAt, Parser.reserve, f]
    · exact (List.perm_append_singleton _ _).trans (pm.cons _)
    · rw [List.nodup_cons]
      refine ⟨fun hm => ?_, nd⟩
      have := (b _ hm).1
      omega
    · simp only [Parser.emitAt, List.length_set]
      rcases List.mem_cons.mp ha with ha | ha
      · omega
      · have := b a ha
        omega
  | @patchElse p q r i1 i2 arg1 arg2 h1 hok1 h2 hok2 ih1 ih2 =>
    obtain ⟨rs1, fs1, e1, f1, pm1, nd1, b1⟩ := ih1
    obtain ⟨rs2, fs2, e2, f2, pm2, nd2, b2⟩ := ih2
    have l1 := h1.code_length_le
    have l2 := h2.code_length_le
    simp only [Parser.reserve, Parser.emitAt, List.length_append, List.length_singleton,
      List.length_set] at e1 f1 b1 l1 e2 f2 b2 l2
    refine ⟨p.code.length :: (rs1 ++ q.code.length :: rs2),
      fs1 ++ p.code.length :: (fs2 ++ [q.code.length]), ?_, ?_, ?_, ?_, fun a ha => ?_⟩
    · simp [Parser.emitAt, Parser.reserve, e2, e1]
    · simp [Parser.emitAt, Parser.reserve, f2, f1]
    · refine List.perm_middle.trans (List.Perm.cons _ (pm1.append ?_))
      exact (List.perm_append_singleton _ _).trans (pm2.cons _)
    · rw [List.nodup_cons, List.nodup_append, List.nodup_cons]
      refine ⟨fun hm => ?_, nd1, ⟨fun hm => ?_, nd2⟩, fun a ha hb => ?_⟩
      · rcases List.mem_append.mp hm with hm | hm
        · have := (b1 _ hm).1
          omega
        · rcases List.mem_cons.mp hm with hm | hm
          · omega
          · have := (b2 _ hm).1
            omega
      · have := (b2 _ hm).1
        omega
      · have := (b1 a ha).2
        rcases List.mem_cons.mp hb with hb | hb
        · omega
        · have := (b2 a hb).1
          omega
    · simp only [Parser.emitAt, List.length_set]
      rcases List.mem_cons.mp ha with ha | ha
      · omega
      · rcases List.mem_append.mp ha with ha | ha
        · have := b1 a ha
          omega
        · rcases List.mem_cons.mp ha with ha | ha
          · omega
          · have := b2 a ha
            omega
  | @patchPair p q i1 i2 arg1 arg2 h1 hok1 hok2 ih =>
    obtain ⟨rs, fs, e, f, pm, nd, b⟩ := ih
    have l1 := h1.code_length_le
    simp only [Parser.reserve, List.length_append, List.length_singleton] at e f b l1
    refine ⟨p.code.length :: (p.code.length + 1) :: rs,
      fs ++ [p.code.length, p.code.length + 1], ?_, ?_, ?_, ?_, fun a ha => ?_⟩
    · simp [Parser.emitAt, Parser.reserve, e]
    · simp [Parser.emitAt, Parser.reserve, f]
    · have h3 : (fs ++ [p.code.length, p.code.length + 1]).Perm
          ([p.code.length, p.code.length + 1] ++ fs) := List.perm_append_comm
      exact h3.trans ((pm.cons _).cons _)
    · rw [List.nodup_cons, List.nodup_cons]
      refine ⟨fun hm => ?_, fun hm => ?_, nd⟩
      · rcases List.mem_cons.mp hm with hm | hm
        · omega
        · have := (b _ hm).1
          omega
      · have := (b _ hm).1
        omega
    · simp only [Parser.emitAt, List.length_set]
      rcases List.mem_cons.mp ha with ha | ha
      · omega
      · rcases List.mem_cons.mp ha with ha | ha
        · omega
        · have := b a ha
          omega

/-- C14: for every token sequence, when `program` returns (the point where
`parse` decides about `flush`) the addresses passed to `emitAt` are a
rearrangement of the addresses returned by `reserve`, no address was returned
twice, so every reserved address was filled exactly once and nothing else was
filled, and no placeholder is left in the buffer. -/
theorem reserved_slots_filled_once (toks : List Lexeme) :
    (∃ r, program (parseFuel toks) (Parser.init toks) = some r) ∧
    ∀ n r, program n (Parser.init toks) = some r →
      r.filled.Perm r.reserved ∧ r.reserved.Nodup ∧
      (∀ a ∈ r.reserved, r.filled.count a = 1 ∧ a < r.code.length) ∧
      (∀ a, a ∉ r.reserved → r.filled.count a = 0) ∧
      (∀ c ∈ r.code, c.instruction ≠ .NOP) := by
  refine ⟨program_total _ _ (le_refl _), fun n r h => ?_⟩
  obtain ⟨p1, r1, e1⟩ := program_reach h
  obtain ⟨rs, fs, hr, hf, pm, nd, b⟩ := r1.balanced
  obtain ⟨c, ec, oc⟩ := r1.frame
  simp only [Parser.init, List.nil_append] at hr hf ec
  have hres : r.reserved = rs := by rw [e1]; exact hr
  have hfil : r.filled = fs := by rw [e1]; exact hf
  have hcode : r.code = p1.code ++ [⟨.STOP, none⟩] := by rw [e1]; rfl
  rw [hres, hfil]
  refine ⟨pm, nd, fun a ha => ⟨?_, ?_⟩, fun a ha => ?_, fun x hx => ?_⟩
  · rw [pm.count_eq]
    exact List.count_eq_one_of_mem nd ha
  · have := (b a ha).2
    rw [hcode, List.length_append]
    omega
  · rw [pm.count_eq]
    exact List.count_eq_zero_of_not_mem ha
  · rw [hcode, List.mem_append, List.mem_singleton] at hx
    rcases hx with hx | hx
    · rw [ec] at hx
      exact (oc x hx).1
    · subst hx
      decide

/-- C14 at `begin if read>0 then write(1) else write(0) fi end`: the slots 3
and 6 were reserved, and they were filled in this order, once each. -/
theorem reserved_slots_filled_once_witness :
    ∃ r, program (parseFuel ifReadSample) (Parser.init ifReadSample) = some r ∧
      r.reserved = [3, 6] ∧ r.filled = [3, 6] ∧
      r.filled.Perm r.reserved ∧ r.reserved.Nodup ∧
      (∀ a ∈ r.reserved, r.filled.count a = 1 ∧ a < r.code.length) ∧
      (∀ a, a ∉ r.reserved → r.filled.count a = 0) ∧
      (∀ c ∈ r.code, c.instruction ≠ .NOP) :=
  have h : ∃ r, program (parseFuel ifReadSample) (Parser.init ifReadSample) = some r ∧
      r.reserved = [3, 6] ∧ r.filled = [3, 6] := by decide
  h.elim fun r hr => ⟨r, hr.1, hr.2.1, hr.2.2,
    (reserved_slots_filled_once ifReadSample).2 _ r hr.1⟩

/-- C19 at `begin x:=1; while x<5 do x:=x+1 od; write(x) end`: the jumps go to
11 and 2, and the `STOP` is at 13. -/
theorem jump_targets_in_range_witness :
    ∃ r, program (parseFuel whileSample) (Parser.init whileSample) = some r ∧
      r.code.length = 14 ∧
      r.code[r.code.length - 1]? = some ⟨.STOP, none⟩ ∧
      ∀ c ∈ r.code,
        (c.instruction = .JUMP ∨ c.instruction = .JUMP_YES ∨ c.instruction = .JUMP_NO) →
        ∃ t : Nat, c.arg = some (t : Int) ∧ t ≤ r.code.length - 1 :=
  have h : ∃ r, program (parseFuel whileSample) (Parser.init whileSample) = some r ∧
      r.code.length = 14 := by decide
  h.elim fun r hr => ⟨r, hr.1, hr.2, (jump_targets_in_range whileSample).2 _ r hr.1⟩

/-! ## Termination -/

theorem statement_fallthrough (n : Nat) (p : Parser) (h1 : p.see .T_IDENTIFIER = false)
    (h2 : p.see .T_IF = false) (h3 : p.see .T_WHILE = false) (h4 : p.see .T_WRITE = false) :
    statement (n + 1) p = some (p.reportError .statementExpected) := by
  simp [statement, h1, h2, h3, h4, Parser.match_]

theorem factor_fallthrough (n : Nat) (p : Parser) (h1 : p.see .T_NUMBER = false)
    (h2 : p.see .T_IDENTIFIER = false) (h3 : p.see .T_TRUE = false) (h4 : p.see .T_FALSE = false)
    (h5 : p.see .T_ADDOP = false) (h6 : p.see .T_LOGICALNOTOP = false)
    (h7 : p.see .T_LPAREN = false) (h8 : p.see .T_READ = false) :
    factor (n + 1) p = some (p.reportError .expressionExpected) := by
  simp [factor, h1, h2, h3, h4, h5, h6, h7, h8, Parser.match_]

/-- C15: `parse` terminates on every finite token sequence: a call depth of
`parseFuel` suffices and every larger depth gives the same result.  The loop of
`statementList` re-enters `statement` only after `match(T_SEMICOLON)` has
consumed a token, although `statement` and `factor` report their fall-through
error without consuming one; every operator loop and every re-entry through
`if`, `while`, `write`, `(`, `-`, `!` first consumes the token it has seen; and
`recover` only moves forward. -/
theorem parse_terminates (toks : List Lexeme) :
    (∀ n, parseFuel toks ≤ n →
      ∃ r, parse n (Parser.init toks) = some r ∧
        parse (parseFuel toks) (Parser.init toks) = some r) ∧
    (∀ n p p1, statement n p = some p1 → p1.see .T_SEMICOLON = true →
      (p1.match_ .T_SEMICOLON).2.scanner_.length < p.scanner_.length) ∧
    (∀ (p : Parser) (t : Token), t ≠ .T_EOF → p.see t = true →
      p.next.scanner_.length < p.scanner_.length) ∧
    (∀ n p, p.see .T_IDENTIFIER = false → p.see .T_IF = false → p.see .T_WHILE = false →
      p.see .T_WRITE = false → statement (n + 1) p = some (p.reportError .statementExpected)) ∧
    (∀ n p, p.see .T_NUMBER = false → p.see .T_IDENTIFIER = false → p.see .T_TRUE = false →
      p.see .T_FALSE = false → p.see .T_ADDOP = false → p.see .T_LOGICALNOTOP = false →
      p.see .T_LPAREN = false → p.see .T_READ = false →
      factor (n + 1) p = some (p.reportError .expressionExpected)) ∧
    (∀ (p : Parser) (t : Token), (p.recover t).scanner_.length ≤ p.scanner_.length) ∧
    (∀ n k (p : Parser), 10 * p.scanner_.length + k ≤ n →
      (3 ≤ k → ∃ q, statementList n p = some q) ∧ (1 ≤ k → ∃ q, statement n p = some q) ∧
      (9 ≤ k → ∃ q, expression n p = some q) ∧ (1 ≤ k → ∃ q, factor n p = some q)) := by
  refine ⟨fun n hn => ?_, fun n p p1 h hs => ?_, fun p t ht hs => ?_, statement_fallthrough,
    factor_fallthrough, fun p t => (Reach.recover p t).scanner_length_le,
    fun n k p hk => ⟨fun h3 => (allTotal n).1 p (by omega),
      fun h1 => (allTotal n).2.2.1 p (by omega), fun h9 => (allTotal n).2.2.2.1 p (by omega),
      fun h1 => (allTotal n).2.2.2.2.2.2.2.2.2.2.2.2.2.2.2.2.2.2.2 p (by omega)⟩⟩
  · obtain ⟨r, hr⟩ := parse_total (parseFuel toks) (Parser.init toks) (le_refl _)
    exact ⟨r, parse_mono_le hr hn, hr⟩
  · have l1 := (statement_reach h).scanner_length_le
    have l2 := p1.length_pos_of_see _ hs (by decide)
    rw [p1.match_snd_of_see _ hs, p1.next_length]
    omega
  · have l2 := p.length_pos_of_see _ hs ht
    rw [p.next_length]
    omega

/-- C15 at `begin x:= end`, where `factor` reports an error without consuming a
token: `parse` returns at depth `parseFuel` and at every larger depth. -/
theorem parse_terminates_witness :
    ∀ n, parseFuel missingExpressionSample ≤ n →
      ∃ r, parse n (Parser.init missingExpressionSample) = some r ∧
        parse (parseFuel missingExpressionSample) (Parser.init missingExpressionSample) =
          some r :=
  (parse_terminates missingExpressionSample).1

/-! ## The conditional with `read` -/

/-- C11 refuted as worded: on the lexemes of
`begin if read()>0 then write(1) else write(0) fi end` the pass ends with the
error flag set (a `(` is found where `then` is expected, since `factor` takes
`read` without parentheses), nothing is flushed, and the buffer holds no
comparison with 0. -/
theorem if_read_paths_counterexample :
    ∃ r, parse (parseFuel ifReadParenSample) (Parser.init ifReadParenSample) = some r ∧
      r.error_ = true ∧ r.flushed = false ∧
      r.diagnostics = [.foundWhileExpected .T_LPAREN .T_THEN] ∧
      r.code = [⟨.INPUT, none⟩, ⟨.JUMP_NO, some 5⟩, ⟨.PUSH, some 1⟩, ⟨.PRINT, none⟩,
        ⟨.JUMP, some 7⟩, ⟨.PUSH, some 0⟩, ⟨.PRINT, none⟩, ⟨.STOP, none⟩] := by
  decide

/-- C11 amended: on the lexemes of
`begin if read>0 then write(1) else write(0) fi end` the pass returns with the
error flag clear and the code flushed; the code is `INPUT`, `PUSH 0`,
`COMPARE >`, `JUMP_NO 7`, `PUSH 1`, `PRINT`, `JUMP 9`, `PUSH 0`, `PRINT`,
`STOP`, where 7 is the first instruction of the else block and 9 the address
after it; there are two execution paths, one through the `PRINT` at 5 and one
through the `PRINT` at 8, and each path holds exactly one `PRINT`. -/
theorem if_read_paths :
    ∃ r, parse (parseFuel ifReadSample) (Parser.init ifReadSample) = some r ∧
      r.error_ = false ∧ r.flushed = true ∧
      r.code = [⟨.INPUT, none⟩, ⟨.PUSH, some 0⟩, ⟨.COMPARE, some Cmp.C_GT.toInt⟩,
        ⟨.JUMP_NO, some 7⟩, ⟨.PUSH, some 1⟩, ⟨.PRINT, none⟩, ⟨.JUMP, some 9⟩,
        ⟨.PUSH, some 0⟩, ⟨.PRINT, none⟩, ⟨.STOP, none⟩] ∧
      paths r.code r.code.length 0 = [[0, 1, 2, 3, 4, 5, 6, 9], [0, 1, 2, 3, 7, 8, 9]] ∧
      (∀ path ∈ paths r.code r.code.length 0, printsOn r.code path = 1) ∧
      (∀ path ∈ paths r.code r.code.length 0, 5 ∈ path ↔ 8 ∉ path) := by
  decide

/-! ## `mustBe` and panic-mode recovery -/

theorem recoverLoop_stop (t : Token) (l : Lexeme) (post : List Lexeme)
    (hl : l.token = t ∨ l.token = .T_EOF) :
    ∀ pre : List Lexeme, (∀ x ∈ pre, x.token ≠ t ∧ x.token ≠ .T_EOF) →
      Parser.recoverLoop t (pre ++ l :: post) = l :: post
  | [], _ => by simp [Parser.recoverLoop, hl]
  | x :: pre, h => by
    have hx := h x (List.mem_cons_self _ _)
    have ih := recoverLoop_stop t l post hl pre fun y hy => h y (List.mem_cons_of_mem _ hy)
    simp [Parser.recoverLoop, hx.1, hx.2, ih]

theorem recoverLoop_none (t : Token) :
    ∀ pre : List Lexeme, (∀ x ∈ pre, x.token ≠ t ∧ x.token ≠ .T_EOF) →
      Parser.recoverLoop t pre = []
  | [], _ => by simp [Parser.recoverLoop]
  | x :: pre, h => by
    have hx := h x (List.mem_cons_self _ _)
    have ih := recoverLoop_none t pre fun y hy => h y (List.mem_cons_of_mem _ hy)
    simp [Parser.recoverLoop, hx.1, hx.2, ih]

theorem Parser.recover_scanner (p : Parser) (t : Token) :
    (p.recover t).scanner_ =
      match Parser.recoverLoop t p.scanner_ with
      | [] => []
      | l :: rest => if l.token = t then rest else l :: rest := by
  unfold Parser.recover
  dsimp only
  cases h : Parser.recoverLoop t p.scanner_ with
  | nil => split <;> simp [Parser.next, h]
  | cons l rest =>
    by_cases hl : l.token = t
    · simp [Parser.see, Parser.token, Parser.lexeme, Parser.next, h, hl]
    · simp [Parser.see, Parser.token, Parser.lexeme, h, hl]

theorem Parser.recover_variables (p : Parser) (t : Token) :
    (p.recover t).variables_ = p.variables_ ∧ (p.recover t).lastVar_ = p.lastVar_ ∧
      (p.recover t).diagnostics = p.diagnostics := by
  unfold Parser.recover
  dsimp only
  split <;> exact ⟨rfl, rfl, rfl⟩

/-- C12: when the current token is `t`, `mustBe(t)` is `next()`: it consumes
that one token and leaves the error flag as it was.  When the current token is
not `t`, `mustBe(t)` sets the error flag and reports what it found; if the
remaining lexemes are `pre`, then a lexeme `l`, then `post`, with neither `t`
nor end-of-input in `pre`, the scanner is left in front of `post` when `l` is
`t` (the first `t` is consumed) and in front of `l` when `l` is the
end-of-input lexeme; if neither occurs the scanner is left at the end of the
lexemes.  The instruction buffer and the variable table are unchanged in every
case. -/
theorem mustBe_contract (p : Parser) (t : Token) :
    (p.see t = true →
      p.mustBe t = p.next ∧ (p.mustBe t).scanner_ = p.scanner_.tail ∧
        (p.mustBe t).scanner_.length + 1 = p.scanner_.length + (if p.scanner_ = [] then 1 else 0) ∧
        (p.mustBe t).error_ = p.error_ ∧ (p.mustBe t).diagnostics = p.diagnostics) ∧
    (p.see t = false →
      (p.mustBe t).error_ = true ∧
      (p.mustBe t).diagnostics = p.diagnostics ++ [.foundWhileExpected p.token t] ∧
      (∀ pre l post, p.scanner_ = pre ++ l :: post →
        (∀ x ∈ pre, x.token ≠ t ∧ x.token ≠ .T_EOF) →
        (l.token = t → (p.mustBe t).scanner_ = post) ∧
        (l.token = .T_EOF → t ≠ .T_EOF → (p.mustBe t).scanner_ = l :: post)) ∧
      ((∀ x ∈ p.scanner_, x.token ≠ t ∧ x.token ≠ .T_EOF) → (p.mustBe t).scanner_ = [])) ∧
    (p.mustBe t).code = p.code ∧ (p.mustBe t).variables_ = p.variables_ ∧
    (p.mustBe t).lastVar_ = p.lastVar_ ∧ (p.mustBe t).reserved = p.reserved ∧
    (p.mustBe t).filled = p.filled := by
  refine ⟨fun h => ?_, fun h => ?_, ?_⟩
  · rw [Parser.mustBe_of_see p t h]
    refine ⟨rfl, rfl, ?_, rfl, rfl⟩
    cases hs : p.scanner_ <;> simp [Parser.next, hs]
  · have e : p.mustBe t = (p.reportError (.foundWhileExpected p.token t)).recover t := by
      rw [Parser.mustBe_eq]
      simp [h]
    refine ⟨?_, ?_, fun pre l post hs hpre => ⟨fun hl => ?_, fun hl ht => ?_⟩, fun hall => ?_⟩
    · rw [e, Parser.recover_error]
      rfl
    · rw [e, (Parser.recover_variables _ t).2.2]
      rfl
    · rw [e, Parser.recover_scanner]
      have : (p.reportError (.foundWhileExpected p.token t)).scanner_ = pre ++ l :: post := hs
      rw [this, recoverLoop_stop t l post (Or.inl hl) pre hpre]
      simp [hl]
    · rw [e, Parser.recover_scanner]
      have : (p.reportError (.foundWhileExpected p.token t)).scanner_ = pre ++ l :: post := hs
      rw [this, recoverLoop_stop t l post (Or.inr hl) pre hpre]
      have : ¬ l.token = t := fun c => ht (c ▸ hl)
      simp [this]
    · rw [e, Parser.recover_scanner]
      have : (p.reportError (.foundWhileExpected p.token t)).scanner_ = p.scanner_ := rfl
      rw [this, recoverLoop_none t p.scanner_ hall]
  · rw [Parser.mustBe_eq]
    split
    · exact ⟨rfl, rfl, rfl, rfl, rfl⟩
    · unfold Parser.recover
      dsimp only
      split <;> exact ⟨rfl, rfl, rfl, rfl, rfl⟩

/-- C12 at `1 2 ) end` with `)` expected: the flag is set, `1` and `2` are
discarded, the `)` is consumed and the scanner is left in front of `end`; at
`) end` the `)` is consumed and the flag stays clear. -/
theorem mustBe_contract_witness :
    recoverSample.see .T_RPAREN = false ∧
    (recoverSample.mustBe .T_RPAREN).error_ = true ∧
    (recoverSample.mustBe .T_RPAREN).scanner_ = [.kw .T_END] ∧
    (recoverSample.next.next).see .T_RPAREN = true ∧
    (recoverSample.next.next).mustBe .T_RPAREN = recoverSample.next.next.next ∧
    ((recoverSample.next.next).mustBe .T_RPAREN).error_ = false :=
  ⟨by decide,
    ((mustBe_contract recoverSample .T_RPAREN).2.1 (by decide)).1,
    (((mustBe_contract recoverSample .T_RPAREN).2.1 (by decide)).2.2.1
      [.num 1, .num 2] (.kw .T_RPAREN) [.kw .T_END] (by decide) (by decide)).1 (by decide),
    by decide,
    ((mustBe_contract recoverSample.next.next .T_RPAREN).1 (by decide)).1,
    ((mustBe_contract recoverSample.next.next .T_RPAREN).1 (by decide)).2.2.2.1⟩

/-! ## Lexemes that are never read -/

theorem Reach.nonempty {p q : Parser} (h : Reach p q) (hq : q.scanner_ ≠ []) :
    p.scanner_ ≠ [] := by
  intro e
  have := h.scanner_length_le
  rw [e] at this
  exact hq (List.length_eq_zero.mp (Nat.le_zero.mp this))

theorem Parser.see_extend (p : Parser) (s : List Lexeme) (t : Token) (h : p.scanner_ ≠ []) :
    (p.extend s).see t = p.see t := by
  cases hs : p.scanner_ with
  | nil => exact absurd hs h
  | cons l rest => simp [Parser.see, Parser.token, Parser.lexeme, Parser.extend, hs]

theorem Parser.lexeme_extend (p : Parser) (s : List Lexeme) (h : p.scanner_ ≠ []) :
    (p.extend s).lexeme = p.lexeme := by
  cases hs : p.scanner_ with
  | nil => exact absurd hs h
  | cons l rest => simp [Parser.lexeme, Parser.extend, hs]

theorem Parser.next_extend (p : Parser) (s : List Lexeme) (h : p.scanner_ ≠ []) :
    (p.extend s).next = p.next.extend s := by
  cases hs : p.scanner_ with
  | nil => exact absurd hs h
  | cons l rest => simp [Parser.next, Parser.extend, hs]

theorem Parser.match_extend (p : Parser) (s : List Lexeme) (t : Token) (h : p.scanner_ ≠ []) :
    (p.extend s).match_ t = ((p.match_ t).1, (p.match_ t).2.extend s) := by
  unfold Parser.match_
  rw [Parser.see_extend p s t h, Parser.next_extend p s h]
  split <;> rfl

theorem Parser.findOrAddVariable_extend (p : Parser) (s : List Lexeme) (x : String) :
    (p.extend s).findOrAddVariable x =
      ((p.findOrAddVariable x).1, (p.findOrAddVariable x).2.extend s) := by
  unfold Parser.findOrAddVariable
  show (match p.variables_.lookup x with
    | none => _
    | some a => _) = _
  cases p.variables_.lookup x <;> rfl

theorem recoverLoop_append (t : Token) (s : List Lexeme) :
    ∀ l : List Lexeme, Parser.recoverLoop t l ≠ [] →
      Parser.recoverLoop t (l ++ s) = Parser.recoverLoop t l ++ s
  | [], h => absurd rfl h
  | x :: l, h => by
    by_cases hx : x.token = t ∨ x.token = .T_EOF
    · simp [Parser.recoverLoop, hx]
    · simp only [Parser.recoverLoop, hx, if_false] at h
      simp only [List.cons_append, Parser.recoverLoop, hx, if_false]
      exact recoverLoop_append t s l h

theorem Parser.recover_extend (p : Parser) (s : List Lexeme) (t : Token)
    (h : (p.recover t).scanner_ ≠ []) : (p.extend s).recover t = (p.recover t).extend s := by
  have hl : Parser.recoverLoop t p.scanner_ ≠ [] := by
    intro e
    apply h
    rw [Parser.recover_scanner, e]
  unfold Parser.recover
  dsimp only
  have e1 : (p.extend s).scanner_ = p.scanner_ ++ s := rfl
  rw [e1, recoverLoop_append t s _ hl]
  have e2 : ({ p.extend s with scanner_ := Parser.recoverLoop t p.scanner_ ++ s } : Parser) =
      ({ p with scanner_ := Parser.recoverLoop t p.scanner_ } : Parser).extend s := rfl
  rw [e2, Parser.see_extend _ s t hl, Parser.next_extend _ s hl]
  split <;> rfl

theorem Parser.mustBe_extend (p : Parser) (s : List Lexeme) (t : Token)
    (h : (p.mustBe t).scanner_ ≠ []) : (p.extend s).mustBe t = (p.mustBe t).extend s := by
  have hp : p.scanner_ ≠ [] := (Reach.mustBe p t).nonempty h
  rw [Parser.mustBe_eq, Parser.mustBe_eq] at *
  rw [Parser.see_extend p s t hp, Parser.next_extend p s hp]
  split
  · rfl
  · rename_i hs
    rw [if_neg hs] at h
    have e : (p.extend s).token = p.token := by
      unfold Parser.token
      rw [Parser.lexeme_extend p s hp]
    rw [e]
    exact Parser.recover_extend _ s t h

theorem Ext.apply {f : Nat → Parser → Option Parser} {n : Nat} (hf : Ext f n)
    {p q p' : Parser} {s : List Lexeme} (h : f n p = some q) (hq : q.scanner_ ≠ [])
    (e : p' = p.extend s) : f n p' = some (q.extend s) := by
  rw [e]
  exact hf p q s h hq

theorem factor_ext (n : Nat) (hf : Ext factor n) (he : Ext expression n) :
    Ext factor (n + 1) := by
  intro p q s h hq
  have hp := (factor_reach h).nonempty hq
  rw [factor] at h ⊢
  simp only [Parser.see_extend p s _ hp, Parser.lexeme_extend p s hp,
    Parser.match_extend p s _ hp, Parser.findOrAddVariable_extend]
  split_ifs at h ⊢
  · cases h
    exact congrArg (fun x => some (Parser.emit x _ _)) (Parser.next_extend p s hp)
  · cases h
    exact congrArg (fun x => some (Parser.emit x _ _))
      (Parser.next_extend (p.findOrAddVariable p.lexeme.stringValue).2 s
        (by rw [Parser.findOrAddVariable_scanner]; exact hp))
  · cases h
    exact congrArg (fun x => some (Parser.emit x _ _)) (Parser.next_extend p s hp)
  · cases h
    exact congrArg (fun x => some (Parser.emit x _ _)) (Parser.next_extend p s hp)
  · simp only [Option.bind_eq_some] at h ⊢
    obtain ⟨p1, h1, h2⟩ := h
    cases h2
    exact ⟨_, hf.apply h1 hq (Parser.next_extend p s hp), rfl⟩
  · simp only [Option.bind_eq_some] at h ⊢
    obtain ⟨p1, h1, h2⟩ := h
    cases h2
    exact ⟨_, hf.apply h1 hq (Parser.next_extend p s hp), rfl⟩
  · simp only [Option.bind_eq_some] at h ⊢
    obtain ⟨p1, h1, h2⟩ := h
    cases h2
    have hp1 : p1.scanner_ ≠ [] := (Reach.mustBe p1 _).nonempty hq
    exact ⟨_, he.apply h1 hp1 rfl, congrArg some (Parser.mustBe_extend p1 s _ hq)⟩
  · cases h
    rfl
  · cases h
    rfl

theorem termLoop_ext (n : Nat) (hf : Ext factor n) (hl : Ext termLoop n) :
    Ext termLoop (n + 1) := by
  intro p q s h hq
  have hp := (termLoop_reach h).nonempty hq
  rw [termLoop] at h ⊢
  rw [Parser.see_extend p s _ hp, Parser.lexeme_extend p s hp]
  dsimp only at h ⊢
  split_ifs at h ⊢
  · simp only [Option.bind_eq_some] at h ⊢
    obtain ⟨p1, h1, h2⟩ := h
    have hp1 : p1.scanner_ ≠ [] := (termLoop_reach h2).nonempty hq
    exact ⟨_, hf.apply h1 hp1 (Parser.next_extend p s hp), hl.apply h2 hq rfl⟩
  · simp only [Option.bind_eq_some] at h ⊢
    obtain ⟨p1, h1, h2⟩ := h
    have hp1 : p1.scanner_ ≠ [] := (termLoop_reach h2).nonempty hq
    exact ⟨_, hf.apply h1 hp1 (Parser.next_extend p s hp), hl.apply h2 hq rfl⟩
  · cases h
    rfl

theorem term_ext (n : Nat) (hf : Ext factor n) (hl : Ext termLoop n) : Ext term (n + 1) := by
  intro p q s h hq
  rw [term] at h ⊢
  simp only [Option.bind_eq_some] at h ⊢
  obtain ⟨p1, h1, h2⟩ := h
  exact ⟨_, hf _ _ s h1 ((termLoop_reach h2).nonempty hq), hl _ _ s h2 hq⟩

theorem relationalExpressionLoop_ext (n : Nat) (hf : Ext term n)
    (hl : Ext relationalExpressionLoop n) : Ext relationalExpressionLoop (n + 1) := by
  intro p q s h hq
  have hp := (relationalExpressionLoop_reach h).nonempty hq
  rw [relationalExpressionLoop] at h ⊢
  rw [Parser.see_extend p s _ hp, Parser.lexeme_extend p s hp]
  dsimp only at h ⊢
  split_ifs at h ⊢
  · simp only [Option.bind_eq_some] at h ⊢
    obtain ⟨p1, h1, h2⟩ := h
    have hp1 : p1.scanner_ ≠ [] := (relationalExpressionLoop_reach h2).nonempty hq
    exact ⟨_, hf.apply h1 hp1 (Parser.next_extend p s hp), hl.apply h2 hq rfl⟩
  · simp only [Option.bind_eq_some] at h ⊢
    obtain ⟨p1, h1, h2⟩ := h
    have hp1 : p1.scanner_ ≠ [] := (relationalExpressionLoop_reach h2).nonempty hq
    exact ⟨_, hf.apply h1 hp1 (Parser.next_extend p s hp), hl.apply h2 hq rfl⟩
  · cases h
    rfl

theorem relationalExpression_ext (n : Nat) (hf : Ext term n)
    (hl : Ext relationalExpressionLoop n) : Ext relationalExpression (n + 1) := by
  intro p q s h hq
  rw [relationalExpression] at h ⊢
  simp only [Option.bind_eq_some] at h ⊢
  obtain ⟨p1, h1, h2⟩ := h
  exact ⟨_, hf _ _ s h1 ((relationalExpressionLoop_reach h2).nonempty hq), hl _ _ s h2 hq⟩

theorem equalityExpressionLoop_ext (n : Nat) (hf : Ext relationalExpression n)
    (hl : Ext equalityExpressionLoop n) : Ext equalityExpressionLoop (n + 1) := by
  intro p q s h hq
  have hp := (equalityExpressionLoop_reach h).nonempty hq
  rw [equalityExpressionLoop] at h ⊢
  rw [Parser.see_extend p s _ hp, Parser.lexeme_extend p s hp]
  dsimp only at h ⊢
  split_ifs at h ⊢
  · simp only [Option.bind_eq_some] at h ⊢
    obtain ⟨p1, h1, h2⟩ := h
    have hp1 : p1.scanner_ ≠ [] := (equalityExpressionLoop_reach h2).nonempty hq
    exact ⟨_, hf.apply h1 hp1 (Parser.next_extend p s hp), hl.apply h2 hq rfl⟩
  · cases h
    rfl
  · cases h
    rfl

theorem equalityExpression_ext (n : Nat) (hf : Ext relationalExpression n)
    (hl : Ext equalityExpressionLoop n) : Ext equalityExpression (n + 1) := by
  intro p q s h hq
  rw [equalityExpression] at h ⊢
  simp only [Option.bind_eq_some] at h ⊢
  obtain ⟨p1, h1, h2⟩ := h
  exact ⟨_, hf _ _ s h1 ((equalityExpressionLoop_reach h2).nonempty hq), hl _ _ s h2 hq⟩

theorem bitwiseAndExpressionLoop_ext (n : Nat) (hf : Ext equalityExpression n)
    (hl : Ext bitwiseAndExpressionLoop n) : Ext bitwiseAndExpressionLoop (n + 1) := by
  intro p q s h hq
  have hp := (bitwiseAndExpressionLoop_reach h).nonempty hq
  rw [bitwiseAndExpressionLoop] at h ⊢
  rw [Parser.see_extend p s _ hp, Parser.lexeme_extend p s hp]
  dsimp only at h ⊢
  split_ifs at h ⊢
  · simp only [Option.bind_eq_some] at h ⊢
    obtain ⟨p1, h1, h2⟩ := h
    have hp1 : p1.scanner_ ≠ [] := (bitwiseAndExpressionLoop_reach h2).nonempty hq
    exact ⟨_, hf.apply h1 hp1 (Parser.next_extend p s hp), hl.apply h2 hq rfl⟩
  · cases h
    rfl
  · cases h
    rfl

theorem bitwiseAndExpression_ext (n : Nat) (hf : Ext equalityExpression n)
    (hl : Ext bitwiseAndExpressionLoop n) : Ext bitwiseAndExpression (n + 1) := by
  intro p q s h hq
  rw [bitwiseAndExpression] at h ⊢
  simp only [Option.bind_eq_some] at h ⊢
  obtain ⟨p1, h1, h2⟩ := h
  exact ⟨_, hf _ _ s h1 ((bitwiseAndExpressionLoop_reach h2).nonempty hq), hl _ _ s h2 hq⟩

theorem bitwiseOrExpressionLoop_ext (n : Nat) (hf : Ext bitwiseAndExpression n)
    (hl : Ext bitwiseOrExpressionLoop n) : Ext bitwiseOrExpressionLoop (n + 1) := by
  intro p q s h hq
  have hp := (bitwiseOrExpressionLoop_reach h).nonempty hq
  rw [bitwiseOrExpressionLoop] at h ⊢
  rw [Parser.see_extend p s _ hp]
  split_ifs at h ⊢
  · simp only [Option.bind_eq_some] at h ⊢
    obtain ⟨p1, h1, h2⟩ := h
    have hp1 : p1.scanner_ ≠ [] := (bitwiseOrExpressionLoop_reach h2).nonempty hq
    exact ⟨_, hf.apply h1 hp1 (Parser.next_extend p s hp), hl.apply h2 hq rfl⟩
  · cases h
    rfl

theorem bitwiseOrExpression_ext (n : Nat) (hf : Ext bitwiseAndExpression n)
    (hl : Ext bitwiseOrExpressionLoop n) : Ext bitwiseOrExpression (n + 1) := by
  intro p q s h hq
  rw [bitwiseOrExpression] at h ⊢
  simp only [Option.bind_eq_some] at h ⊢
  obtain ⟨p1, h1, h2⟩ := h
  exact ⟨_, hf _ _ s h1 ((bitwiseOrExpressionLoop_reach h2).nonempty hq), hl _ _ s h2 hq⟩

theorem andExpressionLoop_ext (n : Nat) (hf : Ext bitwiseOrExpression n)
    (hl : Ext andExpressionLoop n) : Ext andExpressionLoop (n + 1) := by
  intro p q s h hq
  have hp := (andExpressionLoop_reach h).nonempty hq
  rw [andExpressionLoop] at h ⊢
  rw [Parser.see_extend p s _ hp]
  split_ifs at h ⊢
  · simp only [Option.bind_eq_some] at h ⊢
    obtain ⟨p1, h1, h2⟩ := h
    have hp1 : p1.scanner_ ≠ [] := (andExpressionLoop_reach h2).nonempty hq
    exact ⟨_, hf.apply h1 hp1 (Parser.next_extend p s hp), hl.apply h2 hq rfl⟩
  · cases h
    rfl

theorem andExpression_ext (n : Nat) (hf : Ext bitwiseOrExpression n)
    (hl : Ext andExpressionLoop n) : Ext andExpression (n + 1) := by
  intro p q s h hq
  rw [andExpression] at h ⊢
  simp only [Option.bind_eq_some] at h ⊢
  obtain ⟨p1, h1, h2⟩ := h
  exact ⟨_, hf _ _ s h1 ((andExpressionLoop_reach h2).nonempty hq), hl _ _ s h2 hq⟩

theorem orExpressionLoop_ext (n : Nat) (hf : Ext andExpression n)
    (hl : Ext orExpressionLoop n) : Ext orExpressionLoop (n + 1) := by
  intro p q s h hq
  have hp := (orExpressionLoop_reach h).nonempty hq
  rw [orExpressionLoop] at h ⊢
  rw [Parser.see_extend p s _ hp]
  dsimp only at h ⊢
  split_ifs at h ⊢
  · simp only [Option.bind_eq_some] at h ⊢
    obtain ⟨p1, h1, h2⟩ := h
    have hp1 : p1.scanner_ ≠ [] := (orExpressionLoop_reach h2).nonempty hq
    exact ⟨_, hf.apply h1 hp1
      (Parser.next_extend
        ((p.emit .PUSH (some 0)).emit .COMPARE (some Cmp.C_NE.toInt)).reserve.2.reserve.2 s hp),
      hl.apply h2 hq rfl⟩
  · cases h
    rfl

theorem orExpression_ext (n : Nat) (hf : Ext andExpression n)
    (hl : Ext orExpressionLoop n) : Ext orExpression (n + 1) := by
  intro p q s h hq
  rw [orExpression] at h ⊢
  simp only [Option.bind_eq_some] at h ⊢
  obtain ⟨p1, h1, h2⟩ := h
  exact ⟨_, hf _ _ s h1 ((orExpressionLoop_reach h2).nonempty hq), hl _ _ s h2 hq⟩

theorem expressionLoop_ext (n : Nat) (hf : Ext orExpression n)
    (hl : Ext expressionLoop n) : Ext expressionLoop (n + 1) := by
  intro p q s h hq
  have hp := (expressionLoop_reach h).nonempty hq
  rw [expressionLoop] at h ⊢
  rw [Parser.see_extend p s _ hp]
  dsimp only at h ⊢
  split_ifs at h ⊢
  · simp only [Option.bind_eq_some] at h ⊢
    obtain ⟨p1, h1, h2⟩ := h
    have hp1 : p1.scanner_ ≠ [] := (expressionLoop_reach h2).nonempty hq
    exact ⟨_, hf.apply h1 hp1 (Parser.next_extend p.reserve.2.reserve.2 s hp),
      hl.apply h2 hq rfl⟩
  · cases h
    rfl

theorem expression_ext (n : Nat) (hf : Ext orExpression n)
    (hl : Ext expressionLoop n) : Ext expression (n + 1) := by
  intro p q s h hq
  rw [expression] at h ⊢
  simp only [Option.bind_eq_some] at h ⊢
  obtain ⟨p1, h1, h2⟩ := h
  exact ⟨_, hf _ _ s h1 ((expressionLoop_reach h2).nonempty hq), hl _ _ s h2 hq⟩

theorem statement_ext (n : Nat) (he : Ext expression n) (hs : Ext statementList n) :
    Ext statement (n + 1) := by
  intro p q s h hq
  have hp := (statement_reach h).nonempty hq
  rw [statement] at h ⊢
  simp only [Parser.see_extend p s _ hp, Parser.lexeme_extend p s hp,
    Parser.match_extend p s _ hp, Parser.findOrAddVariable_extend]
  split_ifs at h ⊢
  · simp only [Option.bind_eq_some] at h ⊢
    obtain ⟨p2, h1, h2⟩ := h
    cases h2
    have hB := (expression_reach h1).nonempty hq
    have hA : (p.findOrAddVariable p.lexeme.stringValue).2.scanner_ ≠ [] := by
      rw [Parser.findOrAddVariable_scanner]
      exact hp
    refine ⟨_, he.apply h1 hq ?_, rfl⟩
    rw [Parser.next_extend _ s hA]
    exact Parser.mustBe_extend _ s _ hB
  · simp only [Option.bind_eq_some] at h ⊢
    obtain ⟨p1, h1, p2, h2, h3⟩ := h
    split_ifs at h3 with hc
    · simp only [Option.bind_eq_some] at h3
      obtain ⟨p5, h5, h6⟩ := h3
      cases h6
      have hp5 : p5.scanner_ ≠ [] := (Reach.mustBe (p5.emitAt _ _ _) _).nonempty hq
      have h4 : (p2.match_ .T_ELSE).2.scanner_ ≠ [] := (statementList_reach h5).nonempty hp5
      have hp2 : p2.scanner_ ≠ [] := (Reach.match_ p2 _).nonempty h4
      have hB := (statementList_reach h2).nonempty hp2
      have hp1 : p1.scanner_ ≠ [] := (Reach.mustBe p1.reserve.2 _).nonempty hB
      refine ⟨_, he.apply h1 hp1 rfl, _, hs.apply h2 hp2 (Parser.mustBe_extend p1.reserve.2 s _ hB),
        ?_⟩
      simp only [Parser.match_extend p2 s _ hp2]
      rw [if_pos hc]
      simp only [Option.bind_eq_some]
      exact ⟨_, hs.apply h5 hp5 rfl, congrArg some (Parser.mustBe_extend _ s _ hq)⟩
    · cases h3
      have h4 : (p2.match_ .T_ELSE).2.scanner_ ≠ [] :=
        (Reach.mustBe ((p2.match_ .T_ELSE).2.emitAt _ _ _) _).nonempty hq
      have hp2 : p2.scanner_ ≠ [] := (Reach.match_ p2 _).nonempty h4
      have hB := (statementList_reach h2).nonempty hp2
      have hp1 : p1.scanner_ ≠ [] := (Reach.mustBe p1.reserve.2 _).nonempty hB
      refine ⟨_, he.apply h1 hp1 rfl, _, hs.apply h2 hp2 (Parser.mustBe_extend p1.reserve.2 s _ hB),
        ?_⟩
      simp only [Parser.match_extend p2 s _ hp2]
      rw [if_neg hc]
      exact congrArg some (Parser.mustBe_extend _ s _ hq)
  · simp only [Option.bind_eq_some] at h ⊢
    obtain ⟨p1, h1, p2, h2, h3⟩ := h
    cases h3
    have h4 : (p2.mustBe .T_OD).scanner_ ≠ [] := hq
    have hp2 : p2.scanner_ ≠ [] := (Reach.mustBe _ _).nonempty h4
    have hB := (statementList_reach h2).nonempty hp2
    have hp1 : p1.scanner_ ≠ [] := (Reach.mustBe p1.reserve.2 _).nonempty hB
    refine ⟨_, he.apply h1 hp1 rfl, _, hs.apply h2 hp2 (Parser.mustBe_extend p1.reserve.2 s _ hB),
      ?_⟩
    rw [Parser.mustBe_extend p2 s _ h4]
    rfl
  · simp only [Option.bind_eq_some] at h ⊢
    obtain ⟨p1, h1, h2⟩ := h
    cases h2
    have h4 : (p1.mustBe .T_RPAREN).scanner_ ≠ [] := hq
    have hp1 : p1.scanner_ ≠ [] := (Reach.mustBe _ _).nonempty h4
    have hB := (expression_reach h1).nonempty hp1
    refine ⟨_, he.apply h1 hp1 (Parser.mustBe_extend _ s _ hB), ?_⟩
    rw [Parser.mustBe_extend p1 s _ h4]
    rfl
  · cases h
    rfl

theorem statementListLoop_ext (n : Nat) (hs : Ext statement n)
    (hl : Ext statementListLoop n) : Ext statementListLoop (n + 1) := by
  intro p q s h hq
  rw [statementListLoop] at h ⊢
  simp only [Option.bind_eq_some] at h ⊢
  obtain ⟨p1, h1, h2⟩ := h
  split_ifs at h2 with hc
  · have h4 := (statementListLoop_reach h2).nonempty hq
    have hp1 : p1.scanner_ ≠ [] := (Reach.match_ p1 _).nonempty h4
    refine ⟨_, hs _ _ s h1 hp1, ?_⟩
    simp only [Parser.match_extend p1 s _ hp1]
    rw [if_pos hc]
    exact hl _ _ s h2 hq
  · cases h2
    have hp1 : p1.scanner_ ≠ [] := (Reach.match_ p1 _).nonempty hq
    refine ⟨_, hs _ _ s h1 hp1, ?_⟩
    simp only [Parser.match_extend p1 s _ hp1]
    rw [if_neg hc]

theorem statementList_ext (n : Nat) (hl : Ext statementListLoop n) :
    Ext statementList (n + 1) := by
  intro p q s h hq
  have hp := (statementList_reach h).nonempty hq
  rw [statementList] at h ⊢
  simp only [Parser.see_extend p s _ hp]
  split_ifs at h ⊢
  · cases h
    rfl
  · exact hl _ _ s h hq

theorem allExt (n : Nat) : AllExt n := by
  induction n with
  | zero =>
    refine ⟨?_, ?_, ?_, ?_, ?_, ?_, ?_, ?_, ?_, ?_, ?_, ?_, ?_, ?_, ?_, ?_, ?_, ?_, ?_, ?_⟩ <;>
      intro p q s h
    · simp [statementList] at h
    · simp [statementListLoop] at h
    · simp [statement] at h
    · simp [expression] at h
    · simp [expressionLoop] at h
    · simp [orExpression] at h
    · simp [orExpressionLoop] at h
    · simp [andExpression] at h
    · simp [andExpressionLoop] at h
    · simp [bitwiseOrExpression] at h
    · simp [bitwiseOrExpressionLoop] at h
    · simp [bitwiseAndExpression] at h
    · simp [bitwiseAndExpressionLoop] at h
    · simp [equalityExpression] at h
    · simp [equalityExpressionLoop] at h
    · simp [relationalExpression] at h
    · simp [relationalExpressionLoop] at h
    · simp [term] at h
    · simp [termLoop] at h
    · simp [factor] at h
  | succ n ih =>
    obtain ⟨h1, h2, h3, h4, h5, h6, h7, h8, h9, h10, h11, h12, h13, h14, h15, h16, h17, h18,
      h19, h20⟩ := ih
    exact ⟨statementList_ext n h2, statementListLoop_ext n h3 h2, statement_ext n h4 h1,
      expression_ext n h6 h5, expressionLoop_ext n h6 h5, orExpression_ext n h8 h7,
      orExpressionLoop_ext n h8 h7, andExpression_ext n h10 h9,
      andExpressionLoop_ext n h10 h9, bitwiseOrExpression_ext n h12 h11,
      bitwiseOrExpressionLoop_ext n h12 h11, bitwiseAndExpression_ext n h14 h13,
      bitwiseAndExpressionLoop_ext n h14 h13, equalityExpression_ext n h16 h15,
      equalityExpressionLoop_ext n h16 h15, relationalExpression_ext n h18 h17,
      relationalExpressionLoop_ext n h18 h17, term_ext n h20 h19, termLoop_ext n h20 h19,
      factor_ext n h20 h4⟩

/-- C20: when `parse` translates the lexemes `toks` with the error flag clear,
then for every `s` it translates `toks ++ s` to the same state, apart from the
lexemes `s` that are left unread: the error flag is clear, and the instruction
buffer, the variable table and the next free address are the same; `parse`
returns on `toks ++ s` at the call depth `parseFuel`, and at every depth at
which it returns the result is this one. -/
theorem trailing_lexemes_ignored (toks s : List Lexeme) (n : Nat) (r : Parser)
    (h : parse n (Parser.init toks) = some r) (he : r.error_ = false) :
    (∃ r1, parse (parseFuel (toks ++ s)) (Parser.init (toks ++ s)) = some r1) ∧
    ∀ m r1, parse m (Parser.init (toks ++ s)) = some r1 →
      r1 = r.extend s ∧ r1.error_ = false ∧ r1.code = r.code ∧
        r1.variables_ = r.variables_ ∧ r1.lastVar_ = r.lastVar_ ∧ r1.flushed = r.flushed := by
  have key : parse n (Parser.init (toks ++ s)) = some (r.extend s) := by
    simp only [parse, program, Option.bind_eq_some] at h ⊢
    obtain ⟨r0, ⟨p1, h1, h2⟩, h3⟩ := h
    cases h2
    cases h3
    have he0 : ((p1.mustBe .T_END).emit .STOP none).error_ = false := by
      cases hc : ((p1.mustBe .T_END).emit .STOP none).error_
      · rfl
      · rw [hc] at he
        exact hc.symm.trans he
    have hok := Parser.mustBe_ok p1 .T_END he0
    have hp1 : p1.scanner_ ≠ [] := by
      have := p1.length_pos_of_see _ hok.2 (by decide)
      intro e
      rw [e] at this
      exact Nat.lt_irrefl _ this
    have hp0 := (statementList_reach h1).nonempty hp1
    have e0 : (Parser.init (toks ++ s)).mustBe .T_BEGIN =
        ((Parser.init toks).mustBe .T_BEGIN).extend s :=
      Parser.mustBe_extend (Parser.init toks) s .T_BEGIN hp0
    have e1 : (p1.extend s).mustBe .T_END = (p1.mustBe .T_END).extend s := by
      rw [Parser.mustBe_of_see _ _ hok.2, Parser.mustBe_of_see _ _
        ((Parser.see_extend p1 s _ hp1).trans hok.2)]
      exact Parser.next_extend p1 s hp1
    refine ⟨_, ⟨_, (allExt n).1.apply h1 hp1 e0, rfl⟩, ?_⟩
    rw [e1]
    have e2 : (((p1.mustBe .T_END).extend s).emit .STOP none).error_ = false := he0
    rw [e2, he0]
    rfl
  refine ⟨parse_total _ _ (le_refl _), fun m r1 hm => ?_⟩
  have e := parse_deterministic hm key
  subst e
  exact ⟨rfl, he, rfl, rfl, rfl, rfl⟩

/-- C20 at `begin if read>0 then write(1) else write(0) fi end` followed by
`end 5 fi`. -/
theorem trailing_lexemes_ignored_witness :
    ∃ r, parse (parseFuel ifReadSample) (Parser.init ifReadSample) = some r ∧
      r.error_ = false ∧ r.code.length = 10 ∧
      ∀ m r1, parse m (Parser.init (ifReadSample ++ trailingSample)) = some r1 →
        r1 = r.extend trailingSample ∧ r1.error_ = false ∧ r1.code = r.code ∧
          r1.variables_ = r.variables_ ∧ r1.lastVar_ = r.lastVar_ ∧ r1.flushed = r.flushed :=
  have h : ∃ r, parse (parseFuel ifReadSample) (Parser.init ifReadSample) = some r ∧
      r.error_ = false ∧ r.code.length = 10 := by decide
  h.elim fun r hr => ⟨r, hr.1, hr.2.1, hr.2.2,
    (trailing_lexemes_ignored ifReadSample trailingSample _ r hr.1 hr.2.1).2⟩

/-! ## Expressions written without parentheses -/

theorem levelProduction_mono (k n : Nat) : Mono (levelProduction k) n := by
  unfold levelProduction
  split
  · exact (allMono n).2.2.2.1
  · exact (allMono n).2.2.2.2.2.1
  · exact (allMono n).2.2.2.2.2.2.2.1
  · exact (allMono n).2.2.2.2.2.2.2.2.2.1
  · exact (allMono n).2.2.2.2.2.2.2.2.2.2.2.1
  · exact (allMono n).2.2.2.2.2.2.2.2.2.2.2.2.2.1
  · exact (allMono n).2.2.2.2.2.2.2.2.2.2.2.2.2.2.2.1
  · exact (allMono n).2.2.2.2.2.2.2.2.2.2.2.2.2.2.2.2.2.1
  · exact (allMono n).2.2.2.2.2.2.2.2.2.2.2.2.2.2.2.2.2.2.2

theorem levelLoop_mono (k n : Nat) : Mono (levelLoop k) n := by
  unfold levelLoop
  split
  · exact (allMono n).2.2.2.2.1
  · exact (allMono n).2.2.2.2.2.2.1
  · exact (allMono n).2.2.2.2.2.2.2.2.1
  · exact (allMono n).2.2.2.2.2.2.2.2.2.2.1
  · exact (allMono n).2.2.2.2.2.2.2.2.2.2.2.2.1
  · exact (allMono n).2.2.2.2.2.2.2.2.2.2.2.2.2.2.1
  · exact (allMono n).2.2.2.2.2.2.2.2.2.2.2.2.2.2.2.2.1
  · exact (allMono n).2.2.2.2.2.2.2.2.2.2.2.2.2.2.2.2.2.2.1
  · exact fun p q h => h

theorem runs_unique {f : Nat → Parser → Option Parser} (hf : ∀ n, Mono f n) {n m : Nat}
    {p q r : Parser} (h1 : f n p = some q) (h2 : f m p = some r) : q = r := by
  have e1 := mono_le hf h1 (Nat.le_max_left n m)
  have e2 := mono_le hf h2 (Nat.le_max_right n m)
  rw [e1] at e2
  exact Option.some.inj e2

theorem runs_bind {f g h : Nat → Parser → Option Parser} (hf : ∀ n, Mono f n)
    (hg : ∀ n, Mono g n) (e : ∀ n p, h (n + 1) p = (f n p).bind (g n)) {p p1 q : Parser}
    (h1 : Runs f p p1) (h2 : Runs g p1 q) : Runs h p q := by
  obtain ⟨n1, h1⟩ := h1
  obtain ⟨n2, h2⟩ := h2
  refine ⟨max n1 n2 + 1, ?_⟩
  rw [e, mono_le hf h1 (Nat.le_max_left n1 n2)]
  exact mono_le hg h2 (Nat.le_max_right n1 n2)

/-- A level parses an operand of the next level and then runs its loop. -/
theorem levelProduction_runs (k : Nat) (hk : 1 ≤ k) {p p1 q : Parser}
    (h1 : Runs (levelProduction (k + 1)) p p1) (h2 : Runs (levelLoop k) p1 q) :
    Runs (levelProduction k) p q := by
  by_cases h8 : k ≤ 8
  · refine runs_bind (levelProduction_mono _) (levelLoop_mono _) (fun n p => ?_) h1 h2
    interval_cases k
    · simp only [levelProduction, levelLoop, expression]
    · simp only [levelProduction, levelLoop, orExpression]
    · simp only [levelProduction, levelLoop, andExpression]
    · simp only [levelProduction, levelLoop, bitwiseOrExpression]
    · simp only [levelProduction, levelLoop, bitwiseAndExpression]
    · simp only [levelProduction, levelLoop, equalityExpression]
    · simp only [levelProduction, levelLoop, relationalExpression]
    · simp only [levelProduction, levelLoop, term]
  · have e1 : levelProduction (k + 1) = factor := by
      unfold levelProduction
      split <;> first | rfl | omega
    have e2 : levelProduction k = factor := by
      unfold levelProduction
      split <;> first | rfl | omega
    have e3 : levelLoop k = fun _ p => some p := by
      unfold levelLoop
      split <;> first | rfl | omega
    rw [e1] at h1
    rw [e3] at h2
    rw [e2]
    obtain ⟨n2, h2⟩ := h2
    cases h2
    exact h1

theorem levelLoop_exit (k n : Nat) (p : Parser) (h : p.lexeme.level ≠ k) :
    levelLoop k (n + 1) p = some p := by
  unfold levelLoop
  unfold Lexeme.level at h
  split
  · refine expressionLoop_exit n p ?_
    simp only [Parser.see, Parser.token, decide_eq_false_iff_not]
    intro e
    simp [e] at h
  · refine orExpressionLoop_exit n p ?_
    simp only [Parser.see, Parser.token, decide_eq_false_iff_not]
    intro e
    simp [e] at h
  · refine andExpressionLoop_exit n p ?_
    simp only [Parser.see, Parser.token, decide_eq_false_iff_not]
    intro e
    simp [e] at h
  · refine bitwiseOrExpressionLoop_exit n p ?_
    simp only [Parser.see, Parser.token, decide_eq_false_iff_not]
    intro e
    simp [e] at h
  · by_cases hc : p.see .T_CMP = true
    · have e : p.lexeme.token = .T_CMP := by
        simpa [Parser.see, Parser.token] using hc
      simp only [e] at h
      have h5 : ¬ (p.lexeme.cmpValue = .C_EQ ∨ p.lexeme.cmpValue = .C_NE) := by
        intro c
        simp [c] at h
      simp [bitwiseAndExpressionLoop, hc, h5]
    · exact bitwiseAndExpressionLoop_exit n p (by simpa using hc)
  · by_cases hc : p.see .T_CMP = true
    · have e : p.lexeme.token = .T_CMP := by
        simpa [Parser.see, Parser.token] using hc
      simp only [e] at h
      have h5 : p.lexeme.cmpValue = .C_EQ ∨ p.lexeme.cmpValue = .C_NE := by
        by_contra c
        simp [c] at h
      have h6 : ¬ (p.lexeme.cmpValue = .C_LT ∨ p.lexeme.cmpValue = .C_LE ∨
          p.lexeme.cmpValue = .C_GT ∨ p.lexeme.cmpValue = .C_GE) := by
        rcases h5 with c | c <;> simp [c]
      simp [equalityExpressionLoop, hc, h6]
    · exact equalityExpressionLoop_exit n p (by simpa using hc)
  · refine relationalExpressionLoop_exit n p ?_
    simp only [Parser.see, Parser.token, decide_eq_false_iff_not]
    intro e
    simp [e] at h
  · refine termLoop_exit n p ?_
    simp only [Parser.see, Parser.token, decide_eq_false_iff_not]
    intro e
    simp [e] at h
  · rfl

theorem levelLoop_step (op : BinOp) (n : Nat) (p : Parser) (s : List Lexeme)
    (hs : p.scanner_ = op.lexeme :: s) :
    levelLoop op.level (n + 1) p =
      (levelProduction (op.level + 1) n (op.pre p)).bind fun p3 =>
        levelLoop op.level n (op.post p p3) := by
  have hl : p.lexeme = op.lexeme := by simp [Parser.lexeme, hs]
  cases op <;>
    simp [levelLoop, levelProduction, BinOp.level, BinOp.pre, BinOp.post, BinOp.command,
      expressionLoop, orExpressionLoop, andExpressionLoop, bitwiseOrExpressionLoop,
      bitwiseAndExpressionLoop, equalityExpressionLoop, relationalExpressionLoop, termLoop,
      Parser.see, Parser.token, hl, BinOp.lexeme, Lexeme.kw, Lexeme.cmp, Lexeme.addop,
      Lexeme.mulop]

theorem levelLoop_runs (op : BinOp) {p p3 q : Parser} (s : List Lexeme)
    (hs : p.scanner_ = op.lexeme :: s) (h1 : Runs (levelProduction (op.level + 1)) (op.pre p) p3)
    (h2 : Runs (levelLoop op.level) (op.post p p3) q) : Runs (levelLoop op.level) p q := by
  obtain ⟨n1, h1⟩ := h1
  obtain ⟨n2, h2⟩ := h2
  refine ⟨max n1 n2 + 1, ?_⟩
  rw [levelLoop_step op _ p s hs, mono_le (levelProduction_mono _) h1 (Nat.le_max_left n1 n2)]
  exact mono_le (levelLoop_mono _) h2 (Nat.le_max_right n1 n2)

theorem BinOp.preCode_length (op : BinOp) : op.preCode.length = op.gap := by
  cases op <;> rfl

theorem BinOp.pre_facts (op : BinOp) (p : Parser) :
    (op.pre p).scanner_ = p.scanner_.tail ∧ (op.pre p).code = p.code ++ op.preCode ∧
      (op.pre p).error_ = p.error_ ∧ (op.pre p).variables_ = p.variables_ := by
  cases op <;>
    simp [BinOp.pre, BinOp.preCode, Parser.next, Parser.reserve, Parser.emit]

theorem set_set_length_append4 {α : Type} (l1 l2 : List α) (x y a b c d : α) :
    ((l1 ++ x :: y :: a :: b :: l2).set (l1.length + 1 + 1) c).set (l1.length + 1 + 1 + 1) d =
      l1 ++ x :: y :: c :: d :: l2 := by
  induction l1 with
  | nil => rfl
  | cons z zs ih => simp [ih]

theorem BinOp.post_facts (op : BinOp) (p p3 : Parser) (cr : List Command)
    (h : p3.code = (op.pre p).code ++ cr) :
    (op.post p p3).scanner_ = p3.scanner_ ∧
      (op.post p p3).code = p.code ++ op.wrap p.code.length cr ∧
      (op.post p p3).error_ = p3.error_ ∧ (op.post p p3).variables_ = p3.variables_ := by
  rw [(op.pre_facts p).2.1] at h
  cases op
  case lor =>
    refine ⟨rfl, ?_, rfl, rfl⟩
    simp only [BinOp.post, BinOp.wrap, BinOp.preCode, Parser.emit, Parser.emitAt, Parser.reserve,
      Parser.getCurrentAddress, List.length_append, List.length_singleton, List.length_set] at h ⊢
    rw [h]
    simp only [List.append_assoc, List.cons_append, List.nil_append, List.length_append,
      List.length_cons, List.length_nil]
    rw [set_set_length_append]
    simp only [List.append_assoc, List.cons_append, List.nil_append, Nat.add_assoc]
    rw [show p.code.length + (cr.length + (1 + (1 + 1))) = p.code.length + (2 + (cr.length + 1))
      by omega]
  case land =>
    refine ⟨rfl, ?_, rfl, rfl⟩
    simp only [BinOp.post, BinOp.wrap, BinOp.preCode, Parser.emit, Parser.emitAt, Parser.reserve,
      Parser.getCurrentAddress, List.length_append, List.length_singleton, List.length_set] at h ⊢
    rw [h]
    simp only [List.append_assoc, List.cons_append, List.nil_append, List.length_append,
      List.length_cons, List.length_nil]
    rw [set_set_length_append4]
    simp only [List.append_assoc, List.cons_append, List.nil_append, Nat.add_assoc]
    rw [show p.code.length + (cr.length + (1 + (1 + (1 + (1 + (1 + (1 + 1))))))) =
      p.code.length + (4 + (cr.length + 3)) by omega]
  all_goals
    refine ⟨rfl, ?_, rfl, rfl⟩
    simp only [BinOp.preCode, List.append_nil] at h
    simp only [BinOp.post, BinOp.wrap, BinOp.command, Parser.emit, h, List.append_assoc]

theorem Parser.findOrAddVariable_error (p : Parser) (x : String) :
    (p.findOrAddVariable x).2.error_ = p.error_ ∧ (p.findOrAddVariable x).2.code = p.code := by
  unfold Parser.findOrAddVariable
  split <;> exact ⟨rfl, rfl⟩

/-- What `factor` does with an operand. -/
theorem factor_atom (n : Nat) (p : Parser) (a : Operand) (rest : List Lexeme)
    (hs : p.scanner_ = a.lexeme :: rest) :
    ∃ q, factor (n + 1) p = some q ∧ Parsed (.atom a) rest p q := by
  cases a with
  | lit w =>
    have h1 : p.see .T_NUMBER = true := by
      rw [see_of_scanner p _ _ _ hs]
      rfl
    refine ⟨p.next.emit .PUSH (some p.lexeme.intValue), ?_, ?_, ?_, rfl, fun y k h => h, ?_⟩
    · simp only [factor, h1, if_true]
    · simp [Parser.next, Parser.emit, hs]
    · simp [Parser.next, Parser.emit, Parser.lexeme, hs, Operand.lexeme, Lexeme.num, Expr.code,
        Operand.code]
    · intro x hx
      simp [Expr.names, Operand.names] at hx
  | var x =>
    have h1 : p.see .T_NUMBER = false := by
      rw [see_of_scanner p _ _ _ hs]
      rfl
    have h2 : p.see .T_IDENTIFIER = true := by
      rw [see_of_scanner p _ _ _ hs]
      rfl
    have h3 : p.lexeme.stringValue = x := by
      simp [Parser.lexeme, hs, Operand.lexeme, Lexeme.ident]
    have h4 := findOrAddVariable_lookup_self p x
    refine ⟨(p.findOrAddVariable x).2.next.emit .LOAD (some ((p.findOrAddVariable x).1 : Int)),
      ?_, ?_, ?_, ?_, ?_, ?_⟩
    · simp [factor, h1, h2, h3]
    · simp [Parser.next, Parser.emit, hs]
    · have h5 : ((p.findOrAddVariable x).2.next.emit .LOAD
          (some ((p.findOrAddVariable x).1 : Int))).variables_ =
          (p.findOrAddVariable x).2.variables_ := rfl
      simp only [Expr.code, Operand.code, h5, h4, Option.getD_some]
      simp [Parser.next, Parser.emit, (Parser.findOrAddVariable_error p x).2]
    · exact (Parser.findOrAddVariable_error p x).1
    · exact fun y k h => findOrAddVariable_lookup p x y k h
    · intro y hy
      simp only [Expr.names, Operand.names, List.mem_singleton] at hy
      subst hy
      exact ⟨_, h4⟩

theorem Expr.code_congr (vars vars1 : List (String × Nat)) (e : Expr) :
    (∀ x ∈ e.names, vars.lookup x = vars1.lookup x) →
      ∀ base, e.code vars base = e.code vars1 base := by
  induction e with
  | atom a =>
    intro h base
    cases a with
    | lit w => rfl
    | var x =>
      have := h x (by simp [Expr.names, Operand.names])
      simp [Expr.code, Operand.code, this]
  | bin op l r ihl ihr =>
    intro h base
    have hl := ihl fun x hx => h x (by simp [Expr.names, hx])
    have hr := ihr fun x hx => h x (by simp [Expr.names, hx])
    simp only [Expr.code, hl, hr]

theorem TailFrom.exit (k : Nat) (q : Parser) :
    ∀ d, (∀ j, k ≤ j → j < k + d → q.lexeme.level ≠ j) → TailFrom k d q q
  | 0, _ => rfl
  | d + 1, h =>
    ⟨q, ⟨1, levelLoop_exit (k + d) 0 q (h (k + d) (by omega) (by omega))⟩,
      TailFrom.exit k q d fun j h1 h2 => h j h1 (by omega)⟩

theorem TailFrom.skip (k d : Nat) {q r : Parser} (h : TailFrom k d q r) :
    ∀ d1, (∀ j, k + d ≤ j → j < k + d + d1 → q.lexeme.level ≠ j) → TailFrom k (d + d1) q r
  | 0, _ => h
  | d1 + 1, hs =>
    ⟨q, ⟨1, levelLoop_exit (k + (d + d1)) 0 q (hs _ (by omega) (by omega))⟩,
      TailFrom.skip k d h d1 fun j h1 h2 => hs j h1 (by omega)⟩

theorem TailFrom.descend (k : Nat) (hk : 1 ≤ k) {p r : Parser} :
    ∀ d q, Runs (levelProduction (k + d)) p q → TailFrom k d q r → Runs (levelProduction k) p r
  | 0, q, h1, h2 => by
    cases h2
    exact h1
  | d + 1, q, h1, h2 => by
    obtain ⟨q1, hl, ht⟩ := h2
    exact TailFrom.descend k hk d q1 (levelProduction_runs (k + d) (by omega) h1 hl) ht

theorem BinOp.lexeme_level (op : BinOp) : op.lexeme.level = op.level := by
  cases op <;> simp [BinOp.lexeme, Lexeme.level, BinOp.level, Lexeme.kw, Lexeme.cmp, Lexeme.addop,
    Lexeme.mulop]

theorem BinOp.level_le (op : BinOp) : 1 ≤ op.level ∧ op.level ≤ 8 := by
  cases op <;> simp [BinOp.level]

/-- Reading an expression: after it, the loops from its own level down to the
level of the production that was entered are still to run. -/
theorem Expr.parsed_tail (e : Expr) :
    e.Fits → ∀ (k : Nat) (p : Parser) (rest : List Lexeme), 1 ≤ k → k ≤ e.level →
      p.scanner_ = e.lexemes ++ rest → (rest.headD Lexeme.eof).level ≤ e.level →
      ∃ q, Parsed e rest p q ∧
        ∀ r, TailFrom k (e.level + 1 - k) q r → Runs (levelProduction k) p r := by
  induction e with
  | atom a =>
    intro _ k p rest hk1 hk hs _
    obtain ⟨q, hq, hP⟩ := factor_atom 0 p a rest hs
    refine ⟨q, hP, fun r ht => ?_⟩
    simp only [Expr.level] at hk ht
    refine TailFrom.descend k hk1 (9 + 1 - k) q ?_ ht
    have e : k + (9 + 1 - k) = 10 := by omega
    rw [e]
    exact ⟨1, hq⟩
  | bin op l r ihl ihr =>
    intro hf k p rest hk1 hk hs hrest
    obtain ⟨h1, h2, hfl, hfr⟩ := hf
    simp only [Expr.level] at hk hrest
    have hs1 : p.scanner_ = l.lexemes ++ (op.lexeme :: (r.lexemes ++ rest)) := by
      simp [hs, Expr.lexemes]
    obtain ⟨ql, hPl, hTl⟩ := ihl hfl k p _ hk1 (le_trans hk h1) hs1 (by
      rw [List.headD_cons, op.lexeme_level]
      exact h1)
    have hpre := op.pre_facts ql
    have hs2 : (op.pre ql).scanner_ = r.lexemes ++ rest := by
      rw [hpre.1, hPl.1]
      rfl
    obtain ⟨qr, hPr, hTr⟩ := ihr hfr (op.level + 1) (op.pre ql) rest (by omega) h2 hs2
      (le_trans hrest (le_of_lt h2))
    have hqr : qr.lexeme = rest.headD Lexeme.eof := by
      unfold Parser.lexeme
      rw [hPr.1]
    have hrun : Runs (levelProduction (op.level + 1)) (op.pre ql) qr :=
      hTr qr (TailFrom.exit _ _ _ fun j hj1 _ => by
        rw [hqr]
        omega)
    have hpost := op.post_facts ql qr _ hPr.2.1
    have hcl : l.code ql.variables_ p.code.length = l.code qr.variables_ p.code.length := by
      refine Expr.code_congr _ _ l (fun x hx => ?_) _
      obtain ⟨a, ha⟩ := hPl.2.2.2.2 x hx
      rw [ha, hPr.2.2.2.1 x a (by rw [hpre.2.2.2]; exact ha)]
    have hql : ql.lexeme = op.lexeme := by
      unfold Parser.lexeme
      rw [hPl.1]
      rfl
    refine ⟨op.post ql qr, ⟨?_, ?_, ?_, ?_, ?_⟩, fun r1 ht => ?_⟩
    · rw [hpost.1, hPr.1]
    · rw [hpost.2.1, hpost.2.2.2, hPl.2.1, hpre.2.1, hPl.2.1, hcl]
      simp only [Expr.code, List.length_append, op.preCode_length, List.append_assoc,
        Nat.add_assoc]
    · rw [hpost.2.2.1, hPr.2.2.1, hpre.2.2.1, hPl.2.2.1]
    · intro y a hy
      rw [hpost.2.2.2]
      exact hPr.2.2.2.1 y a (by rw [hpre.2.2.2]; exact hPl.2.2.2.1 y a hy)
    · intro x hx
      rw [hpost.2.2.2]
      simp only [Expr.names, List.mem_append] at hx
      rcases hx with hx | hx
      · obtain ⟨a, ha⟩ := hPl.2.2.2.2 x hx
        exact ⟨a, hPr.2.2.2.1 x a (by rw [hpre.2.2.2]; exact ha)⟩
      · exact hPr.2.2.2.2 x hx
    · obtain ⟨d, hd⟩ : ∃ d, op.level = k + d := ⟨op.level - k, by omega⟩
      have e1 : (Expr.bin op l r).level + 1 - k = d + 1 := by
        simp only [Expr.level]
        omega
      rw [e1] at ht
      obtain ⟨q1, hloop, ht1⟩ := ht
      rw [← hd] at hloop
      have hl1 : Runs (levelLoop op.level) ql q1 := levelLoop_runs op _ hPl.1 hrun hloop
      have ht2 : TailFrom k (d + 1) ql r1 := ⟨q1, by rw [← hd]; exact hl1, ht1⟩
      have ht3 := TailFrom.skip k (d + 1) ht2 (l.level - op.level) (fun j hj1 _ => by
        rw [hql, op.lexeme_level]
        omega)
      have e2 : d + 1 + (l.level - op.level) = l.level + 1 - k := by omega
      rw [e2] at ht3
      exact hTl r1 ht3

/-- The production of level `k` reads an expression of level `k` or higher that
is not followed by an operator of level `k` or higher. -/
theorem Expr.parsed (e : Expr) (hf : e.Fits) (k : Nat) (p : Parser) (rest : List Lexeme)
    (hk1 : 1 ≤ k) (hk : k ≤ e.level) (hs : p.scanner_ = e.lexemes ++ rest)
    (hr : (rest.headD Lexeme.eof).level < k) :
    ∃ q, Runs (levelProduction k) p q ∧ Parsed e rest p q := by
  obtain ⟨q, hP, hT⟩ := e.parsed_tail hf k p rest hk1 hk hs (by omega)
  refine ⟨q, hT q (TailFrom.exit _ _ _ fun j hj1 _ => ?_), hP⟩
  unfold Parser.lexeme
  rw [hP.1]
  omega

theorem total_of_runs {f : Nat → Parser → Option Parser} (hf : ∀ n, Mono f n) {n : Nat}
    {p q : Parser} (ht : ∃ r, f n p = some r) (h : Runs f p q) : f n p = some q := by
  obtain ⟨r, hr⟩ := ht
  obtain ⟨m, hm⟩ := h
  rw [hr, runs_unique hf hr hm]

theorem expression_of_runs {p q : Parser} (h : Runs expression p q) :
    expression (10 * p.scanner_.length + 9) p = some q :=
  total_of_runs (fun k => (allMono k).2.2.2.1) ((allTotal _).2.2.2.1 p (le_refl _)) h

/-- An expression that is followed by no binary operator is what `expression`
reads. -/
theorem Expr.expression_parsed (e : Expr) (hf : e.Fits) (p : Parser) (rest : List Lexeme)
    (hs : p.scanner_ = e.lexemes ++ rest) (hr : (rest.headD Lexeme.eof).level = 0) :
    ∃ q, expression (10 * p.scanner_.length + 9) p = some q ∧ Parsed e rest p q := by
  have h1 : 1 ≤ e.level := by
    cases e with
    | atom a => simp [Expr.level]
    | bin op l r => exact op.level_le.1
  obtain ⟨q, hq, hP⟩ := e.parsed hf 1 p rest (le_refl _) h1 hs (by omega)
  exact ⟨q, expression_of_runs hq, hP⟩

/-! ## Precedence -/

/-- C16: the levels of `BinOp.level`, from `||` (1) to `*`, `/` (8), are the
precedence of the parser.  For every expression tree in which each operator has
a left operand of the same or a higher level and a right operand of a higher
level, `expression` reads the lexemes of the tree written without parentheses
(when no binary operator follows) and emits the code of the tree, in which the
code of an operand, with its operator, stands before the instruction of the
operator above it.  In particular for integer literals `a`, `b`, `c`: in
`a o1 b o2 c` the operator `o2` is applied to `b` and `c` first when its level
is higher than that of `o1`, and `o1` is applied to `a` and `b` first
otherwise. -/
theorem precedence_levels :
    (∀ (e : Expr) (p : Parser) (rest : List Lexeme), e.Fits →
      p.scanner_ = e.lexemes ++ rest → (rest.headD Lexeme.eof).level = 0 →
      ∃ q, expression (10 * p.scanner_.length + 9) p = some q ∧ q.scanner_ = rest ∧
        q.error_ = p.error_ ∧ q.code = p.code ++ e.code q.variables_ p.code.length) ∧
    (∀ (a b c : Int) (o1 o2 : BinOp) (p : Parser) (rest : List Lexeme),
      p.scanner_ = [.num a, o1.lexeme, .num b, o2.lexeme, .num c] ++ rest →
      (rest.headD Lexeme.eof).level = 0 →
      ∃ q, expression (10 * p.scanner_.length + 9) p = some q ∧ q.scanner_ = rest ∧
        q.error_ = p.error_ ∧
        q.code = p.code ++
          if o1.level < o2.level then
            (Expr.bin o1 (.atom (.lit a)) (.bin o2 (.atom (.lit b)) (.atom (.lit c)))).code
              q.variables_ p.code.length
          else
            (Expr.bin o2 (.bin o1 (.atom (.lit a)) (.atom (.lit b))) (.atom (.lit c))).code
              q.variables_ p.code.length) ∧
    (∀ (a b c : Int) (o1 o2 : BinOp) (vars : List (String × Nat)) (base : Nat),
      2 < o1.level → 2 < o2.level →
      (Expr.bin o1 (.atom (.lit a)) (.bin o2 (.atom (.lit b)) (.atom (.lit c)))).code vars base =
        [⟨.PUSH, some a⟩, ⟨.PUSH, some b⟩, ⟨.PUSH, some c⟩, o2.command, o1.command] ∧
      (Expr.bin o2 (.bin o1 (.atom (.lit a)) (.atom (.lit b))) (.atom (.lit c))).code vars base =
        [⟨.PUSH, some a⟩, ⟨.PUSH, some b⟩, o1.command, ⟨.PUSH, some c⟩, o2.command]) := by
  refine ⟨fun e p rest hf hs hr => ?_, fun a b c o1 o2 p rest hs hr => ?_,
    fun a b c o1 o2 vars base h1 h2 => ?_⟩
  · obtain ⟨q, hq, hP⟩ := e.expression_parsed hf p rest hs hr
    exact ⟨q, hq, hP.1, hP.2.2.1, hP.2.1⟩
  · by_cases hl : o1.level < o2.level
    · simp only [if_pos hl]
      obtain ⟨q, hq, hP⟩ := Expr.expression_parsed
        (.bin o1 (.atom (.lit a)) (.bin o2 (.atom (.lit b)) (.atom (.lit c))))
        ⟨o1.level_le.2.trans (Nat.le_succ 8), hl, trivial, o2.level_le.2.trans (Nat.le_succ 8),
          Nat.lt_succ_of_le o2.level_le.2, trivial, trivial⟩ p rest hs hr
      exact ⟨q, hq, hP.1, hP.2.2.1, hP.2.1⟩
    · simp only [if_neg hl]
      obtain ⟨q, hq, hP⟩ := Expr.expression_parsed
        (.bin o2 (.bin o1 (.atom (.lit a)) (.atom (.lit b))) (.atom (.lit c)))
        ⟨Nat.le_of_not_lt hl, Nat.lt_succ_of_le o2.level_le.2,
          ⟨o1.level_le.2.trans (Nat.le_succ 8), Nat.lt_succ_of_le o1.level_le.2, trivial, trivial⟩,
          trivial⟩ p rest (by simpa [Expr.lexemes] using hs) hr
      exact ⟨q, hq, hP.1, hP.2.2.1, hP.2.1⟩
  · cases o1 <;> cases o2 <;> first
      | exact absurd h1 (by decide)
      | exact absurd h2 (by decide)
      | exact ⟨rfl, rfl⟩

/-- C16 at `1 | 2 & 3 = 4 < 5 + 6 * 7`: the seven `PUSH` are followed by `MULT`,
`ADD`, `COMPARE <`, `COMPARE =`, `AND`, `OR`. -/
theorem precedence_levels_witness :
    precedenceSample.Fits ∧
    precedenceSample.lexemes = [.num 1, .kw .T_BITWISEOROP, .num 2, .kw .T_BITWISEANDOP, .num 3,
      .cmp .C_EQ, .num 4, .cmp .C_LT, .num 5, .addop .A_PLUS, .num 6, .mulop .A_MULTIPLY,
      .num 7] ∧
    precedenceSample.code [] 0 = [⟨.PUSH, some 1⟩, ⟨.PUSH, some 2⟩, ⟨.PUSH, some 3⟩,
      ⟨.PUSH, some 4⟩, ⟨.PUSH, some 5⟩, ⟨.PUSH, some 6⟩, ⟨.PUSH, some 7⟩, ⟨.MULT, none⟩,
      ⟨.ADD, none⟩, ⟨.COMPARE, some Cmp.C_LT.toInt⟩, ⟨.COMPARE, some Cmp.C_EQ.toInt⟩,
      ⟨.AND, none⟩, ⟨.OR, none⟩] ∧
    (∃ q, expression 139 (Parser.init precedenceSample.lexemes) = some q ∧
      q.code = [⟨.PUSH, some 1⟩, ⟨.PUSH, some 2⟩, ⟨.PUSH, some 3⟩,
        ⟨.PUSH, some 4⟩, ⟨.PUSH, some 5⟩, ⟨.PUSH, some 6⟩, ⟨.PUSH, some 7⟩, ⟨.MULT, none⟩,
        ⟨.ADD, none⟩, ⟨.COMPARE, some Cmp.C_LT.toInt⟩, ⟨.COMPARE, some Cmp.C_EQ.toInt⟩,
        ⟨.AND, none⟩, ⟨.OR, none⟩]) ∧
    ∃ q, expression (10 * (Parser.init (precedenceSample.lexemes ++ [])).scanner_.length + 9)
        (Parser.init (precedenceSample.lexemes ++ [])) = some q ∧
      q.scanner_ = [] ∧ q.error_ = (Parser.init (precedenceSample.lexemes ++ [])).error_ ∧
      q.code = (Parser.init (precedenceSample.lexemes ++ [])).code ++
        precedenceSample.code q.variables_
          (Parser.init (precedenceSample.lexemes ++ [])).code.length :=
  ⟨by decide, rfl, rfl, by decide,
    precedence_levels.1 precedenceSample (Parser.init (precedenceSample.lexemes ++ [])) []
      (by decide) rfl rfl⟩

/-! ## Chains of one level -/

theorem chain_fold (m : Nat) (hm : m ≤ 8) (hg : 2 < m) (vars : List (String × Nat)) (base : Nat) :
    ∀ (ops : List (BinOp × Operand)) (e0 : Expr), (∀ o ∈ ops, o.1.level = m) → e0.Fits →
      m ≤ e0.level →
      (ops.foldl (fun acc o => Expr.bin o.1 acc (.atom o.2)) e0).Fits ∧
      m ≤ (ops.foldl (fun acc o => Expr.bin o.1 acc (.atom o.2)) e0).level ∧
      (ops.foldl (fun acc o => Expr.bin o.1 acc (.atom o.2)) e0).lexemes =
        e0.lexemes ++ ops.flatMap (fun o => [o.1.lexeme, o.2.lexeme]) ∧
      (ops.foldl (fun acc o => Expr.bin o.1 acc (.atom o.2)) e0).code vars base =
        e0.code vars base ++ ops.flatMap (fun o => [o.2.code vars, o.1.command])
  | [], e0, _, hf, hl => ⟨hf, hl, by simp, by simp⟩
  | o :: ops, e0, ho, hf, hl => by
    have h1 : o.1.level = m := ho o (List.mem_cons_self _ _)
    have h2 := chain_fold m hm hg vars base ops (.bin o.1 e0 (.atom o.2))
      (fun x hx => ho x (List.mem_cons_of_mem _ hx))
      ⟨by rw [h1]; exact hl, by rw [h1]; exact Nat.lt_succ_of_le hm, hf, trivial⟩
      (by simp only [Expr.level]; omega)
    refine ⟨h2.1, h2.2.1, ?_, ?_⟩
    · rw [List.foldl_cons, h2.2.2.1]
      simp [Expr.lexemes]
    · rw [List.foldl_cons, h2.2.2.2]
      have hw : ∀ (addr : Nat) (cr : List Command), o.1.wrap addr cr = cr ++ [o.1.command] := by
        intro addr cr
        cases h : o.1 <;> first
          | rfl
          | (rw [h] at h1; simp only [BinOp.level] at h1; omega)
      simp [Expr.code, hw]

/-- C17: additive and multiplicative chains are folded from the left.  For
operands `f1`, ..., `fn` (literals or variables) and operators that are all `+`
or `-`, or all `*` or `/`, `expression` reads `f1 o1 f2 o2 ... fn` (when no
binary operator follows) and emits the code of `f1`, then the code of `f2` and
the instruction of `o1`, ..., then the code of `fn` and the instruction of the
last operator; the error flag is unchanged. -/
theorem chains_fold_left (f1 : Operand) (ops : List (BinOp × Operand)) (p : Parser)
    (rest : List Lexeme)
    (hops : (∀ o ∈ ops, o.1 = .add ∨ o.1 = .sub) ∨ (∀ o ∈ ops, o.1 = .mul ∨ o.1 = .div))
    (hs : p.scanner_ = chainLexemes f1 ops ++ rest) (hr : (rest.headD Lexeme.eof).level = 0) :
    ∃ q, expression (10 * p.scanner_.length + 9) p = some q ∧ q.scanner_ = rest ∧
      q.error_ = p.error_ ∧ q.code = p.code ++ chainCode q.variables_ f1 ops := by
  have key : ∃ m, m ≤ 8 ∧ 2 < m ∧ ∀ o ∈ ops, o.1.level = m := by
    rcases hops with h | h
    · exact ⟨7, by decide, by decide, fun o ho => by rcases h o ho with e | e <;> rw [e] <;> rfl⟩
    · exact ⟨8, by decide, by decide, fun o ho => by rcases h o ho with e | e <;> rw [e] <;> rfl⟩
  obtain ⟨m, hm, hg, hl⟩ := key
  have hc := fun vars base =>
    chain_fold m hm hg vars base ops (.atom f1) hl trivial (by simp only [Expr.level]; omega)
  obtain ⟨q, hq, hP⟩ := (chainExpr f1 ops).expression_parsed (hc [] 0).1 p rest
    (by rw [hs, chainExpr, (hc [] 0).2.2.1]; rfl) hr
  refine ⟨q, hq, hP.1, hP.2.2.1, ?_⟩
  rw [hP.2.1, chainExpr, (hc _ _).2.2.2]
  rfl

/-- C17 at `8-3-2`: the code is `PUSH 8`, `PUSH 3`, `SUB`, `PUSH 2`, `SUB`. -/
theorem chains_fold_left_witness :
    chainLexemes (.lit 8) [(.sub, .lit 3), (.sub, .lit 2)] ++ [] = subtractSample.scanner_ ∧
    ∃ q, expression (10 * subtractSample.scanner_.length + 9) subtractSample = some q ∧
      q.scanner_ = [] ∧ q.error_ = subtractSample.error_ ∧
      q.code = subtractSample.code ++
        chainCode q.variables_ (.lit 8) [(.sub, .lit 3), (.sub, .lit 2)] ∧
      q.code = [⟨.PUSH, some 8⟩, ⟨.PUSH, some 3⟩, ⟨.SUB, none⟩, ⟨.PUSH, some 2⟩, ⟨.SUB, none⟩] :=
  ⟨rfl,
    (chains_fold_left (.lit 8) [(.sub, .lit 3), (.sub, .lit 2)] subtractSample []
      (Or.inl (by decide)) rfl rfl).elim
      fun q hq => ⟨q, hq.1, hq.2.1, hq.2.2.1, hq.2.2.2, hq.2.2.2.trans rfl⟩⟩

/-! ## Chained comparisons -/

theorem BinOp.wrap_plain (op : BinOp) (h : 2 < op.level) (addr : Nat) (cr : List Command) :
    op.wrap addr cr = cr ++ [op.command] ∧ op.gap = 0 := by
  cases op <;> first
    | exact ⟨rfl, rfl⟩
    | (simp only [BinOp.level] at h; omega)

theorem compare_chain_code (x y z : Operand) (c1 c2 : BinOp) (h1 : 2 < c1.level)
    (h2 : 2 < c2.level) (vars : List (String × Nat)) (base : Nat) :
    (Expr.bin c2 (.bin c1 (.atom x) (.atom y)) (.atom z)).code vars base =
      [x.code vars, y.code vars, c1.command, z.code vars, c2.command] := by
  simp [Expr.code, c1.wrap_plain h1, c2.wrap_plain h2]

/-- C13 refuted as worded: on the lexemes of `begin write(1<2<3) end` the pass
ends with the error flag clear and the code flushed; the second `<` is
consumed and a second `COMPARE <` is emitted. -/
theorem comparison_chains_counterexample :
    ∃ r, parse (parseFuel compareChainSample) (Parser.init compareChainSample) = some r ∧
      r.error_ = false ∧ r.flushed = true ∧ r.diagnostics = [] ∧
      r.code = [⟨.PUSH, some 1⟩, ⟨.PUSH, some 2⟩, ⟨.COMPARE, some Cmp.C_LT.toInt⟩,
        ⟨.PUSH, some 3⟩, ⟨.COMPARE, some Cmp.C_LT.toInt⟩, ⟨.PRINT, none⟩, ⟨.STOP, none⟩] := by
  decide

/-- C13 amended: the relational level and the equality level chain like the
other levels.  For operands `x`, `y`, `z` (literals or variables) and two
relational operators (level 6: `<`, `≤`, `>`, `≥`), `equalityExpression` itself
reads all of `x c1 y c2 z` and emits the code of `x`, the code of `y`, the
`COMPARE` of `c1`, the code of `z`, the `COMPARE` of `c2`, grouping from the
left, without touching the error flag; likewise `bitwiseAndExpression` for two
equality operators (level 5: `=`, `≠`); and so does `expression` in both
cases. -/
theorem comparison_chains (x y z : Operand) (c1 c2 : BinOp) (p : Parser) (rest : List Lexeme)
    (hs : p.scanner_ = [x.lexeme, c1.lexeme, y.lexeme, c2.lexeme, z.lexeme] ++ rest) :
    (c1.level = 6 → c2.level = 6 → (rest.headD Lexeme.eof).level < 6 →
      ∃ q, equalityExpression (10 * p.scanner_.length + 4) p = some q ∧ q.scanner_ = rest ∧
        q.error_ = p.error_ ∧
        q.code = p.code ++ [x.code q.variables_, y.code q.variables_, c1.command,
          z.code q.variables_, c2.command]) ∧
    (c1.level = 5 → c2.level = 5 → (rest.headD Lexeme.eof).level < 5 →
      ∃ q, bitwiseAndExpression (10 * p.scanner_.length + 5) p = some q ∧ q.scanner_ = rest ∧
        q.error_ = p.error_ ∧
        q.code = p.code ++ [x.code q.variables_, y.code q.variables_, c1.command,
          z.code q.variables_, c2.command]) ∧
    ((c1.level = 6 ∧ c2.level = 6) ∨ (c1.level = 5 ∧ c2.level = 5) →
      (rest.headD Lexeme.eof).level = 0 →
      ∃ q, expression (10 * p.scanner_.length + 9) p = some q ∧ q.scanner_ = rest ∧
        q.error_ = p.error_ ∧
        q.code = p.code ++ [x.code q.variables_, y.code q.variables_, c1.command,
          z.code q.variables_, c2.command]) := by
  have hs1 : p.scanner_ =
      (Expr.bin c2 (.bin c1 (.atom x) (.atom y)) (.atom z)).lexemes ++ rest := by
    simpa [Expr.lexemes] using hs
  have hf : c1.level = c2.level →
      (Expr.bin c2 (.bin c1 (.atom x) (.atom y)) (.atom z)).Fits := fun e =>
    ⟨le_of_eq e.symm, Nat.lt_succ_of_le c2.level_le.2,
      ⟨c1.level_le.2.trans (Nat.le_succ 8), Nat.lt_succ_of_le c1.level_le.2, trivial, trivial⟩,
      trivial⟩
  refine ⟨fun h1 h2 hr => ?_, fun h1 h2 hr => ?_, fun h hr => ?_⟩
  · obtain ⟨q, hq, hP⟩ := Expr.parsed _ (hf (h1.trans h2.symm)) 6 p rest (by decide)
      (le_of_eq h2.symm) hs1 hr
    refine ⟨q, total_of_runs (fun k => (allMono k).2.2.2.2.2.2.2.2.2.2.2.2.2.1)
      ((allTotal _).2.2.2.2.2.2.2.2.2.2.2.2.2.1 p (le_refl _)) hq, hP.1, hP.2.2.1, ?_⟩
    rw [hP.2.1, compare_chain_code x y z c1 c2 (by omega) (by omega)]
  · obtain ⟨q, hq, hP⟩ := Expr.parsed _ (hf (h1.trans h2.symm)) 5 p rest (by decide)
      (le_of_eq h2.symm) hs1 hr
    refine ⟨q, total_of_runs (fun k => (allMono k).2.2.2.2.2.2.2.2.2.2.2.1)
      ((allTotal _).2.2.2.2.2.2.2.2.2.2.2.1 p (le_refl _)) hq, hP.1, hP.2.2.1, ?_⟩
    rw [hP.2.1, compare_chain_code x y z c1 c2 (by omega) (by omega)]
  · have h12 : c1.level = c2.level ∧ 2 < c1.level ∧ 2 < c2.level := by
      rcases h with ⟨a, b⟩ | ⟨a, b⟩ <;> omega
    obtain ⟨q, hq, hP⟩ := Expr.expression_parsed _ (hf h12.1) p rest hs1 hr
    refine ⟨q, hq, hP.1, hP.2.2.1, ?_⟩
    rw [hP.2.1, compare_chain_code x y z c1 c2 h12.2.1 h12.2.2]

/-- C13 as amended at `1<2<3)`: `equalityExpression` reads up to the `)` and
emits `PUSH 1`, `PUSH 2`, `COMPARE <`, `PUSH 3`, `COMPARE <`; the error flag
stays clear. -/
theorem comparison_chains_witness :
    ∃ q, equalityExpression (10 * compareChainState.scanner_.length + 4) compareChainState =
        some q ∧
      q.scanner_ = [.kw .T_RPAREN] ∧ q.error_ = false ∧
      q.code = [⟨.PUSH, some 1⟩, ⟨.PUSH, some 2⟩, ⟨.COMPARE, some Cmp.C_LT.toInt⟩,
        ⟨.PUSH, some 3⟩, ⟨.COMPARE, some Cmp.C_LT.toInt⟩] :=
  ((comparison_chains (.lit 1) (.lit 2) (.lit 3) .lt .lt compareChainState [.kw .T_RPAREN]
    rfl).1 rfl rfl (by decide)).elim
    fun q hq => ⟨q, hq.1, hq.2.1, hq.2.2.1, hq.2.2.2.trans rfl⟩

/-! ## Running the code of `&&` -/

theorem OperandCode.of_names (vars : List (String × Nat)) (memory : Int → Int) (a : Operand)
    (h : ∀ x ∈ a.names, ∃ k, vars.lookup x = some k) :
    ∃ v, OperandCode vars memory a (a.code vars) v := by
  cases a with
  | lit w => exact ⟨w, rfl, rfl⟩
  | var x =>
    obtain ⟨k, hk⟩ := h x (by simp [Operand.names])
    exact ⟨memory k, k, hk, by simp [Operand.code, hk], rfl⟩

theorem Machine.run_cons {code : List Command} {memory : Int → Int} {stop fuel : Nat}
    {m m1 r : Machine} {tr : List Nat} (hpc : m.pc ≠ stop)
    (hs : Machine.step code memory m = some m1)
    (hr : Machine.run code memory stop fuel m1 = some (r, tr)) :
    Machine.run code memory stop (fuel + 1) m = some (r, m.pc :: tr) := by
  simp [Machine.run, hpc, hs, hr]

theorem Machine.run_done (code : List Command) (memory : Int → Int) (stop fuel : Nat)
    (s : List Int) :
    Machine.run code memory stop (fuel + 1) ⟨stop, s⟩ = some (⟨stop, s⟩, []) := by
  simp [Machine.run]

theorem see_of_level_zero (q : Parser) (h : q.lexeme.level = 0) :
    q.see .T_MULOP = false ∧ q.see .T_ADDOP = false ∧ q.see .T_CMP = false ∧
      q.see .T_BITWISEANDOP = false ∧ q.see .T_BITWISEOROP = false ∧
      q.see .T_LOGICALANDOP = false ∧ q.see .T_LOGICALOROP = false := by
  unfold Lexeme.level at h
  simp only [Parser.see, Parser.token, decide_eq_false_iff_not]
  refine ⟨?_, ?_, ?_, ?_, ?_, ?_, ?_⟩ <;> intro e <;> rw [e] at h <;> dsimp only at h
  · omega
  · omega
  · split at h <;> omega
  · omega
  · omega
  · omega
  · omega

/-- The steps of the machine through the code of `a && b` placed at `base`. -/
theorem Machine.and_steps (code : List Command) (base : Nat) (memory : Int → Int)
    (vars : List (String × Nat)) (a b : Operand) (ca cb : Command) (va vb : Int)
    (hoa : OperandCode vars memory a ca va) (hob : OperandCode vars memory b cb vb)
    (g : ∀ k, k < 9 → code[base + k]? =
      ([ca, ⟨.PUSH, some 0⟩, ⟨.COMPARE, some Cmp.C_NE.toInt⟩, ⟨.DUP, none⟩,
        ⟨.JUMP_NO, some ((base + 9 : Nat) : Int)⟩, cb, ⟨.PUSH, some 0⟩,
        ⟨.COMPARE, some Cmp.C_NE.toInt⟩, ⟨.AND, none⟩] : List Command)[k]?) :
    (∀ t, Machine.step code memory ⟨base, t⟩ = some ⟨base + 1, va :: t⟩) ∧
    (∀ t, Machine.step code memory ⟨base + 1, t⟩ = some ⟨base + 2, 0 :: t⟩) ∧
    (∀ x y t, Machine.step code memory ⟨base + 2, y :: x :: t⟩ =
      some ⟨base + 3, (if x ≠ y then 1 else 0) :: t⟩) ∧
    (∀ x t, Machine.step code memory ⟨base + 3, x :: t⟩ = some ⟨base + 4, x :: x :: t⟩) ∧
    (∀ x t, Machine.step code memory ⟨base + 4, x :: t⟩ =
      some ⟨if x = 0 then base + 9 else base + 5, t⟩) ∧
    (∀ t, Machine.step code memory ⟨base + 5, t⟩ = some ⟨base + 6, vb :: t⟩) ∧
    (∀ t, Machine.step code memory ⟨base + 6, t⟩ = some ⟨base + 7, 0 :: t⟩) ∧
    (∀ x y t, Machine.step code memory ⟨base + 7, y :: x :: t⟩ =
      some ⟨base + 8, (if x ≠ y then 1 else 0) :: t⟩) ∧
    (∀ x y t, Machine.step code memory ⟨base + 8, y :: x :: t⟩ =
      some ⟨base + 9, Int.land x y :: t⟩) := by
  refine ⟨fun t => ?_, fun t => ?_, fun x y t => ?_, fun x t => ?_, fun x t => ?_, fun t => ?_,
    fun t => ?_, fun x y t => ?_, fun x y t => ?_⟩
  · exact Machine.step_operand code memory _ t vars a ca va (by simpa using g 0 (by decide)) hoa
  · simp [Machine.step, g 1 (by decide)]
  · simp [Machine.step, g 2 (by decide)]
  · simp [Machine.step, g 3 (by decide)]
  · simp [Machine.step, g 4 (by decide)]
    split <;> omega
  · exact Machine.step_operand code memory _ t vars b cb vb (by simpa using g 5 (by decide)) hob
  · simp [Machine.step, g 6 (by decide)]
  · simp [Machine.step, g 7 (by decide)]
  · simp [Machine.step, g 8 (by decide)]

/-- Running the code of `a && b` in any buffer that holds it at `base`: the
machine ends right after the code with one more value on the stack, 1 if both
operands are nonzero and 0 otherwise, and when `a` is zero it executes only the
first five instructions. -/
theorem Machine.run_and (base : Nat) (memory : Int → Int) (vars : List (String × Nat))
    (a b : Operand) (ca cb : Command) (va vb : Int) (hoa : OperandCode vars memory a ca va)
    (hob : OperandCode vars memory b cb vb) (s : List Int) :
    ∃ trace, (va = 0 → ∀ i ∈ trace, i < base + 5) ∧
      ∀ code : List Command,
        (∀ k, k < 9 → code[base + k]? =
          ([ca, ⟨.PUSH, some 0⟩, ⟨.COMPARE, some Cmp.C_NE.toInt⟩, ⟨.DUP, none⟩,
            ⟨.JUMP_NO, some ((base + 9 : Nat) : Int)⟩, cb, ⟨.PUSH, some 0⟩,
            ⟨.COMPARE, some Cmp.C_NE.toInt⟩, ⟨.AND, none⟩] : List Command)[k]?) →
        Machine.run code memory (base + 9) 10 ⟨base, s⟩ =
          some (⟨base + 9, (if va ≠ 0 ∧ vb ≠ 0 then 1 else 0) :: s⟩, trace) := by
  have l1 : Int.land 1 1 = 1 := by decide
  have l0 : Int.land 1 0 = 0 := by decide
  by_cases hva : va = 0
  · refine ⟨[base, base + 1, base + 2, base + 3, base + 4], fun _ i hi => ?_, fun code g => ?_⟩
    · simp only [List.mem_cons, List.mem_singleton, List.not_mem_nil, or_false] at hi
      omega
    · obtain ⟨e0, e1, e2, e3, e4, -⟩ :=
        Machine.and_steps code base memory vars a b ca cb va vb hoa hob g
      subst hva
      simp [Machine.run, e0, e1, e2, e3, e4]
  · refine ⟨[base, base + 1, base + 2, base + 3, base + 4, base + 5, base + 6, base + 7,
      base + 8], fun h => absurd h hva, fun code g => ?_⟩
    obtain ⟨e0, e1, e2, e3, e4, e5, e6, e7, e8⟩ :=
      Machine.and_steps code base memory vars a b ca cb va vb hoa hob g
    have e2a : ∀ t, Machine.step code memory ⟨base + 2, 0 :: va :: t⟩ =
        some ⟨base + 3, 1 :: t⟩ := by
      intro t
      rw [e2, if_pos hva]
    have e4a : ∀ t, Machine.step code memory ⟨base + 4, 1 :: t⟩ = some ⟨base + 5, t⟩ := by
      intro t
      rw [e4, if_neg one_ne_zero]
    have e8a : ∀ t, Machine.step code memory
        ⟨base + 8, (if vb ≠ 0 then 1 else 0) :: 1 :: t⟩ =
        some ⟨base + 9, (if va ≠ 0 ∧ vb ≠ 0 then 1 else 0) :: t⟩ := by
      intro t
      rw [e8]
      by_cases hvb : vb = 0
      · simp [hvb, l0]
      · simp [hva, hvb, l1]
    refine Machine.run_cons (by simp) (e0 s) ?_
    refine Machine.run_cons (by simp) (e1 _) ?_
    refine Machine.run_cons (by simp) (e2a _) ?_
    refine Machine.run_cons (by simp) (e3 _ _) ?_
    refine Machine.run_cons (by simp) (e4a _) ?_
    refine Machine.run_cons (by simp) (e5 _) ?_
    refine Machine.run_cons (by simp) (e6 _) ?_
    refine Machine.run_cons (by simp) (e7 vb 0 _) ?_
    refine Machine.run_cons (by simp) (e8a _) ?_
    exact Machine.run_done _ _ _ _ _

theorem getElem?_segment (pre seg : List Command) (k : Nat) :
    (pre ++ seg)[pre.length + k]? = seg[k]? := by
  rw [List.getElem?_append_right (Nat.le_add_right _ _), Nat.add_sub_cancel_left]

/-- C18: for operands `a` and `b` that are integer literals or variables, in
any parser state in front of `a && b` that no binary operator follows,
`expression` emits the code of `a`, `PUSH 0`, `COMPARE ≠`, `DUP`, `JUMP_NO t`,
the code of `b`, `PUSH 0`, `COMPARE ≠`, `AND`.  Run on the stack machine from
any stack `s`, in the buffer as it is then and in every buffer that holds these
instructions at their addresses (such as the finished program), this code ends
at the instruction after it with `s` plus one value, which is 1 if `a ≠ 0` and
`b ≠ 0` and 0 otherwise (the operands are normalised to 0 or 1 before the
bitwise `AND`); when `a = 0` only the first five instructions are executed, so
neither the instruction of `b` (at the sixth address) nor its normalisation nor
the `AND`. -/
theorem logical_and_short_circuit (p : Parser) (a b : Operand) (memory : Int → Int)
    (s : List Int) (rest : List Lexeme)
    (hs : p.scanner_ = [a.lexeme, .kw .T_LOGICALANDOP, b.lexeme] ++ rest)
    (hr : (rest.headD Lexeme.eof).level = 0) :
    ∃ q ca cb va vb trace,
      expression (10 * p.scanner_.length + 9) p = some q ∧
      q.scanner_ = rest ∧ q.error_ = p.error_ ∧
      q.code = p.code ++ [ca, ⟨.PUSH, some 0⟩, ⟨.COMPARE, some Cmp.C_NE.toInt⟩, ⟨.DUP, none⟩,
        ⟨.JUMP_NO, some ((p.code.length + 9 : Nat) : Int)⟩, cb, ⟨.PUSH, some 0⟩,
        ⟨.COMPARE, some Cmp.C_NE.toInt⟩, ⟨.AND, none⟩] ∧
      OperandCode q.variables_ memory a ca va ∧ OperandCode q.variables_ memory b cb vb ∧
      Machine.run q.code memory q.code.length 10 ⟨p.code.length, s⟩ =
        some (⟨q.code.length, (if va ≠ 0 ∧ vb ≠ 0 then 1 else 0) :: s⟩, trace) ∧
      (∀ code : List Command,
        (∀ k, k < 9 → code[p.code.length + k]? = q.code[p.code.length + k]?) →
        Machine.run code memory (p.code.length + 9) 10 ⟨p.code.length, s⟩ =
          some (⟨p.code.length + 9, (if va ≠ 0 ∧ vb ≠ 0 then 1 else 0) :: s⟩, trace)) ∧
      q.code[p.code.length + 5]? = some cb ∧
      (va = 0 → ∀ i ∈ trace, i < p.code.length + 5) := by
  obtain ⟨q, hq, hP⟩ := Expr.expression_parsed (.bin .land (.atom a) (.atom b))
    ⟨(show 2 ≤ 9 by decide), (show 2 < 9 by decide), trivial, trivial⟩ p rest
    (by simpa [Expr.lexemes] using hs) hr
  obtain ⟨va, hoa⟩ := OperandCode.of_names q.variables_ memory a
    fun x hx => hP.2.2.2.2 x (by simp [Expr.names, hx])
  obtain ⟨vb, hob⟩ := OperandCode.of_names q.variables_ memory b
    fun x hx => hP.2.2.2.2 x (by simp [Expr.names, hx])
  have hc : q.code = p.code ++ [a.code q.variables_, ⟨.PUSH, some 0⟩,
      ⟨.COMPARE, some Cmp.C_NE.toInt⟩, ⟨.DUP, none⟩,
      ⟨.JUMP_NO, some ((p.code.length + 9 : Nat) : Int)⟩, b.code q.variables_, ⟨.PUSH, some 0⟩,
      ⟨.COMPARE, some Cmp.C_NE.toInt⟩, ⟨.AND, none⟩] := by
    rw [hP.2.1]
    simp [Expr.code, BinOp.wrap, BinOp.gap]
    omega
  obtain ⟨trace, ht, hr1⟩ :=
    Machine.run_and p.code.length memory q.variables_ a b _ _ va vb hoa hob s
  have hl : q.code.length = p.code.length + 9 := by
    rw [hc]
    simp
  have hg : ∀ k, q.code[p.code.length + k]? =
      ([a.code q.variables_, ⟨.PUSH, some 0⟩, ⟨.COMPARE, some Cmp.C_NE.toInt⟩, ⟨.DUP, none⟩,
        ⟨.JUMP_NO, some ((p.code.length + 9 : Nat) : Int)⟩, b.code q.variables_,
        ⟨.PUSH, some 0⟩, ⟨.COMPARE, some Cmp.C_NE.toInt⟩, ⟨.AND, none⟩] : List Command)[k]? := by
    intro k
    rw [hc]
    exact getElem?_segment _ _ k
  refine ⟨q, _, _, va, vb, trace, hq, hP.1, hP.2.2.1, hc, hoa, hob, ?_, fun code g => ?_, ?_, ht⟩
  · rw [hl]
    exact hr1 q.code fun k _ => hg k
  · exact hr1 code fun k hk => (g k hk).trans (hg k)
  · rw [hg 5]
    rfl

/-- C18 on `begin write(0 && y) end` and `begin write(1 && 2) end`, with 7 in
every memory cell.  The state after `write(` is the one the theorem is applied
to.  The program with `0 && y` is translated without error; in its flushed
code the machine executes the instructions at 0 to 4, not the `LOAD` at 5, and
reaches the `PRINT` at 9 with 0 on the stack.  For `1 && 2` all nine
instructions are executed and the result is 1, although `1` and `2` have no
common bit. -/
theorem logical_and_short_circuit_witness :
    (((Parser.init andWriteSample).mustBe .T_BEGIN).match_ .T_WRITE).2.mustBe .T_LPAREN =
      andWriteState ∧
    (∃ r, parse (parseFuel andWriteSample) (Parser.init andWriteSample) = some r ∧
      r.error_ = false ∧ r.flushed = true ∧
      r.code = [⟨.PUSH, some 0⟩, ⟨.PUSH, some 0⟩, ⟨.COMPARE, some Cmp.C_NE.toInt⟩, ⟨.DUP, none⟩,
        ⟨.JUMP_NO, some 9⟩, ⟨.LOAD, some 0⟩, ⟨.PUSH, some 0⟩, ⟨.COMPARE, some Cmp.C_NE.toInt⟩,
        ⟨.AND, none⟩, ⟨.PRINT, none⟩, ⟨.STOP, none⟩] ∧
      Machine.run r.code (fun _ => 7) 9 10 ⟨0, []⟩ = some (⟨9, [0]⟩, [0, 1, 2, 3, 4])) ∧
    (∃ r, parse (parseFuel andLiteralSample) (Parser.init andLiteralSample) = some r ∧
      r.error_ = false ∧ r.flushed = true ∧
      r.code = [⟨.PUSH, some 1⟩, ⟨.PUSH, some 0⟩, ⟨.COMPARE, some Cmp.C_NE.toInt⟩, ⟨.DUP, none⟩,
        ⟨.JUMP_NO, some 9⟩, ⟨.PUSH, some 2⟩, ⟨.PUSH, some 0⟩, ⟨.COMPARE, some Cmp.C_NE.toInt⟩,
        ⟨.AND, none⟩, ⟨.PRINT, none⟩, ⟨.STOP, none⟩] ∧
      Machine.run r.code (fun _ => 7) 9 10 ⟨0, []⟩ =
        some (⟨9, [1]⟩, [0, 1, 2, 3, 4, 5, 6, 7, 8])) ∧
    ∃ q ca cb va vb trace,
      expression (10 * andWriteState.scanner_.length + 9) andWriteState = some q ∧
      q.scanner_ = [.kw .T_RPAREN, .kw .T_END] ∧ q.error_ = andWriteState.error_ ∧
      q.code = andWriteState.code ++ [ca, ⟨.PUSH, some 0⟩,
        ⟨.COMPARE, some Cmp.C_NE.toInt⟩, ⟨.DUP, none⟩,
        ⟨.JUMP_NO, some ((andWriteState.code.length + 9 : Nat) : Int)⟩, cb,
        ⟨.PUSH, some 0⟩, ⟨.COMPARE, some Cmp.C_NE.toInt⟩, ⟨.AND, none⟩] ∧
      OperandCode q.variables_ (fun _ => 7) (.lit 0) ca va ∧
      OperandCode q.variables_ (fun _ => 7) (.var "y") cb vb ∧
      Machine.run q.code (fun _ => 7) q.code.length 10 ⟨andWriteState.code.length, []⟩ =
        some (⟨q.code.length, (if va ≠ 0 ∧ vb ≠ 0 then 1 else 0) :: []⟩, trace) ∧
      (∀ code : List Command,
        (∀ k, k < 9 → code[andWriteState.code.length + k]? =
          q.code[andWriteState.code.length + k]?) →
        Machine.run code (fun _ => 7) (andWriteState.code.length + 9) 10
            ⟨andWriteState.code.length, []⟩ =
          some (⟨andWriteState.code.length + 9, (if va ≠ 0 ∧ vb ≠ 0 then 1 else 0) :: []⟩,
            trace)) ∧
      q.code[andWriteState.code.length + 5]? = some cb ∧
      (va = 0 → ∀ i ∈ trace, i < andWriteState.code.length + 5) :=
  ⟨by decide, by decide, by decide,
    logical_and_short_circuit andWriteState (.lit 0) (.var "y") (fun _ => 7) []
      [.kw .T_RPAREN, .kw .T_END] rfl rfl⟩

/-! ## Running the code of `||` -/

/-- The code that `expression` emits for `a || b` when `a` and `b` are operands
and no binary operator follows. -/
theorem or_operands_code (p : Parser) (a b : Operand) (memory : Int → Int)
    (rest : List Lexeme)
    (hs : p.scanner_ = [a.lexeme, .kw .T_LOGICALOROP, b.lexeme] ++ rest)
    (hr : (rest.headD Lexeme.eof).level = 0) (n : Nat) :
    ∃ q ca cb va vb, expression (n + 11) p = some q ∧
      q.code = p.code ++ [ca, ⟨.DUP, none⟩, ⟨.JUMP_YES, some ((p.code.length + 5 : Nat) : Int)⟩,
        cb, ⟨.OR, none⟩, ⟨.PUSH, some 0⟩, ⟨.COMPARE, some Cmp.C_NE.toInt⟩] ∧
      OperandCode q.variables_ memory a ca va ∧ OperandCode q.variables_ memory b cb vb := by
  have hs1 : p.scanner_ = a.lexeme :: .kw .T_LOGICALOROP :: b.lexeme :: rest := hs
  obtain ⟨qa, ca, va, fa, sa, ea, oa, -⟩ := factor_operand (n + 2) p a _ hs1 memory
  have hA : orExpression (n + 10) p = some qa :=
    orExpression_of_factor fa (by rw [see_of_scanner qa _ _ _ sa]; rfl)
      (by rw [see_of_scanner qa _ _ _ sa]; rfl) (by rw [see_of_scanner qa _ _ _ sa]; rfl)
      (by rw [see_of_scanner qa _ _ _ sa]; rfl) (by rw [see_of_scanner qa _ _ _ sa]; rfl)
      (by rw [see_of_scanner qa _ _ _ sa]; rfl)
  have hsee : qa.see .T_LOGICALOROP = true := by
    rw [see_of_scanner qa _ _ _ sa]
    rfl
  have sb0 : qa.reserve.2.reserve.2.next.scanner_ = b.lexeme :: rest := by
    simp [Parser.next, Parser.reserve, sa]
  obtain ⟨qb, cb, vb, fb, sb, eb, ob, mb⟩ :=
    factor_operand (n + 1) qa.reserve.2.reserve.2.next b _ sb0 memory
  have hz := see_of_level_zero qb (by
    unfold Parser.lexeme
    rw [sb]
    exact hr)
  have hB : orExpression (n + 9) qa.reserve.2.reserve.2.next = some qb :=
    orExpression_of_factor fb hz.1 hz.2.1 hz.2.2.1 hz.2.2.2.1 hz.2.2.2.2.1 hz.2.2.2.2.2.1
  have eb1 : qb.code = (p.code ++ [ca]) ++ ⟨.NOP, none⟩ :: ⟨.NOP, none⟩ :: [cb] := by
    rw [eb]
    simp [Parser.next, Parser.reserve, ea]
  have hl : qa.code.length = (p.code ++ [ca]).length := by rw [ea]
  have ht : qb.code.length + 1 = p.code.length + 5 := by
    rw [eb1]
    simp
  have hE : expression (n + 11) p = some
      (((((qb.emit .OR none).emitAt qa.reserve.1 .DUP none).emitAt qa.reserve.2.reserve.1
        .JUMP_YES (some (((qb.emit .OR none).emitAt qa.reserve.1 .DUP
          none).getCurrentAddress : Int))).emit .PUSH (some 0)).emit .COMPARE
        (some Cmp.C_NE.toInt)) := by
    simp only [expression, hA, Option.some_bind]
    rw [expressionLoop_step _ _ hsee, hB, Option.some_bind]
    refine expressionLoop_exit _ _ ?_
    simp only [Parser.emit_see, Parser.emitAt_see]
    exact hz.2.2.2.2.2.2
  refine ⟨_, ca, cb, va, vb, hE, ?_, oa.extend mb, ob⟩
  · simp only [Parser.emit, Parser.emitAt, Parser.reserve, Parser.getCurrentAddress,
      List.length_append, List.length_singleton, List.length_set]
    rw [hl, ht, eb1, List.append_assoc (p.code ++ [ca]), List.cons_append, List.cons_append,
      set_set_length_append]
    simp

/-- The steps of the machine through the code of `a || b` placed at `base`. -/
theorem Machine.or_steps (code : List Command) (base : Nat) (memory : Int → Int)
    (vars : List (String × Nat)) (a b : Operand) (ca cb : Command) (va vb : Int)
    (hoa : OperandCode vars memory a ca va) (hob : OperandCode vars memory b cb vb)
    (g : ∀ k, k < 7 → code[base + k]? =
      ([ca, ⟨.DUP, none⟩, ⟨.JUMP_YES, some ((base + 5 : Nat) : Int)⟩, cb, ⟨.OR, none⟩,
        ⟨.PUSH, some 0⟩, ⟨.COMPARE, some Cmp.C_NE.toInt⟩] : List Command)[k]?) :
    (∀ t, Machine.step code memory ⟨base, t⟩ = some ⟨base + 1, va :: t⟩) ∧
    (∀ x t, Machine.step code memory ⟨base + 1, x :: t⟩ = some ⟨base + 2, x :: x :: t⟩) ∧
    (∀ x t, Machine.step code memory ⟨base + 2, x :: t⟩ =
      some ⟨if x ≠ 0 then base + 5 else base + 3, t⟩) ∧
    (∀ t, Machine.step code memory ⟨base + 3, t⟩ = some ⟨base + 4, vb :: t⟩) ∧
    (∀ x y t, Machine.step code memory ⟨base + 4, y :: x :: t⟩ =
      some ⟨base + 5, Int.lor x y :: t⟩) ∧
    (∀ t, Machine.step code memory ⟨base + 5, t⟩ = some ⟨base + 6, 0 :: t⟩) ∧
    (∀ x y t, Machine.step code memory ⟨base + 6, y :: x :: t⟩ =
      some ⟨base + 7, (if x ≠ y then 1 else 0) :: t⟩) := by
  refine ⟨fun t => ?_, fun x t => ?_, fun x t => ?_, fun t => ?_, fun x y t => ?_, fun t => ?_,
    fun x y t => ?_⟩
  · exact Machine.step_operand code memory _ t vars a ca va (by simpa using g 0 (by decide)) hoa
  · simp [Machine.step, g 1 (by decide)]
  · simp [Machine.step, g 2 (by decide)]
    split <;> omega
  · exact Machine.step_operand code memory _ t vars b cb vb (by simpa using g 3 (by decide)) hob
  · simp [Machine.step, g 4 (by decide)]
  · simp [Machine.step, g 5 (by decide)]
  · simp [Machine.step, g 6 (by decide)]

/-- Running the code of `a || b` in any buffer that holds it at `base`: the
machine ends right after the code with one more value on the stack, 1 if one of
the operands is nonzero and 0 otherwise, and it skips the code of `b` when `a`
is nonzero. -/
theorem Machine.run_or (base : Nat) (memory : Int → Int) (vars : List (String × Nat))
    (a b : Operand) (ca cb : Command) (va vb : Int) (hoa : OperandCode vars memory a ca va)
    (hob : OperandCode vars memory b cb vb) (s : List Int) :
    ∃ trace, (va ≠ 0 → base + 3 ∉ trace) ∧
      ∀ code : List Command,
        (∀ k, k < 7 → code[base + k]? =
          ([ca, ⟨.DUP, none⟩, ⟨.JUMP_YES, some ((base + 5 : Nat) : Int)⟩, cb, ⟨.OR, none⟩,
            ⟨.PUSH, some 0⟩, ⟨.COMPARE, some Cmp.C_NE.toInt⟩] : List Command)[k]?) →
        Machine.run code memory (base + 7) 8 ⟨base, s⟩ =
          some (⟨base + 7, (if va ≠ 0 ∨ vb ≠ 0 then 1 else 0) :: s⟩, trace) := by
  by_cases hva : va = 0
  · refine ⟨[base, base + 1, base + 2, base + 3, base + 4, base + 5, base + 6],
      fun h => absurd hva h, fun code g => ?_⟩
    obtain ⟨e0, e1, e2, e3, e4, e5, e6⟩ :=
      Machine.or_steps code base memory vars a b ca cb va vb hoa hob g
    subst hva
    simp [Machine.run, e0, e1, e2, e3, e4, e5, e6, lor_zero_left]
  · refine ⟨[base, base + 1, base + 2, base + 5, base + 6], fun _ => by simp,
      fun code g => ?_⟩
    obtain ⟨e0, e1, e2, -, -, e5, e6⟩ :=
      Machine.or_steps code base memory vars a b ca cb va vb hoa hob g
    simp [Machine.run, e0, e1, e2, e5, e6, hva]

/-- C7: for operands `a` and `b` that are integer literals or variables, in any
parser state in front of `a || b` that no binary operator follows, `expression`
emits the code of `a`, `DUP`, `JUMP_YES t`, the code of `b`, `OR`, `PUSH 0`,
`COMPARE ≠`.  Run on the stack machine from any stack `s`, in the buffer as it
is then and in every buffer that holds these instructions at their addresses
(such as the finished program), this code ends at the instruction after it with
`s` plus one value, which is 1 if `a ≠ 0` or `b ≠ 0` and 0 otherwise; when
`a ≠ 0` the instruction emitted for `b` (at the fourth address of the code) is
not executed. -/
theorem logical_or_short_circuit (p : Parser) (a b : Operand) (memory : Int → Int)
    (s : List Int) (n : Nat) (rest : List Lexeme)
    (hs : p.scanner_ = [a.lexeme, .kw .T_LOGICALOROP, b.lexeme] ++ rest)
    (hr : (rest.headD Lexeme.eof).level = 0) :
    ∃ q ca cb va vb trace,
      expression (n + 11) p = some q ∧
      q.scanner_ = rest ∧ q.error_ = p.error_ ∧
      q.code = p.code ++ [ca, ⟨.DUP, none⟩, ⟨.JUMP_YES, some ((p.code.length + 5 : Nat) : Int)⟩,
        cb, ⟨.OR, none⟩, ⟨.PUSH, some 0⟩, ⟨.COMPARE, some Cmp.C_NE.toInt⟩] ∧
      OperandCode q.variables_ memory a ca va ∧ OperandCode q.variables_ memory b cb vb ∧
      Machine.run q.code memory q.code.length 8 ⟨p.code.length, s⟩ =
        some (⟨q.code.length, (if va ≠ 0 ∨ vb ≠ 0 then 1 else 0) :: s⟩, trace) ∧
      (∀ code : List Command,
        (∀ k, k < 7 → code[p.code.length + k]? = q.code[p.code.length + k]?) →
        Machine.run code memory (p.code.length + 7) 8 ⟨p.code.length, s⟩ =
          some (⟨p.code.length + 7, (if va ≠ 0 ∨ vb ≠ 0 then 1 else 0) :: s⟩, trace)) ∧
      q.code[p.code.length + 3]? = some cb ∧
      (va ≠ 0 → p.code.length + 3 ∉ trace) := by
  obtain ⟨q, ca, cb, va, vb, hE, hc, hoa, hob⟩ := or_operands_code p a b memory rest hs hr n
  obtain ⟨q1, hq1, hP⟩ := Expr.expression_parsed (.bin .lor (.atom a) (.atom b))
    ⟨(show 1 ≤ 9 by decide), (show 1 < 9 by decide), trivial, trivial⟩ p rest
    (by simpa [Expr.lexemes] using hs) hr
  have e : q1 = q := runs_unique (fun k => (allMono k).2.2.2.1) hq1 hE
  subst e
  obtain ⟨trace, ht, hr1⟩ :=
    Machine.run_or p.code.length memory q1.variables_ a b ca cb va vb hoa hob s
  have hl : q1.code.length = p.code.length + 7 := by
    rw [hc]
    simp
  have hg : ∀ k, q1.code[p.code.length + k]? =
      ([ca, ⟨.DUP, none⟩, ⟨.JUMP_YES, some ((p.code.length + 5 : Nat) : Int)⟩, cb, ⟨.OR, none⟩,
        ⟨.PUSH, some 0⟩, ⟨.COMPARE, some Cmp.C_NE.toInt⟩] : List Command)[k]? := by
    intro k
    rw [hc]
    exact getElem?_segment _ _ k
  refine ⟨q1, ca, cb, va, vb, trace, hE, hP.1, hP.2.2.1, hc, hoa, hob, ?_, fun code g => ?_, ?_,
    ht⟩
  · rw [hl]
    exact hr1 q1.code fun k _ => hg k
  · exact hr1 code fun k hk => (g k hk).trans (hg k)
  · rw [hg 3]
    rfl

/-- C7 on `begin write(1 || y) end` with 7 in every memory cell.  The state
after `write(` is the one the theorem is applied to.  The program is translated
without error; in its flushed code `PUSH 1, DUP, JUMP_YES 5, LOAD 0, OR,
PUSH 0, COMPARE ≠, PRINT, STOP` the machine executes the instructions at 0, 1,
2, 5, 6, not the `LOAD` at 3, and reaches the `PRINT` at 7 with 1 on the
stack. -/
theorem logical_or_short_circuit_witness :
    (((Parser.init orWriteSample).mustBe .T_BEGIN).match_ .T_WRITE).2.mustBe .T_LPAREN =
      orWriteState ∧
    (∃ r, parse (parseFuel orWriteSample) (Parser.init orWriteSample) = some r ∧
      r.error_ = false ∧ r.flushed = true ∧
      r.code = [⟨.PUSH, some 1⟩, ⟨.DUP, none⟩, ⟨.JUMP_YES, some 5⟩, ⟨.LOAD, some 0⟩,
        ⟨.OR, none⟩, ⟨.PUSH, some 0⟩, ⟨.COMPARE, some Cmp.C_NE.toInt⟩, ⟨.PRINT, none⟩,
        ⟨.STOP, none⟩] ∧
      Machine.run r.code (fun _ => 7) 7 8 ⟨0, []⟩ = some (⟨7, [1]⟩, [0, 1, 2, 5, 6])) ∧
    ∃ q ca cb va vb trace,
      expression (0 + 11) orWriteState = some q ∧
      q.scanner_ = [.kw .T_RPAREN, .kw .T_END] ∧ q.error_ = orWriteState.error_ ∧
      q.code = orWriteState.code ++ [ca, ⟨.DUP, none⟩,
        ⟨.JUMP_YES, some ((orWriteState.code.length + 5 : Nat) : Int)⟩,
        cb, ⟨.OR, none⟩, ⟨.PUSH, some 0⟩, ⟨.COMPARE, some Cmp.C_NE.toInt⟩] ∧
      OperandCode q.variables_ (fun _ => 7) (.lit 1) ca va ∧
      OperandCode q.variables_ (fun _ => 7) (.var "y") cb vb ∧
      Machine.run q.code (fun _ => 7) q.code.length 8 ⟨orWriteState.code.length, []⟩ =
        some (⟨q.code.length, (if va ≠ 0 ∨ vb ≠ 0 then 1 else 0) :: []⟩, trace) ∧
      (∀ code : List Command,
        (∀ k, k < 7 → code[orWriteState.code.length + k]? =
          q.code[orWriteState.code.length + k]?) →
        Machine.run code (fun _ => 7) (orWriteState.code.length + 7) 8
            ⟨orWriteState.code.length, []⟩ =
          some (⟨orWriteState.code.length + 7, (if va ≠ 0 ∨ vb ≠ 0 then 1 else 0) :: []⟩,
            trace)) ∧
      q.code[orWriteState.code.length + 3]? = some cb ∧
      (va ≠ 0 → orWriteState.code.length + 3 ∉ trace) :=
  ⟨by decide, by decide,
    logical_or_short_circuit orWriteState (.lit 1) (.var "y") (fun _ => 7) [] 0
      [.kw .T_RPAREN, .kw .T_END] rfl rfl⟩

end Milan
